import Mathlib

/-! # NDN packet core: wire codec, matching and FIB entry

A shallow embedding of `interest.cpp`, `data.cpp` (ndn-cxx) and `fib-entry.cpp` (NFD).
Bytes are natural numbers, exceptions are `Except Exn`, mutable objects are passed
and returned explicitly.
-/

set_option autoImplicit false

namespace nfd
namespace fib

/-- A face is identified by its address: `findNextHop` compares `&nexthop.getFace() == &face`. -/
abbrev Face := Nat

/-- One next hop record: the face reference and the `uint64_t` cost. -/
structure NextHop where
  face : Face
  cost : Nat
  deriving DecidableEq, Repr

abbrev NextHopList := List NextHop

/-- The FIB entry: `m_prefix` (as a list of component byte strings) and `m_nextHops`. -/
structure Entry where
  pfx : List (List Nat)
  nextHops : NextHopList
  deriving DecidableEq, Repr

/-- `Entry::Entry(const Name& prefix)`: the next-hop list starts empty. -/
def Entry.new (p : List (List Nat)) : Entry := ⟨p, []⟩

/-- `Entry::findNextHop`: `std::find_if` on face identity; `none` stands for `end()`. -/
def Entry.findNextHop (e : Entry) (face : Face) : Option Nat :=
  let i := e.nextHops.findIdx (fun nexthop => decide (nexthop.face = face))
  if i < e.nextHops.length then some i else none

/-- `Entry::hasNextHop`: `findNextHop(face) != m_nextHops.end()`. -/
def Entry.hasNextHop (e : Entry) (face : Face) : Bool :=
  (e.findNextHop face).isSome

/-- `it->setCost(cost)` on the element at position `it`. -/
def setCostAt (l : NextHopList) (it : Nat) (cost : Nat) : NextHopList :=
  l.modify (fun h => { h with cost := cost }) it

/-- The comparator given to `std::sort` in `sortNextHops`: `a.getCost() < b.getCost()`. -/
def costLt (a b : NextHop) : Bool := decide (a.cost < b.cost)

/-- The order `std::sort` establishes for the strict comparator `costLt`:
no element is strictly cheaper than one placed before it. -/
def SortedByCost (l : NextHopList) : Prop :=
  l.Pairwise (fun a b => costLt b a = false)

/-- The contract of `std::sort(first, last, comp)`: the result is a rearrangement of the
input that is ordered with respect to the comparator. The order of elements that compare
equal is not determined, so the sort is a parameter constrained by this contract. -/
structure StdSort (sort : NextHopList → NextHopList) : Prop where
  perm : ∀ l, (sort l).Perm l
  sorted : ∀ l, SortedByCost (sort l)

/-- `Entry::sortNextHops`. -/
def Entry.sortNextHops (sort : NextHopList → NextHopList) (e : Entry) : Entry :=
  { e with nextHops := sort e.nextHops }

/-- `Entry::addNextHop`: find, `emplace_back(face)` (cost 0) when absent, `setCost`, sort. -/
def Entry.addNextHop (sort : NextHopList → NextHopList) (e : Entry) (face : Face)
    (cost : Nat) : Entry :=
  match e.findNextHop face with
  | some it =>
    Entry.sortNextHops sort { e with nextHops := setCostAt e.nextHops it cost }
  | none =>
    let hops := e.nextHops ++ [NextHop.mk face 0]
    let it := hops.length - 1
    Entry.sortNextHops sort { e with nextHops := setCostAt hops it cost }

/-- `Entry::removeNextHop`: erase the found position, nothing when `end()`. -/
def Entry.removeNextHop (e : Entry) (face : Face) : Entry :=
  match e.findNextHop face with
  | some it => { e with nextHops := e.nextHops.eraseIdx it }
  | none => e

/-- An insertion sort by cost: one function that meets the `std::sort` contract. -/
def insertByCost (a : NextHop) : NextHopList → NextHopList
  | [] => [a]
  | b :: l => if costLt b a then b :: insertByCost a l else a :: b :: l

/-- Sorting by repeated insertion. -/
def sortByCost : NextHopList → NextHopList
  | [] => []
  | a :: l => insertByCost a (sortByCost l)

/-- The routing-management operations on an entry. -/
inductive Op
  | add (face : Face) (cost : Nat)
  | remove (face : Face)
  deriving DecidableEq, Repr

/-- Applying one operation. -/
def Entry.step (sort : NextHopList → NextHopList) (e : Entry) : Op → Entry
  | .add f c => e.addNextHop sort f c
  | .remove f => e.removeNextHop f

/-- Applying a finite sequence of operations, first to last. -/
def Entry.run (sort : NextHopList → NextHopList) (e : Entry) (ops : List Op) : Entry :=
  ops.foldl (Entry.step sort) e

end fib
end nfd

namespace ndn

/-- The exceptions the packet code raises. -/
inductive Exn
  | tlvError          -- tlv::Error (malformed TLV, missing element)
  | interestError     -- Interest::Error
  | dataError         -- Data::Error
  | invalidArgument   -- std::invalid_argument
  | outOfRange        -- an index outside a name (undefined behaviour in the source)
  deriving DecidableEq, Repr

/-! ## TLV elements -/

/-- The `k` low-order bytes of `n`, most significant first. -/
def bigEndian : Nat → Nat → List Nat
  | 0, _ => []
  | k + 1, n => (n / 256 ^ k) % 256 :: bigEndian k n

/-- The number a big-endian byte string denotes. -/
def fromBigEndian (bs : List Nat) : Nat :=
  bs.foldl (fun acc b => acc * 256 + b) 0

/-- Modelled from the spec: the variable-length integer of the wire buffer, which is not
under src. Values below 253 take one byte; a marker byte 253, 254 or 255 selects a 2, 4 or
8 byte big-endian payload. The argument is a `uint64_t`. -/
def encodeVarNumber (n : Nat) : List Nat :=
  let n := n % 2 ^ 64
  if n < 253 then [n]
  else if n ≤ 65535 then 253 :: bigEndian 2 n
  else if n ≤ 4294967295 then 254 :: bigEndian 4 n
  else 255 :: bigEndian 8 n

/-- Modelled from the spec: reading a variable-length integer from the front of a byte
range (the inverse of `encodeVarNumber`); fails when the range is too short. -/
def readVarNumber : List Nat → Except Exn (Nat × List Nat)
  | [] => .error .tlvError
  | b :: rest =>
    if b < 253 then .ok (b, rest)
    else
      let k := if b = 253 then 2 else if b = 254 then 4 else 8
      if rest.length < k then .error .tlvError
      else .ok (fromBigEndian (rest.take k), rest.drop k)

/-- Modelled from the spec: the TLV element (class `Block`, not under src): a type number
and the value bytes. The wire bytes and the child elements are derived from these. -/
structure Block where
  type : Nat
  value : List Nat
  deriving DecidableEq, Repr

/-- Modelled from the spec: `[type varint][length varint][value bytes]`. -/
def Block.wire (b : Block) : List Nat :=
  encodeVarNumber b.type ++ encodeVarNumber b.value.length ++ b.value

/-- The type number of a default-constructed (invalid) `Block`: the largest `uint32_t`. -/
def Block.invalidType : Nat := 4294967295

/-- A default-constructed `Block`. -/
def Block.invalid : Block := ⟨Block.invalidType, []⟩

/-- `Block::empty()`. -/
def Block.empty (b : Block) : Bool := decide (b.type = Block.invalidType)

/-- A parsed child element together with the bytes that follow its value in the
underlying buffer (a `Block` shares the buffer of the packet it was parsed from). -/
structure Element where
  block : Block
  tail : List Nat
  deriving DecidableEq, Repr

/-- Modelled from the spec: reading one TLV element from the front of a byte range. The
type must fit 32 bits and the length must not exceed the bytes that remain. -/
def readBlock (bs : List Nat) : Except Exn (Block × List Nat) :=
  match readVarNumber bs with
  | .error e => .error e
  | .ok (type, r1) =>
    if type > 4294967295 then .error .tlvError
    else
      match readVarNumber r1 with
      | .error e => .error e
      | .ok (length, r2) =>
        if length > r2.length then .error .tlvError
        else .ok (⟨type, r2.take length⟩, r2.drop length)

/-- The walk of `Block::parse` over a value range; `after` is what follows the range in
the underlying buffer. The fuel bounds the number of elements (each takes two bytes or
more, so the length of the range is enough). -/
def parseElementsAux : Nat → List Nat → List Nat → Except Exn (List Element)
  | _, [], _ => .ok []
  | 0, _ :: _, _ => .error .tlvError
  | fuel + 1, b :: bs, after =>
    match readBlock (b :: bs) with
    | .error e => .error e
    | .ok (blk, rest) =>
      match parseElementsAux fuel rest after with
      | .error e => .error e
      | .ok l => .ok (⟨blk, rest ++ after⟩ :: l)

/-- Modelled from the spec: `Block::parse`, the top-level child elements of a value. -/
def parseElements (bs : List Nat) (after : List Nat) : Except Exn (List Element) :=
  parseElementsAux bs.length bs after

/-- `Block::find(type)`: the first child element of that type; `none` is `elements_end()`. -/
def findElement (els : List Element) (type : Nat) : Option Element :=
  els.find? (fun e => decide (e.block.type = type))

/-- `Block::find(type)` where only the element itself is used, not its place in the
buffer. -/
def findBlock (els : List Element) (type : Nat) : Option Block :=
  (findElement els type).map Element.block

/-- `Block::get(type)`: as `find`, raising `tlv::Error` when there is none. -/
def getBlock (els : List Element) (type : Nat) : Except Exn Block :=
  match findBlock els type with
  | some b => .ok b
  | none => .error .tlvError

/-- `EncodingBuffer::block()`: the buffer must hold exactly one element. -/
def Block.fromBuffer (bs : List Nat) : Except Exn Block :=
  match readBlock bs with
  | .error e => .error e
  | .ok (b, rest) => if rest = [] then .ok b else .error .tlvError

/-- The encoding buffer: the bytes written so far. Every `prepend` puts bytes in front
and returns the number of bytes written. -/
abbrev Encoder := List Nat

/-- `prependByteArray`. -/
def Encoder.prependByteArray (enc : Encoder) (bs : List Nat) : Encoder × Nat :=
  (bs ++ enc, bs.length)

/-- `prependVarNumber`. -/
def Encoder.prependVarNumber (enc : Encoder) (n : Nat) : Encoder × Nat :=
  (encodeVarNumber n ++ enc, (encodeVarNumber n).length)

/-- `prependBlock`: the wire bytes of an element. -/
def Encoder.prependBlock (enc : Encoder) (b : Block) : Encoder × Nat :=
  Encoder.prependByteArray enc b.wire

/-- The four bytes of a `uint32_t` in host order (little-endian host). -/
def u32Bytes (v : Nat) : List Nat :=
  [v % 256, v / 256 % 256, v / 65536 % 256, v / 16777216 % 256]

/-- `std::memcpy(&x, p, 4)` into a zeroed `uint32_t`: the first four bytes at `p` in host
order. Bytes past the end of the buffer are read as zero. -/
def u32OfBytes (bs : List Nat) : Nat :=
  bs.getD 0 0 % 256 + 256 * (bs.getD 1 0 % 256) + 65536 * (bs.getD 2 0 % 256)
    + 16777216 * (bs.getD 3 0 % 256)

/-- The TLV type numbers (namespace `tlv`, declared outside src). -/
structure TlvTypes where
  Interest : Nat
  Data : Nat
  Name : Nat
  Selectors : Nat
  Nonce : Nat
  InterestLifetime : Nat
  ForwardingHint : Nat
  ForwarderId : Nat
  ForwardingMode : Nat
  MetaInfo : Nat
  Content : Nat
  SignatureInfo : Nat
  SignatureValue : Nat
  KeyLocator : Nat
  ResidualEnergy : Nat
  InitialHop : Nat
  IdsList : Nat
  deriving DecidableEq, Repr

/-! ## Names and selectors -/

/-- Modelled from the spec: a name component, an opaque byte string that is either a
generic component or an implicit-digest component. -/
structure Component where
  digest : Bool
  value : List Nat
  deriving DecidableEq, Repr

/-- `Component::isImplicitSha256Digest`. -/
def Component.isImplicitSha256Digest (c : Component) : Bool := c.digest

/-- Modelled from the spec: a name is an ordered sequence of components. -/
abbrev Name := List Component

/-- `Name::size`. -/
def Name.size (n : Name) : Nat := n.length

/-- Modelled from the spec: `Name::isPrefixOf`, component-wise prefix test. -/
def Name.isPrefixOf : Name → Name → Bool
  | [], _ => true
  | _ :: _, [] => false
  | a :: as, b :: bs => decide (a = b) && Name.isPrefixOf as bs

/-- Modelled from the spec: `Name::get(i)`, indexing with negative indices counted from
the end. An index outside the name is `none`. -/
def Name.get (n : Name) (i : Int) : Option Component :=
  if 0 ≤ i then n[i.toNat]?
  else if (n.length : Int) + i < 0 then none
  else n[((n.length : Int) + i).toNat]?

/-- One entry of an exclude filter, in wire order: a component or an `Any` marker. -/
inductive ExcludeEntry
  | component (c : Component)
  | any
  deriving DecidableEq, Repr

/-- Modelled from the spec: the exclude filter, an ordered set of excluded components and
ranges. -/
abbrev Exclude := List ExcludeEntry

/-- `Exclude::empty`. -/
def Exclude.empty (e : Exclude) : Bool := e.isEmpty

/-- Modelled from the spec: the publisher key locator, an optional opaque TLV block;
`none` is the empty locator and `some b` a locator whose wire encoding is `b`. -/
abbrev KeyLocator := Option Block

/-- `KeyLocator::empty`. -/
def KeyLocator.empty (k : KeyLocator) : Bool := k.isNone

/-- Modelled from the spec: the selector set of an Interest. -/
structure Selectors where
  minSuffixComponents : Int
  maxSuffixComponents : Int
  childSelector : Int
  mustBeFresh : Bool
  exclude : Exclude
  publisherPublicKeyLocator : KeyLocator
  deriving DecidableEq, Repr

/-- `DEFAULT_CHILD_SELECTOR`. -/
def DEFAULT_CHILD_SELECTOR : Int := 0

/-- `Selectors()`: every selector unset. -/
def Selectors.default : Selectors :=
  ⟨-1, -1, DEFAULT_CHILD_SELECTOR, false, [], none⟩

/-- Modelled from the spec: Selectors are written only if any selector is non-default. -/
def Selectors.empty (s : Selectors) : Bool := decide (s = Selectors.default)

/-- Modelled from the spec: the forwarding hint, an ordered list of delegation
name/cost pairs. -/
abbrev DelegationList := List (Nat × Name)

/-- Modelled from the spec: content type, freshness period, optional final-block-id. -/
structure MetaInfo where
  type : Nat
  freshnessPeriod : Int
  finalBlockId : Option Component
  deriving DecidableEq, Repr

/-- The signature of a Data: the info block and the value block. -/
structure Signature where
  info : Block
  value : Block
  deriving DecidableEq, Repr

/-- `Signature()`: both blocks invalid. -/
def Signature.unsigned : Signature := ⟨Block.invalid, Block.invalid⟩

/-- `Signature::operator bool`: the info block is not empty. -/
def Signature.isSet (s : Signature) : Bool := !s.info.empty

/-- The primitives the matching code takes from its collaborators. -/
structure Primitives where
  /-- `Exclude::isExcluded(component)`. -/
  isExcluded : Exclude → Component → Bool
  /-- `util::Sha256::computeDigest`. -/
  sha256 : List Nat → List Nat

/-- The element codecs of the collaborating classes (their code is not under src). Every
`wireEncode(encoder)` prepends one element of the class's own type; `…Value` is the value
of that element. -/
structure Codecs where
  nameValue : Name → List Nat
  nameDecode : Block → Except Exn Name
  selectorsValue : Selectors → List Nat
  selectorsDecode : Block → Except Exn Selectors
  forwardingHintValue : DelegationList → List Nat
  forwardingHintDecode : Block → Except Exn DelegationList
  metaInfoValue : MetaInfo → List Nat
  metaInfoDecode : Block → Except Exn MetaInfo
  /-- The value written by `prependNonNegativeIntegerBlock`. -/
  nonNegativeIntegerValue : Nat → List Nat
  /-- `readNonNegativeInteger`, a `uint64_t`. -/
  readNonNegativeInteger : Block → Except Exn Nat
  /-- Whether `Signature::setInfo` accepts the block. -/
  signatureInfoOk : Block → Bool

/-! ## Data -/

/-- The fields of a Data packet, with the cached wire (`none` after `reset()`) and the
cached full name (empty when not computed). -/
structure Data where
  m_name : Name
  m_metaInfo : MetaInfo
  m_content : Block
  m_signature : Signature
  m_residualEnergy : Nat
  m_initialHop : Nat
  m_forwarderId : Nat
  m_idsList : List Int
  m_wire : Option Block
  m_fullName : Name
  deriving DecidableEq, Repr

/-- The conversion of an `int` to `uint32_t`. -/
def toUint32 (i : Int) : Nat := (i % 4294967296).toNat

/-- The conversion of a `uint32_t` to `int`. -/
def toInt32 (n : Nat) : Int :=
  if n % 4294967296 < 2147483648 then (n % 4294967296 : Nat)
  else ((n % 4294967296 : Nat) : Int) - 4294967296

/-- The loop body of `Data::wireEncodeIdsList`: the four bytes of the id, then the
length 4; the running `totalLength` is the second component. -/
def idsListStep (acc : Encoder × Nat) (id : Int) : Encoder × Nat :=
  let val := toUint32 id
  let r1 := Encoder.prependByteArray acc.1 (u32Bytes val)
  let r2 := Encoder.prependVarNumber r1.1 4
  (r2.1, acc.2 + r1.2 + r2.2)

/-- `Data::wireEncodeIdsList`. -/
def Data.wireEncodeIdsList (t : TlvTypes) (d : Data) (enc : Encoder) : Encoder × Nat :=
  let r := d.m_idsList.foldl idsListStep (enc, 0)
  let r3 := Encoder.prependVarNumber r.1 r.2
  let r4 := Encoder.prependVarNumber r3.1 t.IdsList
  (r4.1, r.2 + r3.2 + r4.2)

/-- `Data::getContent`: the content block (its encoded form is derived). -/
def Data.getContent (d : Data) : Block := d.m_content

/-- `Data::wireEncode(encoder, wantUnsignedPortionOnly)`. -/
def Data.wireEncodeImpl (cd : Codecs) (t : TlvTypes) (d : Data) (enc : Encoder)
    (wantUnsignedPortionOnly : Bool) : Except Exn (Encoder × Nat) :=
  if !wantUnsignedPortionOnly && !d.m_signature.isSet then .error .dataError
  else
    -- SignatureValue
    let r0 : Encoder × Nat :=
      if !wantUnsignedPortionOnly then Encoder.prependBlock enc d.m_signature.value
      else (enc, 0)
    -- SignatureInfo
    let r1 := Encoder.prependBlock r0.1 d.m_signature.info
    -- Content
    let r2 := Encoder.prependBlock r1.1 d.getContent
    -- MetaInfo
    let r3 := Encoder.prependBlock r2.1 ⟨t.MetaInfo, cd.metaInfoValue d.m_metaInfo⟩
    -- Name
    let r4 := Encoder.prependBlock r3.1 ⟨t.Name, cd.nameValue d.m_name⟩
    -- Residual Energy
    let r5 := Encoder.prependByteArray r4.1 (u32Bytes d.m_residualEnergy)
    let r6 := Encoder.prependVarNumber r5.1 4
    let r7 := Encoder.prependVarNumber r6.1 t.ResidualEnergy
    -- Initial Hop
    let r8 := Encoder.prependByteArray r7.1 (u32Bytes d.m_initialHop)
    let r9 := Encoder.prependVarNumber r8.1 4
    let r10 := Encoder.prependVarNumber r9.1 t.InitialHop
    -- Ids List
    let r11 := d.wireEncodeIdsList t r10.1
    let totalLength :=
      r0.2 + r1.2 + r2.2 + r3.2 + r4.2 + r5.2 + r6.2 + r7.2 + r8.2 + r9.2 + r10.2 + r11.2
    if !wantUnsignedPortionOnly then
      let r12 := Encoder.prependVarNumber r11.1 totalLength
      let r13 := Encoder.prependVarNumber r12.1 t.Data
      .ok (r13.1, totalLength + r12.2 + r13.2)
    else .ok (r11.1, totalLength)

/-- The loop of `Data::wireDecodeIdsList`: each element is parsed, then four bytes are
copied from the start of its value, whatever the length of the value. -/
def decodeIds : List Element → Except Exn (List Int)
  | [] => .ok []
  | el :: rest =>
    match parseElements el.block.value el.tail with
    | .error e => .error e
    | .ok _ =>
      match decodeIds rest with
      | .error e => .error e
      | .ok v => .ok (toInt32 (u32OfBytes (el.block.value ++ el.tail)) :: v)

/-- `Data::wireDecodeIdsList`. -/
def Data.wireDecodeIdsList (wire : Element) : Except Exn (List Int) :=
  match parseElements wire.block.value wire.tail with
  | .error e => .error e
  | .ok els => decodeIds els

/-- `Data::wireDecode`: the outcome and the packet as the call leaves it. The three
auxiliary fields sit in `try`/`catch` blocks that swallow every exception. -/
def Data.wireDecode (cd : Codecs) (t : TlvTypes) (d : Data) (wire : Block) :
    Except Exn Unit × Data :=
  let d := { d with m_fullName := [], m_wire := some wire }
  match parseElements wire.value [] with
  | .error e => (.error e, d)
  | .ok els =>
  -- Name
  match getBlock els t.Name with
  | .error e => (.error e, d)
  | .ok nameEl =>
  match cd.nameDecode nameEl with
  | .error e => (.error e, d)
  | .ok name =>
  let d := { d with m_name := name }
  -- MetaInfo
  match getBlock els t.MetaInfo with
  | .error e => (.error e, d)
  | .ok metaEl =>
  match cd.metaInfoDecode metaEl with
  | .error e => (.error e, d)
  | .ok metaInfo =>
  let d := { d with m_metaInfo := metaInfo }
  -- Content
  match getBlock els t.Content with
  | .error e => (.error e, d)
  | .ok contentEl =>
  let d := { d with m_content := contentEl }
  -- SignatureInfo
  match getBlock els t.SignatureInfo with
  | .error e => (.error e, d)
  | .ok infoEl =>
  let d := { d with m_signature := { d.m_signature with info := infoEl } }
  if !cd.signatureInfoOk infoEl then (.error .tlvError, d)
  else
  -- SignatureValue
  let d := match findBlock els t.SignatureValue with
    | some val => { d with m_signature := { d.m_signature with value := val } }
    | none => d
  -- Residual Energy
  let d := match findBlock els t.ResidualEnergy with
    | none => d
    | some val =>
      if val.value.length ≠ 4 then d
      else { d with m_residualEnergy := u32OfBytes val.value }
  -- Initial Hop
  let d := match findBlock els t.InitialHop with
    | none => d
    | some val =>
      if val.value.length ≠ 4 then d
      else { d with m_initialHop := u32OfBytes val.value }
  -- Ids List
  let d := match findElement els t.IdsList with
    | none => d
    | some val =>
      match Data.wireDecodeIdsList val with
      | .error _ => d
      | .ok v => { d with m_idsList := v }
  (.ok (), d)

/-- `Data::wireEncode()`: encode into a buffer, then decode the buffer's block into the
packet itself; the result is `m_wire`. -/
def Data.wireEncode (cd : Codecs) (t : TlvTypes) (d : Data) : Except Exn Block × Data :=
  match d.wireEncodeImpl cd t [] false with
  | .error e => (.error e, d)
  | .ok (buffer, _) =>
    match Block.fromBuffer buffer with
    | .error e => (.error e, d)
    | .ok blk =>
      match d.wireDecode cd t blk with
      | (.error e, d1) => (.error e, d1)
      | (.ok _, d1) => (.ok blk, d1)

/-- `Data::getFullName`: the name followed by the digest of the wire; computed on the
first call and cached. -/
def Data.getFullName (p : Primitives) (d : Data) : Except Exn Name × Data :=
  if d.m_fullName.isEmpty then
    match d.m_wire with
    | none => (.error .dataError, d)
    | some w =>
      let fullName := d.m_name ++ [Component.mk true (p.sha256 w.wire)]
      (.ok fullName, { d with m_fullName := fullName })
  else (.ok d.m_fullName, d)

/-- The cached full name is either absent or the one computed from the cached wire.
`resetWire` and `wireDecode` clear the cache, and `getFullName` alone fills it. -/
def Data.CacheOk (p : Primitives) (d : Data) : Prop :=
  d.m_fullName = [] ∨
    ∃ w, d.m_wire = some w ∧ d.m_fullName = d.m_name ++ [Component.mk true (p.sha256 w.wire)]

/-! ## Interest -/

/-- The random generator, an arbitrary stream of words and the position reached. -/
structure Rng where
  stream : Nat → Nat
  pos : Nat

/-- `random::generateWord32`. -/
def Rng.generateWord32 (g : Rng) : Nat × Rng :=
  (g.stream g.pos % 4294967296, { g with pos := g.pos + 1 })

/-- The fields of an Interest packet, with the optional nonce and the cached wire. -/
structure Interest where
  m_name : Name
  m_selectors : Selectors
  m_nonce : Option Nat
  m_interestLifetime : Int
  m_forwardingHint : DelegationList
  m_forwarderId : Nat
  m_forwardingMode : Nat
  m_wire : Option Block
  deriving DecidableEq, Repr

/-- Modelled from the spec: the default lifetime constant, 4000 ms. -/
def DEFAULT_INTEREST_LIFETIME : Int := 4000

/-- The conversion of a `uint64_t` to the signed 64-bit millisecond count. -/
def toInt64 (n : Nat) : Int :=
  if n % 2 ^ 64 < 2 ^ 63 then (n % 2 ^ 64 : Nat) else ((n % 2 ^ 64 : Nat) : Int) - 2 ^ 64

/-- The conversion of a signed 64-bit count to `uint64_t`. -/
def toUint64 (i : Int) : Nat := (i % 2 ^ 64).toNat

def Interest.getMinSuffixComponents (x : Interest) : Int := x.m_selectors.minSuffixComponents

def Interest.getMaxSuffixComponents (x : Interest) : Int := x.m_selectors.maxSuffixComponents

def Interest.getExclude (x : Interest) : Exclude := x.m_selectors.exclude

def Interest.getPublisherPublicKeyLocator (x : Interest) : KeyLocator :=
  x.m_selectors.publisherPublicKeyLocator

/-- `Interest::hasSelectors`. -/
def Interest.hasSelectors (x : Interest) : Bool := !x.m_selectors.empty

/-- `Interest::getNonce`: a missing nonce is drawn and stored. -/
def Interest.getNonce (x : Interest) (g : Rng) : Nat × Interest × Rng :=
  match x.m_nonce with
  | some n => (n, x, g)
  | none =>
    let r := g.generateWord32
    (r.1, { x with m_nonce := some r.1 }, r.2)

/-- `Interest::wireEncode(encoder)`: the buffer and `totalLength`, with the Interest and
the generator as `getNonce` leaves them. -/
def Interest.wireEncodeImpl (cd : Codecs) (t : TlvTypes) (x : Interest) (g : Rng)
    (enc : Encoder) : (Encoder × Nat) × Interest × Rng :=
  -- ForwardingHint
  let r0 : Encoder × Nat :=
    if x.m_forwardingHint.length > 0 then
      Encoder.prependBlock enc ⟨t.ForwardingHint, cd.forwardingHintValue x.m_forwardingHint⟩
    else (enc, 0)
  -- InterestLifetime
  let r1 : Encoder × Nat :=
    if x.m_interestLifetime ≠ DEFAULT_INTEREST_LIFETIME then
      Encoder.prependBlock r0.1
        ⟨t.InterestLifetime, cd.nonNegativeIntegerValue (toUint64 x.m_interestLifetime)⟩
    else (r0.1, 0)
  -- Nonce
  let n := x.getNonce g
  let nonce := n.1
  let r2 := Encoder.prependByteArray r1.1 (u32Bytes nonce)
  let r3 := Encoder.prependVarNumber r2.1 4
  let r4 := Encoder.prependVarNumber r3.1 t.Nonce
  -- Forwarder Id
  let r5 := Encoder.prependByteArray r4.1 (u32Bytes x.m_forwarderId)
  let r6 := Encoder.prependVarNumber r5.1 4
  let r7 := Encoder.prependVarNumber r6.1 t.ForwarderId
  -- Forwarding Mode
  let r8 := Encoder.prependByteArray r7.1 (u32Bytes x.m_forwardingMode)
  let r9 := Encoder.prependVarNumber r8.1 4
  let r10 := Encoder.prependVarNumber r9.1 t.ForwardingMode
  -- Selectors
  let r11 : Encoder × Nat :=
    if x.hasSelectors then
      Encoder.prependBlock r10.1 ⟨t.Selectors, cd.selectorsValue x.m_selectors⟩
    else (r10.1, 0)
  -- Name
  let r12 := Encoder.prependBlock r11.1 ⟨t.Name, cd.nameValue x.m_name⟩
  let totalLength :=
    r0.2 + r1.2 + r2.2 + r3.2 + r4.2 + r5.2 + r6.2 + r7.2 + r8.2 + r9.2 + r10.2 + r11.2
      + r12.2
  let r13 := Encoder.prependVarNumber r12.1 totalLength
  let r14 := Encoder.prependVarNumber r13.1 t.Interest
  ((r14.1, totalLength + r13.2 + r14.2), n.2.1, n.2.2)

/-- `Interest::wireDecode`: the outcome and the packet as the call leaves it. -/
def Interest.wireDecode (cd : Codecs) (t : TlvTypes) (x : Interest) (wire : Block) :
    Except Exn Unit × Interest :=
  let x := { x with m_wire := some wire }
  match parseElements wire.value [] with
  | .error e => (.error e, x)
  | .ok els =>
  if wire.type ≠ t.Interest then (.error .interestError, x)
  else
  -- Name
  match getBlock els t.Name with
  | .error e => (.error e, x)
  | .ok nameEl =>
  match cd.nameDecode nameEl with
  | .error e => (.error e, x)
  | .ok name =>
  let x := { x with m_name := name }
  -- Selectors
  let decoded : Except Exn Selectors :=
    match findBlock els t.Selectors with
    | some val => cd.selectorsDecode val
    | none => .ok Selectors.default
  match decoded with
  | .error e => (.error e, x)
  | .ok selectors =>
  let x := { x with m_selectors := selectors }
  -- Nonce
  match findBlock els t.Nonce with
  | none => (.error .interestError, x)
  | some val =>
  if val.value.length ≠ 4 then (.error .interestError, x)
  else
  let x := { x with m_nonce := some (u32OfBytes val.value) }
  -- Forwarder Id
  match findBlock els t.ForwarderId with
  | none => (.error .interestError, x)
  | some val =>
  if val.value.length ≠ 4 then (.error .interestError, x)
  else
  let x := { x with m_forwarderId := u32OfBytes val.value }
  -- Forwarding Mode
  match findBlock els t.ForwardingMode with
  | none => (.error .interestError, x)
  | some val =>
  if val.value.length ≠ 4 then (.error .interestError, x)
  else
  let x := { x with m_forwardingMode := u32OfBytes val.value }
  -- InterestLifetime
  let decoded : Except Exn Int :=
    match findBlock els t.InterestLifetime with
    | some val =>
      match cd.readNonNegativeInteger val with
      | .error e => .error e
      | .ok v => .ok (toInt64 v)
    | none => .ok DEFAULT_INTEREST_LIFETIME
  match decoded with
  | .error e => (.error e, x)
  | .ok lifetime =>
  let x := { x with m_interestLifetime := lifetime }
  -- ForwardingHint
  let decoded : Except Exn DelegationList :=
    match findBlock els t.ForwardingHint with
    | some val => cd.forwardingHintDecode val
    | none => .ok []
  match decoded with
  | .error e => (.error e, x)
  | .ok hint => (.ok (), { x with m_forwardingHint := hint })

/-- `Interest::wireEncode()`: encode into a buffer, then decode the buffer's block into
the packet itself; the result is `m_wire`. -/
def Interest.wireEncode (cd : Codecs) (t : TlvTypes) (x : Interest) (g : Rng) :
    Except Exn Block × Interest × Rng :=
  let r := x.wireEncodeImpl cd t g []
  match Block.fromBuffer r.1.1 with
  | .error e => (.error e, r.2.1, r.2.2)
  | .ok blk =>
    match r.2.1.wireDecode cd t blk with
    | (.error e, x1) => (.error e, x1, r.2.2)
    | (.ok _, x1) => (.ok blk, x1, r.2.2)

/-- `Interest::matchesName`. -/
def Interest.matchesName (p : Primitives) (x : Interest) (name : Name) : Bool :=
  if name.size < x.m_name.size then false
  else if !x.m_name.isPrefixOf name then false
  else if decide (x.getMinSuffixComponents ≥ 0) &&
      !decide (name.size - x.m_name.size ≥ x.getMinSuffixComponents.toNat) then false
  else if decide (x.getMaxSuffixComponents ≥ 0) &&
      !decide (name.size - x.m_name.size ≤ x.getMaxSuffixComponents.toNat) then false
  else if !x.getExclude.empty && decide (name.size > x.m_name.size) &&
      (match Name.get name x.m_name.size with
       | some c => p.isExcluded x.getExclude c
       | none => false) then false
  else true

/-- `signatureInfo.find(tlv::KeyLocator)` on the parsed SignatureInfo block of a Data;
`none` is `elements_end()`. -/
def Data.findKeyLocator (t : TlvTypes) (data : Data) : Option Block :=
  let signatureInfo := data.m_signature.info
  match parseElements signatureInfo.value [] with
  | .error _ => none
  | .ok els =>
    findBlock els t.KeyLocator

/-- The key-locator check that ends `Interest::matchesData`. -/
def Interest.matchesKeyLocator (t : TlvTypes) (x : Interest) (data : Data) : Bool :=
  match x.getPublisherPublicKeyLocator with
  | none => true
  | some publisherPublicKeyLocator =>
    match data.findKeyLocator t with
    | none => false
    | some it => if publisherPublicKeyLocator ≠ it then false else true

/-- The exclude check of `Interest::matchesData`; `none` means the check passed. -/
def Interest.matchesDataExclude (p : Primitives) (x : Interest) (data : Data) :
    Option (Except Exn Bool) :=
  let interestNameLength := x.m_name.size
  let dataName := data.m_name
  let fullNameLength := dataName.size + 1
  if !x.getExclude.empty && decide (fullNameLength > interestNameLength) then
    if interestNameLength = fullNameLength - 1 then
      -- component to exclude is the digest
      match (data.getFullName p).1 with
      | .error e => some (.error e)
      | .ok fullName =>
        match Name.get fullName interestNameLength with
        | none => some (.error .outOfRange)
        | some c => if p.isExcluded x.getExclude c then some (.ok false) else none
    else
      -- component to exclude is not the digest
      match Name.get dataName interestNameLength with
      | none => some (.error .outOfRange)
      | some c => if p.isExcluded x.getExclude c then some (.ok false) else none
  else none

/-- The prefix check of `Interest::matchesData`; `none` means the check passed. -/
def Interest.matchesDataPrefix (p : Primitives) (x : Interest) (data : Data) :
    Option (Except Exn Bool) :=
  let interestNameLength := x.m_name.size
  let dataName := data.m_name
  let fullNameLength := dataName.size + 1
  if interestNameLength = fullNameLength then
    match Name.get x.m_name (-1) with
    | none => some (.error .outOfRange)
    | some last =>
      if last.isImplicitSha256Digest then
        match (data.getFullName p).1 with
        | .error e => some (.error e)
        | .ok fullName => if x.m_name ≠ fullName then some (.ok false) else none
      else some (.ok false)
  else
    if !x.m_name.isPrefixOf dataName then some (.ok false) else none

/-- `Interest::matchesData`. -/
def Interest.matchesData (p : Primitives) (t : TlvTypes) (x : Interest) (data : Data) :
    Except Exn Bool :=
  let interestNameLength := x.m_name.size
  let dataName := data.m_name
  let fullNameLength := dataName.size + 1
  -- check MinSuffixComponents
  let hasMinSuffixComponents := decide (x.getMinSuffixComponents ≥ 0)
  let minSuffixComponents := if hasMinSuffixComponents then x.getMinSuffixComponents.toNat else 0
  if !decide (interestNameLength + minSuffixComponents ≤ fullNameLength) then .ok false
  else
  -- check MaxSuffixComponents
  let hasMaxSuffixComponents := decide (x.getMaxSuffixComponents ≥ 0)
  if hasMaxSuffixComponents &&
      !decide (interestNameLength + x.getMaxSuffixComponents.toNat ≥ fullNameLength) then
    .ok false
  else
  -- check prefix
  match x.matchesDataPrefix p data with
  | some r => r
  | none =>
  -- check Exclude
  match x.matchesDataExclude p data with
  | some r => r
  | none =>
  -- check PublisherPublicKeyLocator
  .ok (x.matchesKeyLocator t data)

/-- `Interest::getName`. -/
def Interest.getName (x : Interest) : Name := x.m_name

/-- `Interest::getSelectors`. -/
def Interest.getSelectors (x : Interest) : Selectors := x.m_selectors

/-- `Interest::matchesInterest`: the names and the selectors are compared with the `==`
of their classes; the forwarding hint is left out (the `@todo` of the source). -/
def Interest.matchesInterest (x other : Interest) : Bool :=
  decide (x.getName = other.getName) && decide (x.getSelectors = other.getSelectors)

/-! ## Interest: construction and field mutators -/

/-- `Interest::Interest(name, interestLifetime)`: the members are initialised, then a
negative lifetime is rejected. Modelled from the spec: the members the constructor does
not name start unset (no selectors, no nonce, empty forwarding hint, forwarderId 0,
forwardingMode 0, no wire). -/
def Interest.new (name : Name) (interestLifetime : Int) : Except Exn Interest :=
  let x : Interest :=
    { m_name := name, m_selectors := Selectors.default, m_nonce := none,
      m_interestLifetime := interestLifetime, m_forwardingHint := [],
      m_forwarderId := 0, m_forwardingMode := 0, m_wire := none }
  if interestLifetime < 0 then .error .invalidArgument else .ok x

/-- `Interest::setInterestLifetime`: the outcome and the Interest as the call leaves it. -/
def Interest.setInterestLifetime (x : Interest) (interestLifetime : Int) :
    Except Exn Unit × Interest :=
  if interestLifetime < 0 then (.error .invalidArgument, x)
  else (.ok (), { x with m_interestLifetime := interestLifetime, m_wire := none })

/-- `Interest::hasNonce`. -/
def Interest.hasNonce (x : Interest) : Bool := x.m_nonce.isSome

/-- `Interest::setNonce`. -/
def Interest.setNonce (x : Interest) (nonce : Nat) : Interest :=
  { x with m_nonce := some nonce, m_wire := none }

/-- The loop `while (newNonce == oldNonce) newNonce = random::generateWord32();` of
`refreshNonce`. The fuel bounds the number of times the condition is tested; `none` means
the loop is still running when the fuel is spent. -/
def refreshLoop : Nat → Nat → Nat → Rng → Option (Nat × Rng)
  | 0, _, _, _ => none
  | fuel + 1, oldNonce, newNonce, g =>
    if newNonce = oldNonce then
      refreshLoop fuel oldNonce g.generateWord32.1 g.generateWord32.2
    else some (newNonce, g)

/-- `Interest::refreshNonce`: nothing without a nonce; otherwise draw until the word
differs from the old nonce and set it. -/
def Interest.refreshNonce (fuel : Nat) (x : Interest) (g : Rng) : Option (Interest × Rng) :=
  if !x.hasNonce then some (x, g)
  else
    let r := x.getNonce g
    let oldNonce := r.1
    let newNonce := oldNonce
    match refreshLoop fuel oldNonce newNonce r.2.2 with
    | none => none
    | some (newNonce, g1) => some (r.2.1.setNonce newNonce, g1)

/-! ## Data: construction and field mutators -/

/-- Modelled from the spec: a MetaInfo with nothing set. -/
def MetaInfo.unset : MetaInfo := ⟨0, -1, none⟩

/-- `Data::Data(name)`: `m_name(name)`, `m_content(tlv::Content)`. Modelled from the spec:
the members the constructor does not name start unset (no signature, counters 0, empty
idsList, no wire, no full name). -/
def Data.new (t : TlvTypes) (name : Name) : Data :=
  { m_name := name, m_metaInfo := MetaInfo.unset, m_content := ⟨t.Content, []⟩,
    m_signature := Signature.unsigned, m_residualEnergy := 0, m_initialHop := 0,
    m_forwarderId := 0, m_idsList := [], m_wire := none, m_fullName := [] }

/-- `Data::resetWire`. -/
def Data.resetWire (d : Data) : Data := { d with m_wire := none, m_fullName := [] }

/-- `Data::setName`. -/
def Data.setName (d : Data) (name : Name) : Data :=
  { d.resetWire with m_name := name }

/-- `Data::setMetaInfo`. -/
def Data.setMetaInfo (d : Data) (metaInfo : MetaInfo) : Data :=
  { d.resetWire with m_metaInfo := metaInfo }

/-- `Data::setContent(const Block&)`: a Content block is taken as it is, any other block
becomes the value of a new Content block. -/
def Data.setContentBlock (t : TlvTypes) (d : Data) (block : Block) : Data :=
  if block.type = t.Content then { d.resetWire with m_content := block }
  else { d.resetWire with m_content := ⟨t.Content, block.wire⟩ }

/-- `Data::setContent(const uint8_t*, size_t)`. -/
def Data.setContentBytes (t : TlvTypes) (d : Data) (value : List Nat) : Data :=
  { d.resetWire with m_content := ⟨t.Content, value⟩ }

/-- `Data::setContent(const ConstBufferPtr&)`. -/
def Data.setContentBuffer (t : TlvTypes) (d : Data) (value : List Nat) : Data :=
  { d.resetWire with m_content := ⟨t.Content, value⟩ }

/-- `Data::setSignature`. -/
def Data.setSignature (d : Data) (signature : Signature) : Data :=
  { d.resetWire with m_signature := signature }

/-- `Data::setSignatureValue`. -/
def Data.setSignatureValue (d : Data) (value : Block) : Data :=
  { d.resetWire with m_signature := { d.m_signature with value := value } }

/-- `Data::setContentType`. -/
def Data.setContentType (d : Data) (type : Nat) : Data :=
  { d.resetWire with m_metaInfo := { d.m_metaInfo with type := type } }

/-- `Data::setFreshnessPeriod`. -/
def Data.setFreshnessPeriod (d : Data) (freshnessPeriod : Int) : Data :=
  { d.resetWire with m_metaInfo := { d.m_metaInfo with freshnessPeriod := freshnessPeriod } }

/-- `Data::setFinalBlockId`. -/
def Data.setFinalBlockId (d : Data) (finalBlockId : Component) : Data :=
  { d.resetWire with m_metaInfo := { d.m_metaInfo with finalBlockId := some finalBlockId } }

/-- `Data::setResidualEnergy`. -/
def Data.setResidualEnergy (d : Data) (val : Nat) : Data :=
  { d.resetWire with m_residualEnergy := val % 4294967296 }

/-- `Data::setInitialHop`. -/
def Data.setInitialHop (d : Data) (val : Nat) : Data :=
  { d.resetWire with m_initialHop := val % 4294967296 }

/-- `Data::setForwarderId`. -/
def Data.setForwarderId (d : Data) (val : Nat) : Data :=
  { d.resetWire with m_forwarderId := val % 4294967296 }

/-- `Data::setIdsList`. -/
def Data.setIdsList (d : Data) (v : List Int) : Data :=
  { d.resetWire with m_idsList := v }

/-- `Data::addIdInIdsList`. -/
def Data.addIdInIdsList (d : Data) (id : Int) : Data :=
  { d.resetWire with m_idsList := d.m_idsList ++ [id] }

/-- The field mutators of a Data, with their arguments. -/
inductive DataMutator
  | setName (name : Name)
  | setMetaInfo (metaInfo : MetaInfo)
  | setContentBlock (block : Block)
  | setContentBytes (value : List Nat)
  | setContentBuffer (value : List Nat)
  | setSignature (signature : Signature)
  | setSignatureValue (value : Block)
  | setContentType (type : Nat)
  | setFreshnessPeriod (freshnessPeriod : Int)
  | setFinalBlockId (finalBlockId : Component)
  | setResidualEnergy (val : Nat)
  | setInitialHop (val : Nat)
  | setForwarderId (val : Nat)
  | setIdsList (v : List Int)
  | addIdInIdsList (id : Int)
  deriving DecidableEq, Repr

/-- Calling a field mutator. -/
def Data.mutate (t : TlvTypes) (d : Data) : DataMutator → Data
  | .setName name => d.setName name
  | .setMetaInfo metaInfo => d.setMetaInfo metaInfo
  | .setContentBlock block => d.setContentBlock t block
  | .setContentBytes value => d.setContentBytes t value
  | .setContentBuffer value => d.setContentBuffer t value
  | .setSignature signature => d.setSignature signature
  | .setSignatureValue value => d.setSignatureValue value
  | .setContentType type => d.setContentType type
  | .setFreshnessPeriod freshnessPeriod => d.setFreshnessPeriod freshnessPeriod
  | .setFinalBlockId finalBlockId => d.setFinalBlockId finalBlockId
  | .setResidualEnergy val => d.setResidualEnergy val
  | .setInitialHop val => d.setInitialHop val
  | .setForwarderId val => d.setForwarderId val
  | .setIdsList v => d.setIdsList v
  | .addIdInIdsList id => d.addIdInIdsList id

/-- The operations that change a Data: the field mutators, `wireDecode`, `wireEncode()`
and `getFullName()` (which fills the cache). -/
inductive DataOp
  | mutate (m : DataMutator)
  | wireDecode (wire : Block)
  | wireEncode
  | getFullName
  deriving DecidableEq, Repr

/-- The Data an operation leaves, whether it returned or raised. -/
def Data.step (p : Primitives) (cd : Codecs) (t : TlvTypes) (d : Data) : DataOp → Data
  | .mutate m => d.mutate t m
  | .wireDecode wire => (d.wireDecode cd t wire).2
  | .wireEncode => (d.wireEncode cd t).2
  | .getFullName => (d.getFullName p).2

/-- The Data a sequence of operations leaves. -/
def Data.run (p : Primitives) (cd : Codecs) (t : TlvTypes) (d : Data) (ops : List DataOp) :
    Data :=
  ops.foldl (Data.step p cd t) d

/-! ## The stages of `Data::wireDecode` after the required elements -/

/-- The SignatureValue step: `setValue` when the element is found. -/
def Data.decodeSignatureValue (t : TlvTypes) (els : List Element) (d : Data) : Data :=
  match findBlock els t.SignatureValue with
  | some val => { d with m_signature := { d.m_signature with value := val } }
  | none => d

/-- The first `try` block: ResidualEnergy. -/
def Data.decodeResidualEnergy (t : TlvTypes) (els : List Element) (d : Data) : Data :=
  match findBlock els t.ResidualEnergy with
  | none => d
  | some val =>
    if val.value.length ≠ 4 then d
    else { d with m_residualEnergy := u32OfBytes val.value }

/-- The second `try` block: InitialHop. -/
def Data.decodeInitialHop (t : TlvTypes) (els : List Element) (d : Data) : Data :=
  match findBlock els t.InitialHop with
  | none => d
  | some val =>
    if val.value.length ≠ 4 then d
    else { d with m_initialHop := u32OfBytes val.value }

/-- The third `try` block: IdsList. -/
def Data.decodeIdsList (t : TlvTypes) (els : List Element) (d : Data) : Data :=
  match findElement els t.IdsList with
  | none => d
  | some val =>
    match Data.wireDecodeIdsList val with
    | .error _ => d
    | .ok v => { d with m_idsList := v }

/-! ## The element sequences of the encodings -/

/-- The concatenated wire bytes of a sequence of elements. -/
def wireOfBlocks : List Block → List Nat
  | [] => []
  | b :: l => b.wire ++ wireOfBlocks l

/-- The parsed view of a sequence of elements laid out one after the other and followed
by `after`. -/
def elementsOf : List Block → List Nat → List Element
  | [], _ => []
  | b :: l, after => ⟨b, wireOfBlocks l ++ after⟩ :: elementsOf l after

/-- The parser accepts the header of the element. -/
def Block.Ok (b : Block) : Prop := b.type ≤ 4294967295 ∧ b.value.length < 2 ^ 64

/-- The elements of an encoded Interest in wire order, for the nonce `nonce`. -/
def Interest.wireElements (cd : Codecs) (t : TlvTypes) (x : Interest) (nonce : Nat) :
    List Block :=
  [⟨t.Name, cd.nameValue x.m_name⟩]
    ++ (if x.hasSelectors then [⟨t.Selectors, cd.selectorsValue x.m_selectors⟩] else [])
    ++ [⟨t.ForwardingMode, u32Bytes x.m_forwardingMode⟩,
        ⟨t.ForwarderId, u32Bytes x.m_forwarderId⟩,
        ⟨t.Nonce, u32Bytes nonce⟩]
    ++ (if x.m_interestLifetime ≠ DEFAULT_INTEREST_LIFETIME then
          [⟨t.InterestLifetime, cd.nonNegativeIntegerValue (toUint64 x.m_interestLifetime)⟩]
        else [])
    ++ (if x.m_forwardingHint.length > 0 then
          [⟨t.ForwardingHint, cd.forwardingHintValue x.m_forwardingHint⟩]
        else [])

/-- The value bytes `wireEncodeIdsList` writes: for each id the byte 4 and the four bytes
of the id, the last id first. -/
def idsListValue : List Int → List Nat
  | [] => []
  | id :: l => idsListValue l ++ (4 :: u32Bytes (toUint32 id))

/-- The elements of an encoded Data in wire order. -/
def Data.wireElements (cd : Codecs) (t : TlvTypes) (d : Data) : List Block :=
  [⟨t.IdsList, idsListValue d.m_idsList⟩,
   ⟨t.InitialHop, u32Bytes d.m_initialHop⟩,
   ⟨t.ResidualEnergy, u32Bytes d.m_residualEnergy⟩,
   ⟨t.Name, cd.nameValue d.m_name⟩,
   ⟨t.MetaInfo, cd.metaInfoValue d.m_metaInfo⟩,
   d.m_content,
   d.m_signature.info,
   d.m_signature.value]

/-- The type numbers an Interest uses are pairwise distinct and fit 32 bits. -/
def TlvTypes.InterestOk (t : TlvTypes) : Prop :=
  [t.Name, t.Selectors, t.ForwardingMode, t.ForwarderId, t.Nonce, t.InterestLifetime,
    t.ForwardingHint].Nodup
  ∧ ∀ ty ∈ [t.Interest, t.Name, t.Selectors, t.ForwardingMode, t.ForwarderId, t.Nonce,
      t.InterestLifetime, t.ForwardingHint], ty ≤ 4294967295

/-- The type numbers a Data uses are pairwise distinct and fit 32 bits. -/
def TlvTypes.DataOk (t : TlvTypes) : Prop :=
  [t.IdsList, t.InitialHop, t.ResidualEnergy, t.Name, t.MetaInfo, t.Content,
    t.SignatureInfo, t.SignatureValue].Nodup
  ∧ ∀ ty ∈ [t.Data, t.IdsList, t.InitialHop, t.ResidualEnergy, t.Name, t.MetaInfo, t.Content,
      t.SignatureInfo, t.SignatureValue], ty ≤ 4294967295

/-- The integer fields of an Interest hold values of their C++ types: 32-bit nonce,
forwarder id and forwarding mode, and a non-negative signed 64-bit lifetime. -/
def Interest.FieldsOk (x : Interest) : Prop :=
  (∀ n, x.m_nonce = some n → n < 4294967296)
  ∧ x.m_forwarderId < 4294967296 ∧ x.m_forwardingMode < 4294967296
  ∧ 0 ≤ x.m_interestLifetime ∧ x.m_interestLifetime < 2 ^ 63

/-- The collaborating codecs decode what they encoded for the fields of this Interest. -/
def Interest.CodecsOk (cd : Codecs) (t : TlvTypes) (x : Interest) : Prop :=
  cd.nameDecode ⟨t.Name, cd.nameValue x.m_name⟩ = .ok x.m_name
  ∧ (x.hasSelectors = true →
      cd.selectorsDecode ⟨t.Selectors, cd.selectorsValue x.m_selectors⟩ = .ok x.m_selectors)
  ∧ (x.m_interestLifetime ≠ DEFAULT_INTEREST_LIFETIME →
      cd.readNonNegativeInteger
          ⟨t.InterestLifetime, cd.nonNegativeIntegerValue (toUint64 x.m_interestLifetime)⟩
        = .ok (toUint64 x.m_interestLifetime))
  ∧ (x.m_forwardingHint.length > 0 →
      cd.forwardingHintDecode ⟨t.ForwardingHint, cd.forwardingHintValue x.m_forwardingHint⟩
        = .ok x.m_forwardingHint)

/-- A signed Data as the setters leave it: the content block is a Content element, the
signature blocks are a SignatureInfo element that `setInfo` accepts and a SignatureValue
element, and the two counters are 32-bit values. -/
def Data.Signed (cd : Codecs) (t : TlvTypes) (d : Data) : Prop :=
  d.m_signature.isSet = true
  ∧ d.m_content.type = t.Content
  ∧ d.m_signature.info.type = t.SignatureInfo
  ∧ cd.signatureInfoOk d.m_signature.info = true
  ∧ d.m_signature.value.type = t.SignatureValue
  ∧ d.m_residualEnergy < 4294967296 ∧ d.m_initialHop < 4294967296

/-- The collaborating codecs decode what they encoded for the fields of this Data. -/
def Data.CodecsOk (cd : Codecs) (t : TlvTypes) (d : Data) : Prop :=
  cd.nameDecode ⟨t.Name, cd.nameValue d.m_name⟩ = .ok d.m_name
  ∧ cd.metaInfoDecode ⟨t.MetaInfo, cd.metaInfoValue d.m_metaInfo⟩ = .ok d.m_metaInfo

/-! ## Sample collaborators, for evaluating the definitions -/

/-- A sample assignment of type numbers: the NDN packet format numbers, and numbers from
the application range for the five added fields. -/
def sampleTlv : TlvTypes :=
  { Interest := 5, Data := 6, Name := 7, Selectors := 9, Nonce := 10,
    InterestLifetime := 12, ForwardingHint := 30, ForwarderId := 128,
    ForwardingMode := 129, MetaInfo := 20, Content := 21, SignatureInfo := 22,
    SignatureValue := 23, KeyLocator := 28, ResidualEnergy := 130, InitialHop := 131,
    IdsList := 132 }

/-- Sample primitives: a filter excludes the components it lists, and the digest is a
constant 32-byte string. -/
def samplePrimitives : Primitives :=
  { isExcluded := fun e c => decide (ExcludeEntry.component c ∈ e),
    sha256 := fun _ => List.replicate 32 0 }

/-- Sample codecs. A name is the sequence of its components as elements (type 8, or 1
for a digest component); the other codecs are toy encodings that cover the sample
packets only. -/
def sampleCodecs : Codecs :=
  { nameValue := fun n =>
      wireOfBlocks (n.map (fun c => Block.mk (if c.digest then 1 else 8) c.value)),
    nameDecode := fun b =>
      match parseElements b.value [] with
      | .error e => .error e
      | .ok els => .ok (els.map (fun e => Component.mk (decide (e.block.type = 1)) e.block.value)),
    selectorsValue := fun s =>
      [(s.minSuffixComponents + 1).toNat, (s.maxSuffixComponents + 1).toNat],
    selectorsDecode := fun b =>
      .ok { Selectors.default with
            minSuffixComponents := (b.value.getD 0 0 : Int) - 1,
            maxSuffixComponents := (b.value.getD 1 0 : Int) - 1 },
    forwardingHintValue := fun l => l.map (fun p => p.1),
    forwardingHintDecode := fun b => .ok (b.value.map (fun c => (c, []))),
    metaInfoValue := fun m => [m.type],
    metaInfoDecode := fun b => .ok ⟨b.value.getD 0 0, -1, none⟩,
    nonNegativeIntegerValue := fun v => bigEndian 8 v,
    readNonNegativeInteger := fun b =>
      if b.value.length = 8 then .ok (fromBigEndian b.value) else .error .tlvError,
    signatureInfoOk := fun b =>
      match parseElements b.value [] with
      | .ok _ => true
      | .error _ => false }

/-- A sample generator: every word is 7. -/
def sampleRng : Rng := ⟨fun _ => 7, 0⟩

/-- A sample Interest with every field set away from its default, nonce excepted. -/
def fullInterest : Interest :=
  { m_name := [⟨false, [97]⟩, ⟨false, [98]⟩],
    m_selectors := { Selectors.default with minSuffixComponents := 1 },
    m_nonce := none, m_interestLifetime := 1000, m_forwardingHint := [(1, [])],
    m_forwarderId := 3, m_forwardingMode := 1, m_wire := none }

/-- A sample signed Data with every field set. -/
def signedData : Data :=
  { m_name := [⟨false, [97]⟩, ⟨false, [98]⟩], m_metaInfo := ⟨0, -1, none⟩,
    m_content := ⟨21, [1, 2, 3]⟩, m_signature := ⟨⟨22, [27, 1, 1]⟩, ⟨23, [170, 187]⟩⟩,
    m_residualEnergy := 77, m_initialHop := 2, m_forwarderId := 0, m_idsList := [5, 6],
    m_wire := none, m_fullName := [] }

/-- A generic component holding the given bytes. -/
def comp (bs : List Nat) : Component := ⟨false, bs⟩

/-- An Interest with the given name and selectors, and nothing else set. -/
def sampleInterest (name : Name) (sel : Selectors) : Interest :=
  { m_name := name, m_selectors := sel, m_nonce := none,
    m_interestLifetime := DEFAULT_INTEREST_LIFETIME, m_forwardingHint := [],
    m_forwarderId := 0, m_forwardingMode := 0, m_wire := none }

/-- A Data with the given name, signature info value and cached wire. -/
def sampleData (name : Name) (info : List Nat) (wire : Option Block) : Data :=
  { m_name := name, m_metaInfo := ⟨0, -1, none⟩, m_content := ⟨21, []⟩,
    m_signature := ⟨⟨22, info⟩, ⟨23, []⟩⟩, m_residualEnergy := 0, m_initialHop := 0,
    m_forwarderId := 0, m_idsList := [], m_wire := wire, m_fullName := [] }

/-- A Data block whose ResidualEnergy element has a 2-byte value; InitialHop holds 9 and
there is no IdsList element. -/
def shortEnergyWire : Block :=
  ⟨6, [7, 3, 8, 1, 97, 20, 1, 0, 21, 1, 9, 22, 3, 27, 1, 1, 23, 1, 170,
       130, 2, 1, 2, 131, 4, 9, 0, 0, 0]⟩

/-- The elements of `shortEnergyWire`. -/
def shortEnergyElements : List Element :=
  [⟨⟨7, [8, 1, 97]⟩,
     [20, 1, 0, 21, 1, 9, 22, 3, 27, 1, 1, 23, 1, 170, 130, 2, 1, 2, 131, 4, 9, 0, 0, 0]⟩,
   ⟨⟨20, [0]⟩, [21, 1, 9, 22, 3, 27, 1, 1, 23, 1, 170, 130, 2, 1, 2, 131, 4, 9, 0, 0, 0]⟩,
   ⟨⟨21, [9]⟩, [22, 3, 27, 1, 1, 23, 1, 170, 130, 2, 1, 2, 131, 4, 9, 0, 0, 0]⟩,
   ⟨⟨22, [27, 1, 1]⟩, [23, 1, 170, 130, 2, 1, 2, 131, 4, 9, 0, 0, 0]⟩,
   ⟨⟨23, [170]⟩, [130, 2, 1, 2, 131, 4, 9, 0, 0, 0]⟩,
   ⟨⟨130, [1, 2]⟩, [131, 4, 9, 0, 0, 0]⟩,
   ⟨⟨131, [9, 0, 0, 0]⟩, []⟩]

/-- A Data block with Name, MetaInfo, Content and SignatureInfo and no SignatureValue. -/
def noSignatureValueWire : Block :=
  ⟨6, [7, 3, 8, 1, 97, 20, 1, 0, 21, 0, 22, 3, 27, 1, 1]⟩

/-- The elements of `noSignatureValueWire`. -/
def noSignatureValueElements : List Element :=
  [⟨⟨7, [8, 1, 97]⟩, [20, 1, 0, 21, 0, 22, 3, 27, 1, 1]⟩,
   ⟨⟨20, [0]⟩, [21, 0, 22, 3, 27, 1, 1]⟩,
   ⟨⟨21, []⟩, [22, 3, 27, 1, 1]⟩,
   ⟨⟨22, [27, 1, 1]⟩, []⟩]

/-- A Data block that holds a Name element (the name `/b`) and nothing else. -/
def nameOnlyDataWire : Block := ⟨6, [7, 3, 8, 1, 98]⟩

/-- An Interest block that holds a Name element (the name `/b`) and nothing else. -/
def nameOnlyInterestWire : Block := ⟨5, [7, 3, 8, 1, 98]⟩

/-- An Interest block with Name `/b`, ForwarderId 3 and Nonce 9, and no ForwardingMode. -/
def noForwardingModeWire : Block :=
  ⟨5, [7, 3, 8, 1, 98, 128, 4, 3, 0, 0, 0, 10, 4, 9, 0, 0, 0]⟩

/-- The elements of `noForwardingModeWire`. -/
def noForwardingModeElements : List Element :=
  [⟨⟨7, [8, 1, 98]⟩, [128, 4, 3, 0, 0, 0, 10, 4, 9, 0, 0, 0]⟩,
   ⟨⟨128, [3, 0, 0, 0]⟩, [10, 4, 9, 0, 0, 0]⟩,
   ⟨⟨10, [9, 0, 0, 0]⟩, []⟩]

/-- An Interest block with the mandatory elements and an InterestLifetime element whose
8-byte value is `2^64 - 1`. -/
def hugeLifetimeWire : Block :=
  ⟨5, [7, 3, 8, 1, 97, 129, 4, 1, 0, 0, 0, 128, 4, 3, 0, 0, 0, 10, 4, 7, 0, 0, 0,
       12, 8, 255, 255, 255, 255, 255, 255, 255, 255]⟩

/-- An Interest block that holds the mandatory elements only. -/
def plainInterestWire : Block :=
  ⟨5, [7, 3, 8, 1, 97, 129, 4, 1, 0, 0, 0, 128, 4, 3, 0, 0, 0, 10, 4, 7, 0, 0, 0]⟩

/-- The signed sample Data with the ids 5 and 393480 (bytes 08 01 06 00) in its list. -/
def twoIdData : Data := { signedData with m_idsList := [5, 393480] }

/-- The sample Interest after `wireEncode()`: it holds its wire. -/
def encodedInterest : Interest := (fullInterest.wireEncode sampleCodecs sampleTlv sampleRng).2.1

/-- The sample Data after `wireEncode()` and `getFullName()`: it holds its wire and its
full name. -/
def encodedData : Data :=
  ((signedData.wireEncode sampleCodecs sampleTlv).2.getFullName samplePrimitives).2

/-- The block `wireEncode()` produces for `signedData`. -/
def signedDataWire : Block :=
  ⟨6, [132, 10, 4, 6, 0, 0, 0, 4, 5, 0, 0, 0, 131, 4, 2, 0, 0, 0, 130, 4, 77, 0, 0, 0,
       7, 6, 8, 1, 97, 8, 1, 98, 20, 1, 0, 21, 3, 1, 2, 3, 22, 3, 27, 1, 1, 23, 2, 170, 187]⟩

/-- The block `wireEncode()` produces for `twoIdData`. -/
def twoIdWire : Block :=
  ⟨6, [132, 10, 4, 8, 1, 6, 0, 4, 5, 0, 0, 0, 131, 4, 2, 0, 0, 0, 130, 4, 77, 0, 0, 0,
       7, 6, 8, 1, 97, 8, 1, 98, 20, 1, 0, 21, 3, 1, 2, 3, 22, 3, 27, 1, 1, 23, 2, 170, 187]⟩

/-- The block a second `wireEncode()` produces for `twoIdData`. -/
def twoIdWireAgain : Block :=
  ⟨6, [132, 5, 4, 1, 6, 0, 4, 131, 4, 2, 0, 0, 0, 130, 4, 77, 0, 0, 0,
       7, 6, 8, 1, 97, 8, 1, 98, 20, 1, 0, 21, 3, 1, 2, 3, 22, 3, 27, 1, 1, 23, 2, 170, 187]⟩

end ndn

/-! # Theorems: FIB entry -/

namespace nfd
namespace fib

theorem findNextHop_eq_none_iff (e : Entry) (f : Face) :
    e.findNextHop f = none ↔ ∀ h ∈ e.nextHops, h.face ≠ f := by
  unfold Entry.findNextHop
  dsimp only
  split
  · rename_i hlt
    simp only [reduceCtorEq, false_iff]
    intro hall
    obtain ⟨x, hx, hp⟩ := List.findIdx_lt_length.mp hlt
    exact hall x hx (by simpa using hp)
  · rename_i hlt
    simp only [true_iff]
    intro h hh hf
    exact hlt (List.findIdx_lt_length.mpr ⟨h, hh, by simpa using hf⟩)

theorem findNextHop_eq_some (e : Entry) (f : Face) (i : Nat) (h : e.findNextHop f = some i) :
    i = e.nextHops.findIdx (fun nexthop => decide (nexthop.face = f)) ∧
      i < e.nextHops.length := by
  unfold Entry.findNextHop at h
  dsimp only at h
  split at h
  · rename_i hlt
    simp only [Option.some.injEq] at h
    subst h
    exact ⟨rfl, hlt⟩
  · cases h

theorem hasNextHop_eq_true_iff (e : Entry) (f : Face) :
    e.hasNextHop f = true ↔ ∃ h ∈ e.nextHops, h.face = f := by
  unfold Entry.hasNextHop
  cases hfind : e.findNextHop f with
  | none =>
    have := (findNextHop_eq_none_iff e f).mp hfind
    simp only [Option.isSome_none, Bool.false_eq_true, false_iff, not_exists, not_and]
    exact this
  | some i =>
    simp only [Option.isSome_some, true_iff]
    by_contra hcon
    have : e.findNextHop f = none :=
      (findNextHop_eq_none_iff e f).mpr (fun h hh hf => hcon ⟨h, hh, hf⟩)
    rw [hfind] at this
    cases this

theorem filter_ne_eq_self (l : NextHopList) (f : Face) (h : ∀ x ∈ l, x.face ≠ f) :
    l.filter (fun x => decide (x.face ≠ f)) = l := by
  apply List.filter_eq_self.mpr
  intro x hx
  simpa using h x hx

theorem setCostAt_append_last (l : NextHopList) (f : Face) (c : Nat) :
    setCostAt (l ++ [NextHop.mk f 0]) ((l ++ [NextHop.mk f 0]).length - 1) c
      = l ++ [NextHop.mk f c] := by
  unfold setCostAt
  induction l with
  | nil => rfl
  | cons a l ih =>
    simp only [List.cons_append, List.length_cons, List.length_append, List.length_nil,
      Nat.add_sub_cancel] at ih ⊢
    rw [List.modify_succ_cons, ih]

theorem setCostAt_findIdx_perm (l : NextHopList) (f : Face) (c : Nat)
    (hnd : (l.map NextHop.face).Nodup)
    (hi : l.findIdx (fun x => decide (x.face = f)) < l.length) :
    (setCostAt l (l.findIdx (fun x => decide (x.face = f))) c).Perm
      (NextHop.mk f c :: l.filter (fun x => decide (x.face ≠ f))) := by
  unfold setCostAt
  induction l with
  | nil => simp at hi
  | cons a l ih =>
    rw [List.map_cons, List.nodup_cons] at hnd
    rw [List.findIdx_cons]
    by_cases ha : a.face = f
    · have hrest : ∀ x ∈ l, x.face ≠ f := by
        intro x hx hxf
        exact hnd.1 (List.mem_map.mpr ⟨x, hx, by rw [hxf, ha]⟩)
      simp only [ha, decide_True, cond_true, List.modify_zero_cons, ne_eq, not_true_eq_false,
        decide_False, Bool.false_eq_true, not_false_eq_true, List.filter_cons_of_neg]
      have := filter_ne_eq_self l f hrest
      simp only [ne_eq] at this
      rw [this]
    · have hi2 : l.findIdx (fun x => decide (x.face = f)) < l.length := by
        rw [List.findIdx_cons] at hi
        simp only [ha, decide_False, cond_false, List.length_cons, add_lt_add_iff_right] at hi
        exact hi
      simp only [ha, decide_False, cond_false, List.modify_succ_cons, ne_eq, not_false_eq_true,
        decide_True, List.filter_cons_of_pos]
      have := ih hnd.2 hi2
      simp only [ne_eq] at this
      exact (List.Perm.cons a this).trans (List.Perm.swap _ _ _)

/-- The list `addNextHop` leaves is a rearrangement of the new next hop followed by the
next hops of the other faces. -/
theorem addNextHop_perm (sort : NextHopList → NextHopList) (hs : StdSort sort) (e : Entry)
    (f : Face) (c : Nat) (hnd : (e.nextHops.map NextHop.face).Nodup) :
    (e.addNextHop sort f c).nextHops.Perm
      (NextHop.mk f c :: e.nextHops.filter (fun x => decide (x.face ≠ f))) := by
  unfold Entry.addNextHop
  cases hfind : e.findNextHop f with
  | none =>
    simp only [Entry.sortNextHops]
    refine (hs.perm _).trans ?_
    rw [setCostAt_append_last, filter_ne_eq_self _ _ ((findNextHop_eq_none_iff e f).mp hfind)]
    exact List.perm_append_singleton _ _
  | some i =>
    obtain ⟨hi, hlt⟩ := findNextHop_eq_some e f i hfind
    simp only [Entry.sortNextHops]
    refine (hs.perm _).trans ?_
    subst hi
    exact setCostAt_findIdx_perm _ f c hnd hlt

theorem filter_ne_length (l : NextHopList) (f : Face) (hnd : (l.map NextHop.face).Nodup)
    (hex : ∃ h ∈ l, h.face = f) :
    (l.filter (fun x => decide (x.face ≠ f))).length + 1 = l.length := by
  induction l with
  | nil => simp at hex
  | cons a l ih =>
    rw [List.map_cons, List.nodup_cons] at hnd
    by_cases ha : a.face = f
    · have hrest : ∀ x ∈ l, x.face ≠ f := by
        intro x hx hxf
        exact hnd.1 (List.mem_map.mpr ⟨x, hx, by rw [hxf, ha]⟩)
      rw [List.filter_cons_of_neg (by simp [ha]), filter_ne_eq_self l f hrest, List.length_cons]
    · have hex2 : ∃ h ∈ l, h.face = f := by
        obtain ⟨h, hh, hf⟩ := hex
        rcases List.mem_cons.mp hh with rfl | hh
        · exact absurd hf ha
        · exact ⟨h, hh, hf⟩
      rw [List.filter_cons_of_pos (by simp [ha]), List.length_cons, ih hnd.2 hex2,
        List.length_cons]

theorem stdSort_singleton (sort : NextHopList → NextHopList) (hs : StdSort sort)
    (a : NextHop) : sort [a] = [a] :=
  List.perm_singleton.mp (hs.perm [a])

theorem stdSort_pair (sort : NextHopList → NextHopList) (hs : StdSort sort)
    (a b : NextHop) (hab : a.cost < b.cost) : sort [b, a] = [a, b] := by
  have hp := hs.perm [b, a]
  have hsd := hs.sorted [b, a]
  have hlen := hp.length_eq
  match hl : sort [b, a] with
  | [] => rw [hl] at hlen; simp at hlen
  | [_] => rw [hl] at hlen; simp at hlen
  | _ :: _ :: _ :: _ => rw [hl] at hlen; simp at hlen
  | [x, y] =>
    rw [hl] at hp hsd
    have hx : x ∈ [b, a] := hp.subset (by simp)
    have hy : y ∈ [b, a] := hp.subset (by simp)
    have ha : a ∈ [x, y] := hp.symm.subset (by simp)
    have hb : b ∈ [x, y] := hp.symm.subset (by simp)
    simp only [SortedByCost, costLt, List.pairwise_cons, List.mem_singleton, forall_eq,
      decide_eq_false_iff_not, not_lt, List.mem_cons, List.mem_nil_iff, or_false,
      List.not_mem_nil, false_implies, implies_true, List.Pairwise.nil, and_true] at hsd hx hy ha hb
    rcases hx with rfl | rfl <;> rcases hy with rfl | rfl
    · rcases ha with rfl | rfl <;> omega
    · omega
    · rfl
    · rcases hb with rfl | rfl <;> omega

theorem sortByCost_perm (l : NextHopList) : (sortByCost l).Perm l := by
  have hins : ∀ (a : NextHop) (l : NextHopList), (insertByCost a l).Perm (a :: l) := by
    intro a l
    induction l with
    | nil => exact List.Perm.refl _
    | cons b l ih =>
      unfold insertByCost
      split
      · exact (List.Perm.cons b ih).trans (List.Perm.swap _ _ _)
      · exact List.Perm.refl _
  induction l with
  | nil => exact List.Perm.refl _
  | cons a l ih => exact (hins a _).trans (List.Perm.cons a ih)

theorem sortByCost_sorted (l : NextHopList) : SortedByCost (sortByCost l) := by
  have hperm : ∀ (a : NextHop) (l : NextHopList), (insertByCost a l).Perm (a :: l) := by
    intro a l
    induction l with
    | nil => exact List.Perm.refl _
    | cons b l ih =>
      unfold insertByCost
      split
      · exact (List.Perm.cons b ih).trans (List.Perm.swap _ _ _)
      · exact List.Perm.refl _
  have hins : ∀ (a : NextHop) (l : NextHopList), SortedByCost l →
      SortedByCost (insertByCost a l) := by
    intro a l
    induction l with
    | nil => intro _; simp [insertByCost, SortedByCost]
    | cons b l ih =>
      intro hl
      unfold SortedByCost at hl ih ⊢
      rw [List.pairwise_cons] at hl
      unfold insertByCost
      split
      · rename_i hba
        rw [List.pairwise_cons]
        refine ⟨?_, ih hl.2⟩
        intro x hx
        rcases List.mem_cons.mp ((hperm a l).subset hx) with rfl | hx
        · simp only [costLt, decide_eq_true_eq, decide_eq_false_iff_not, not_lt] at hba ⊢
          omega
        · exact hl.1 x hx
      · rename_i hba
        rw [List.pairwise_cons, List.pairwise_cons]
        refine ⟨?_, hl.1, hl.2⟩
        intro x hx
        simp only [costLt, decide_eq_true_eq, not_lt, decide_eq_false_iff_not] at hba ⊢
        rcases List.mem_cons.mp hx with rfl | hx
        · omega
        · have := hl.1 x hx
          simp only [costLt, decide_eq_false_iff_not, not_lt] at this
          omega
  induction l with
  | nil => simp [sortByCost, SortedByCost]
  | cons a l ih => exact hins a _ ih

/-- Insertion sort by cost meets the `std::sort` contract. -/
theorem sortByCost_stdSort : StdSort sortByCost :=
  ⟨sortByCost_perm, sortByCost_sorted⟩

theorem sortedByCost_iff (l : NextHopList) :
    SortedByCost l ↔ l.Pairwise (fun a b => a.cost ≤ b.cost) := by
  unfold SortedByCost costLt
  simp only [decide_eq_false_iff_not, not_lt]

theorem step_sorted (sort : NextHopList → NextHopList) (hs : StdSort sort) (e : Entry)
    (op : Op) (he : SortedByCost e.nextHops) : SortedByCost (e.step sort op).nextHops := by
  cases op with
  | add f c =>
    show SortedByCost (e.addNextHop sort f c).nextHops
    unfold Entry.addNextHop
    cases e.findNextHop f <;> exact hs.sorted _
  | remove f =>
    show SortedByCost (e.removeNextHop f).nextHops
    unfold Entry.removeNextHop
    cases e.findNextHop f with
    | none => exact he
    | some i => exact List.Pairwise.sublist (List.eraseIdx_sublist _ _) he

theorem run_sorted (sort : NextHopList → NextHopList) (hs : StdSort sort) (ops : List Op)
    (e : Entry) (he : SortedByCost e.nextHops) : SortedByCost (e.run sort ops).nextHops := by
  induction ops generalizing e with
  | nil => exact he
  | cons op ops ih => exact ih _ (step_sorted sort hs e op he)

/-- C6: starting from a newly constructed entry, after any finite sequence of
`addNextHop` and `removeNextHop` calls the next-hop list is in ascending order of cost:
every next hop costs no more than each one placed after it (in particular the next one).
This holds for every sort that meets the contract of `std::sort`. -/
theorem fib_nextHops_sorted_by_cost (sort : NextHopList → NextHopList) (hs : StdSort sort)
    (p : List (List Nat)) (ops : List Op) :
    ((Entry.new p).run sort ops).nextHops.Pairwise (fun a b => a.cost ≤ b.cost) :=
  (sortedByCost_iff _).mp (run_sorted sort hs ops (Entry.new p) List.Pairwise.nil)

theorem fib_nextHops_sorted_by_cost_witness :
    ((Entry.new []).run sortByCost
        [Op.add 1 10, Op.add 2 5, Op.remove 1, Op.add 3 5, Op.add 1 1]).nextHops.Pairwise
      (fun a b => a.cost ≤ b.cost) :=
  fib_nextHops_sorted_by_cost sortByCost sortByCost_stdSort []
    [Op.add 1 10, Op.add 2 5, Op.remove 1, Op.add 3 5, Op.add 1 1]

/-- C7: on an entry whose next hops have pairwise distinct faces, `addNextHop(f, c)`
leaves exactly one next hop for `f`, with cost `c`; keeps every next hop of another face
with its cost; adds nothing else; keeps the faces pairwise distinct; and lengthens the
list by one exactly when `f` had no next hop (the length is unchanged otherwise). From an
empty entry `addNextHop(f1, 10)`, `addNextHop(f2, 5)`, `addNextHop(f1, 1)` gives exactly
`[f1(cost=1), f2(cost=5)]`. -/
theorem addNextHop_updates_single_face (sort : NextHopList → NextHopList)
    (hs : StdSort sort) (e : Entry) (f : Face) (c : Nat)
    (hnd : (e.nextHops.map NextHop.face).Nodup) :
    (e.addNextHop sort f c).nextHops.filter (fun x => decide (x.face = f)) = [NextHop.mk f c]
    ∧ (∀ h ∈ e.nextHops, h.face ≠ f → h ∈ (e.addNextHop sort f c).nextHops)
    ∧ (∀ h ∈ (e.addNextHop sort f c).nextHops,
        h = NextHop.mk f c ∨ (h ∈ e.nextHops ∧ h.face ≠ f))
    ∧ ((e.addNextHop sort f c).nextHops.map NextHop.face).Nodup
    ∧ (e.addNextHop sort f c).nextHops.length
        = e.nextHops.length + (if e.hasNextHop f then 0 else 1)
    ∧ (e.addNextHop sort f c).pfx = e.pfx
    ∧ (∀ (p : List (List Nat)) (f1 f2 : Face), f1 ≠ f2 →
        ((Entry.new p).run sort [Op.add f1 10, Op.add f2 5, Op.add f1 1]).nextHops
          = [NextHop.mk f1 1, NextHop.mk f2 5]) := by
  have hperm := addNextHop_perm sort hs e f c hnd
  have hfilt : ∀ x ∈ e.nextHops.filter (fun x => decide (x.face ≠ f)), x.face ≠ f := by
    intro x hx
    simpa using (List.mem_filter.mp hx).2
  refine ⟨?_, ?_, ?_, ?_, ?_, ?_, ?_⟩
  · have h1 := hperm.filter (fun x => decide (x.face = f))
    rw [List.filter_cons_of_pos (by simp)] at h1
    have h2 : (e.nextHops.filter (fun x => decide (x.face ≠ f))).filter
        (fun x => decide (x.face = f)) = [] := by
      apply List.filter_eq_nil_iff.mpr
      intro x hx
      simpa using hfilt x hx
    rw [h2] at h1
    exact List.perm_singleton.mp h1
  · intro h hh hf
    apply hperm.symm.subset
    exact List.mem_cons_of_mem _ (List.mem_filter.mpr ⟨hh, by simpa using hf⟩)
  · intro h hh
    rcases List.mem_cons.mp (hperm.subset hh) with rfl | hmem
    · exact Or.inl rfl
    · exact Or.inr ⟨(List.mem_filter.mp hmem).1, hfilt h hmem⟩
  · rw [(hperm.map NextHop.face).nodup_iff, List.map_cons, List.nodup_cons]
    constructor
    · intro hmem
      obtain ⟨x, hx, hxf⟩ := List.mem_map.mp hmem
      exact hfilt x hx hxf
    · exact List.Nodup.sublist (List.Sublist.map _ (List.filter_sublist _)) hnd
  · rw [hperm.length_eq, List.length_cons]
    by_cases hhas : e.hasNextHop f = true
    · rw [if_pos hhas, filter_ne_length _ _ hnd ((hasNextHop_eq_true_iff e f).mp hhas)]
      rfl
    · rw [if_neg hhas]
      have hnone : ∀ h ∈ e.nextHops, h.face ≠ f := by
        intro h hh hf
        exact hhas ((hasNextHop_eq_true_iff e f).mpr ⟨h, hh, hf⟩)
      rw [filter_ne_eq_self _ _ hnone]
  · unfold Entry.addNextHop
    cases e.findNextHop f <;> rfl
  · intro p f1 f2 hne
    have hne2 : ¬ f2 = f1 := fun h => hne h.symm
    have s1 : ((Entry.new p).addNextHop sort f1 10).nextHops = [NextHop.mk f1 10] := by
      simp [Entry.addNextHop, Entry.findNextHop, Entry.new, Entry.sortNextHops, setCostAt,
        List.modify, stdSort_singleton sort hs]
    have e1 : (Entry.new p).addNextHop sort f1 10 = ⟨p, [NextHop.mk f1 10]⟩ := by
      have hp : ((Entry.new p).addNextHop sort f1 10).pfx = p := by
        unfold Entry.addNextHop
        cases (Entry.new p).findNextHop f1 <;> rfl
      cases hx : (Entry.new p).addNextHop sort f1 10 with
      | mk a b => rw [hx] at s1 hp; simp only at s1 hp; rw [s1, hp]
    have e2 : (Entry.mk p [NextHop.mk f1 10]).addNextHop sort f2 5
        = ⟨p, [NextHop.mk f2 5, NextHop.mk f1 10]⟩ := by
      simp [Entry.addNextHop, Entry.findNextHop, Entry.sortNextHops, setCostAt,
        List.modify, List.findIdx_cons, hne, List.findIdx_nil,
        stdSort_pair sort hs (NextHop.mk f2 5) (NextHop.mk f1 10) (by simp)]
    have e3 : (Entry.mk p [NextHop.mk f2 5, NextHop.mk f1 10]).addNextHop sort f1 1
        = ⟨p, [NextHop.mk f1 1, NextHop.mk f2 5]⟩ := by
      simp [Entry.addNextHop, Entry.findNextHop, Entry.sortNextHops, setCostAt,
        List.modify, List.findIdx_cons, hne2, List.findIdx_nil,
        stdSort_pair sort hs (NextHop.mk f1 1) (NextHop.mk f2 5) (by simp)]
    simp only [Entry.run, List.foldl_cons, List.foldl_nil, Entry.step, e1, e2, e3]

theorem addNextHop_updates_single_face_witness :
    ((Entry.mk [] [NextHop.mk 2 5, NextHop.mk 1 10]).nextHops.map NextHop.face).Nodup
    ∧ ((Entry.new []).run sortByCost [Op.add 1 10, Op.add 2 5, Op.add 1 1]).nextHops
        = [NextHop.mk 1 1, NextHop.mk 2 5] := by
  have h := addNextHop_updates_single_face sortByCost sortByCost_stdSort
    (Entry.mk [] [NextHop.mk 2 5, NextHop.mk 1 10]) 1 1 (by decide)
  exact ⟨by decide, h.2.2.2.2.2.2 [] 1 2 (by decide)⟩

theorem eraseIdx_findIdx_eq_filter (l : NextHopList) (f : Face)
    (hnd : (l.map NextHop.face).Nodup)
    (hi : l.findIdx (fun x => decide (x.face = f)) < l.length) :
    l.eraseIdx (l.findIdx (fun x => decide (x.face = f)))
      = l.filter (fun x => decide (x.face ≠ f)) := by
  induction l with
  | nil => simp at hi
  | cons a l ih =>
    rw [List.map_cons, List.nodup_cons] at hnd
    rw [List.findIdx_cons]
    by_cases ha : a.face = f
    · have hrest : ∀ x ∈ l, x.face ≠ f := by
        intro x hx hxf
        exact hnd.1 (List.mem_map.mpr ⟨x, hx, by rw [hxf, ha]⟩)
      rw [List.filter_cons_of_neg (by simp [ha]), filter_ne_eq_self l f hrest]
      simp [ha]
    · have hi2 : l.findIdx (fun x => decide (x.face = f)) < l.length := by
        rw [List.findIdx_cons] at hi
        simp only [ha, decide_False, cond_false, List.length_cons, add_lt_add_iff_right] at hi
        exact hi
      rw [List.filter_cons_of_pos (by simp [ha]), ← ih hnd.2 hi2]
      simp [ha]

/-- C8: on an entry whose next hops have pairwise distinct faces, after
`removeNextHop(f)` the entry has no next hop for `f`; what remains is the old list without
the next hops of `f`, so every next hop of another face is kept with its cost and in the
same relative order; and when `f` had no next hop the entry is unchanged. The operation is
total: it raises no error. -/
theorem removeNextHop_frame (e : Entry) (f : Face)
    (hnd : (e.nextHops.map NextHop.face).Nodup) :
    (e.removeNextHop f).hasNextHop f = false
    ∧ (e.removeNextHop f).nextHops = e.nextHops.filter (fun x => decide (x.face ≠ f))
    ∧ (e.removeNextHop f).pfx = e.pfx
    ∧ (e.hasNextHop f = false → e.removeNextHop f = e) := by
  have hlist : (e.removeNextHop f).nextHops
      = e.nextHops.filter (fun x => decide (x.face ≠ f)) := by
    unfold Entry.removeNextHop
    cases hfind : e.findNextHop f with
    | none =>
      exact (filter_ne_eq_self _ _ ((findNextHop_eq_none_iff e f).mp hfind)).symm
    | some i =>
      obtain ⟨hi, hlt⟩ := findNextHop_eq_some e f i hfind
      subst hi
      exact eraseIdx_findIdx_eq_filter _ f hnd hlt
  refine ⟨?_, hlist, ?_, ?_⟩
  · cases hhas : (e.removeNextHop f).hasNextHop f with
    | false => rfl
    | true =>
      obtain ⟨h, hh, hf⟩ := (hasNextHop_eq_true_iff _ f).mp hhas
      rw [hlist] at hh
      have := (List.mem_filter.mp hh).2
      simp only [ne_eq, decide_not, Bool.not_eq_true', decide_eq_false_iff_not] at this
      exact absurd hf this
  · unfold Entry.removeNextHop
    cases e.findNextHop f <;> rfl
  · intro hhas
    unfold Entry.removeNextHop
    cases hfind : e.findNextHop f with
    | none => rfl
    | some i =>
      unfold Entry.hasNextHop at hhas
      rw [hfind] at hhas
      cases hhas

theorem removeNextHop_frame_witness :
    ((Entry.mk [] [NextHop.mk 1 1, NextHop.mk 2 5, NextHop.mk 3 7]).nextHops.map
        NextHop.face).Nodup
    ∧ ((Entry.mk [] [NextHop.mk 1 1, NextHop.mk 2 5, NextHop.mk 3 7]).removeNextHop 2).nextHops
        = [NextHop.mk 1 1, NextHop.mk 3 7] :=
  ⟨by decide,
   (removeNextHop_frame (Entry.mk [] [NextHop.mk 1 1, NextHop.mk 2 5, NextHop.mk 3 7]) 2
      (by decide)).2.1.trans (by decide)⟩

end fib
end nfd

/-! # Theorems: matching -/

namespace ndn

theorem Name.isPrefixOf_iff (a b : Name) : Name.isPrefixOf a b = true ↔ a <+: b := by
  induction a generalizing b with
  | nil => simp [Name.isPrefixOf]
  | cons x a ih =>
    cases b with
    | nil => simp [Name.isPrefixOf]
    | cons y b =>
      simp only [Name.isPrefixOf, Bool.and_eq_true, decide_eq_true_eq, ih, List.cons_prefix_cons]

theorem Name.isPrefixOf_length (a b : Name) (h : Name.isPrefixOf a b = true) :
    a.length ≤ b.length :=
  ((Name.isPrefixOf_iff a b).mp h).length_le

theorem Name.get_ofNat (n : Name) (k : Nat) : Name.get n (k : Int) = n[k]? := by
  unfold Name.get
  simp

theorem Name.get_neg_one (n : Name) (h : 1 ≤ n.length) :
    Name.get n (-1) = n[n.length - 1]? := by
  unfold Name.get
  have h1 : ¬ ((0 : Int) ≤ -1) := by omega
  have h2 : ¬ ((n.length : Int) + -1 < 0) := by omega
  rw [if_neg h1, if_neg h2]
  congr 1
  omega

/-- C1: `matchesName(N)` is true exactly when `N` is at least as long as the Interest's
name, the Interest's name is a prefix of `N`, the number of extra components respects
`minSuffixComponents` and `maxSuffixComponents` when these are set (`>= 0`), and, when the
exclude filter is non-empty and `N` is longer, the component of `N` at index `|I.name|` is
not excluded. Hence without min, max and exclude the Interest matches `N` iff its name is
a prefix of `N`, and with `minSuffixComponents = 1` it does not match its own name. -/
theorem matchesName_iff (p : Primitives) (x : Interest) (N : Name) :
    (x.matchesName p N = true ↔
      (N.length ≥ x.m_name.length
      ∧ x.m_name <+: N
      ∧ (x.getMinSuffixComponents ≥ 0 →
          (N.length : Int) - x.m_name.length ≥ x.getMinSuffixComponents)
      ∧ (x.getMaxSuffixComponents ≥ 0 →
          (N.length : Int) - x.m_name.length ≤ x.getMaxSuffixComponents)
      ∧ (x.getExclude ≠ [] → N.length > x.m_name.length →
          ∀ c, N[x.m_name.length]? = some c → p.isExcluded x.getExclude c = false)))
    ∧ (x.getMinSuffixComponents < 0 → x.getMaxSuffixComponents < 0 → x.getExclude = [] →
        (x.matchesName p N = true ↔ x.m_name <+: N))
    ∧ (x.getMinSuffixComponents = 1 → x.matchesName p x.m_name = false) := by
  have main : ∀ M : Name, (x.matchesName p M = true ↔
      (M.length ≥ x.m_name.length
      ∧ x.m_name <+: M
      ∧ (x.getMinSuffixComponents ≥ 0 →
          (M.length : Int) - x.m_name.length ≥ x.getMinSuffixComponents)
      ∧ (x.getMaxSuffixComponents ≥ 0 →
          (M.length : Int) - x.m_name.length ≤ x.getMaxSuffixComponents)
      ∧ (x.getExclude ≠ [] → M.length > x.m_name.length →
          ∀ c, M[x.m_name.length]? = some c → p.isExcluded x.getExclude c = false))) := by
    intro M
    unfold Interest.matchesName
    simp only [Name.size, Name.get_ofNat, Exclude.empty]
    by_cases h1 : M.length < x.m_name.length
    · simp only [h1, if_true, Bool.false_eq_true, false_iff]
      intro h
      omega
    · have hle : x.m_name.length ≤ M.length := Nat.le_of_not_lt h1
      rw [if_neg h1]
      by_cases h2 : Name.isPrefixOf x.m_name M = true
      · have hp := (Name.isPrefixOf_iff _ _).mp h2
        simp only [h2, Bool.not_true, Bool.false_eq_true, if_false]
        by_cases h3 : x.getMinSuffixComponents ≥ 0
        · by_cases h3b : M.length - x.m_name.length ≥ x.getMinSuffixComponents.toNat
          · have h3c : (M.length : Int) - x.m_name.length ≥ x.getMinSuffixComponents := by
              omega
            by_cases h4 : x.getMaxSuffixComponents ≥ 0
            · by_cases h4b : M.length - x.m_name.length ≤ x.getMaxSuffixComponents.toNat
              · have h4c : (M.length : Int) - x.m_name.length ≤ x.getMaxSuffixComponents := by
                  omega
                cases hE : x.getExclude with
                | nil => simp [h3, h3b, h4, h4b, hle, hp, h3c, h4c]
                | cons ex exs =>
                  by_cases h5 : M.length > x.m_name.length
                  · have hlt : x.m_name.length < M.length := h5
                    simp [h3, h3b, h4, h4b, hle, hp, h3c, h4c, h5,
                      List.getElem?_eq_getElem hlt]
                  · simp [h3, h3b, h4, h4b, hle, hp, h3c, h4c, h5]
              · have h4c : ¬ ((M.length : Int) - x.m_name.length ≤ x.getMaxSuffixComponents) := by
                  omega
                simp [h3, h3b, h4, h4b, h4c]
            · cases hE : x.getExclude with
              | nil => simp [h3, h3b, h4, hle, hp, h3c]
              | cons ex exs =>
                by_cases h5 : M.length > x.m_name.length
                · have hlt : x.m_name.length < M.length := h5
                  simp [h3, h3b, h4, hle, hp, h3c, h5, List.getElem?_eq_getElem hlt]
                · simp [h3, h3b, h4, hle, hp, h3c, h5]
          · have h3c : ¬ ((M.length : Int) - x.m_name.length ≥ x.getMinSuffixComponents) := by
              omega
            simp [h3, h3b, h3c]
        · by_cases h4 : x.getMaxSuffixComponents ≥ 0
          · by_cases h4b : M.length - x.m_name.length ≤ x.getMaxSuffixComponents.toNat
            · have h4c : (M.length : Int) - x.m_name.length ≤ x.getMaxSuffixComponents := by
                omega
              cases hE : x.getExclude with
              | nil => simp [h3, h4, h4b, hle, hp, h4c]
              | cons ex exs =>
                by_cases h5 : M.length > x.m_name.length
                · have hlt : x.m_name.length < M.length := h5
                  simp [h3, h4, h4b, hle, hp, h4c, h5, List.getElem?_eq_getElem hlt]
                · simp [h3, h4, h4b, hle, hp, h4c, h5]
            · have h4c : ¬ ((M.length : Int) - x.m_name.length ≤ x.getMaxSuffixComponents) := by
                omega
              simp [h3, h4, h4b, h4c]
          · cases hE : x.getExclude with
            | nil => simp [h3, h4, hle, hp]
            | cons ex exs =>
              by_cases h5 : M.length > x.m_name.length
              · have hlt : x.m_name.length < M.length := h5
                simp [h3, h4, hle, hp, h5, List.getElem?_eq_getElem hlt]
              · simp [h3, h4, hle, hp, h5]
      · have hp : ¬ (x.m_name <+: M) := fun h => h2 ((Name.isPrefixOf_iff _ _).mpr h)
        simp [h2, hp]
  refine ⟨main N, ?_, ?_⟩
  · intro hmin hmax hex
    rw [main N]
    constructor
    · intro h
      exact h.2.1
    · intro h
      refine ⟨h.length_le, h, ?_, ?_, ?_⟩
      · intro h'; omega
      · intro h'; omega
      · intro h'; exact absurd hex h'
  · intro hmin
    cases hm : x.matchesName p x.m_name with
    | false => rfl
    | true =>
      have := ((main x.m_name).mp hm).2.2.1 (by omega)
      omega

theorem getFullName_of_wire (p : Primitives) (d : Data) (w : Block)
    (hw : d.m_wire = some w) (hc : d.CacheOk p) :
    (d.getFullName p).1 = .ok (d.m_name ++ [Component.mk true (p.sha256 w.wire)]) := by
  unfold Data.getFullName
  by_cases he : d.m_fullName.isEmpty = true
  · rw [if_pos he, hw]
  · rw [if_neg he]
    rcases hc with h | ⟨w2, hw2, hf⟩
    · rw [h] at he
      exact absurd rfl he
    · rw [hw] at hw2
      cases hw2
      rw [hf]

theorem matchesDataPrefix_of_le (p : Primitives) (x : Interest) (d : Data)
    (hlen : x.m_name.length ≤ d.m_name.length) :
    x.matchesDataPrefix p d
      = if Name.isPrefixOf x.m_name d.m_name then none else some (.ok false) := by
  unfold Interest.matchesDataPrefix
  have hne : ¬ (x.m_name.size = d.m_name.size + 1) := by
    simp only [Name.size]
    omega
  simp only [hne, if_false]
  cases Name.isPrefixOf x.m_name d.m_name <;> rfl

theorem matchesDataExclude_of_empty (p : Primitives) (x : Interest) (d : Data)
    (hex : x.getExclude = []) : x.matchesDataExclude p d = none := by
  unfold Interest.matchesDataExclude
  simp [hex, Exclude.empty]

theorem matchesKeyLocator_of_none (t : TlvTypes) (x : Interest) (d : Data)
    (hkl : x.getPublisherPublicKeyLocator = none) : x.matchesKeyLocator t d = true := by
  unfold Interest.matchesKeyLocator
  rw [hkl]

/-- The suffix-count checks pass when neither bound is set and the Interest's name is not
longer than the Data's full name. -/
theorem matchesData_of_unset_bounds (p : Primitives) (t : TlvTypes) (x : Interest) (d : Data)
    (hmin : x.getMinSuffixComponents < 0) (hmax : x.getMaxSuffixComponents < 0)
    (hlen : x.m_name.length ≤ d.m_name.length + 1) :
    x.matchesData p t d =
      match x.matchesDataPrefix p d with
      | some r => r
      | none =>
        match x.matchesDataExclude p d with
        | some r => r
        | none => .ok (x.matchesKeyLocator t d) := by
  unfold Interest.matchesData
  have h1 : ¬ (x.getMinSuffixComponents ≥ 0) := by omega
  have h2 : ¬ (x.getMaxSuffixComponents ≥ 0) := by omega
  simp only [Name.size, h1, h2, decide_False, Bool.false_eq_true, if_false, Nat.add_zero, hlen,
    decide_True, Bool.not_true, Bool.false_and]

/-- C2: for an Interest with no selectors (min and max suffix components unset, empty
exclude filter, empty publisher key locator) and a Data whose name is at least as long as
the Interest's name, `matchesData` returns, and returns true exactly when the Interest's
name is a prefix of the Data's name; equality of the two names is included. -/
theorem matchesData_no_selectors (p : Primitives) (t : TlvTypes) (x : Interest) (d : Data)
    (hmin : x.getMinSuffixComponents < 0) (hmax : x.getMaxSuffixComponents < 0)
    (hex : x.getExclude = []) (hkl : x.getPublisherPublicKeyLocator = none)
    (hlen : x.m_name.length ≤ d.m_name.length) :
    (x.matchesData p t d = .ok true ↔ x.m_name <+: d.m_name)
    ∧ (x.matchesData p t d = .ok false ↔ ¬ x.m_name <+: d.m_name)
    ∧ (x.m_name = d.m_name → x.matchesData p t d = .ok true) := by
  have hval : x.matchesData p t d = .ok (Name.isPrefixOf x.m_name d.m_name) := by
    rw [matchesData_of_unset_bounds p t x d hmin hmax (by omega),
      matchesDataPrefix_of_le p x d hlen, matchesDataExclude_of_empty p x d hex,
      matchesKeyLocator_of_none t x d hkl]
    cases Name.isPrefixOf x.m_name d.m_name <;> rfl
  have hiff := Name.isPrefixOf_iff x.m_name d.m_name
  refine ⟨?_, ?_, ?_⟩
  · rw [hval, ← hiff]
    simp
  · rw [hval, ← hiff]
    simp
  · intro heq
    rw [hval, hiff.mpr (heq ▸ List.prefix_refl _)]

/-- Interest(`/a`) matches Data(`/a/b`) and Data(`/a`), and does not match Data(`/x`). -/
theorem matchesData_no_selectors_witness :
    (sampleInterest [comp [97]] Selectors.default).matchesData samplePrimitives sampleTlv
        (sampleData [comp [97], comp [98]] [] none) = .ok true
    ∧ (sampleInterest [comp [97]] Selectors.default).matchesData samplePrimitives sampleTlv
        (sampleData [comp [97]] [] none) = .ok true
    ∧ (sampleInterest [comp [97]] Selectors.default).matchesData samplePrimitives sampleTlv
        (sampleData [comp [120]] [] none) = .ok false :=
  ⟨(matchesData_no_selectors samplePrimitives sampleTlv
      (sampleInterest [comp [97]] Selectors.default) (sampleData [comp [97], comp [98]] [] none)
      (by decide) (by decide) rfl rfl (by decide)).1.mpr (by decide),
   (matchesData_no_selectors samplePrimitives sampleTlv
      (sampleInterest [comp [97]] Selectors.default) (sampleData [comp [97]] [] none)
      (by decide) (by decide) rfl rfl (by decide)).2.2 rfl,
   (matchesData_no_selectors samplePrimitives sampleTlv
      (sampleInterest [comp [97]] Selectors.default) (sampleData [comp [120]] [] none)
      (by decide) (by decide) rfl rfl (by decide)).2.1.mpr (by decide)⟩

theorem matchesDataExclude_of_nonempty (p : Primitives) (x : Interest) (d : Data) (w : Block)
    (hex : x.getExclude ≠ []) (hw : d.m_wire = some w) (hc : d.CacheOk p)
    (hlen : x.m_name.length ≤ d.m_name.length) (c : Component)
    (hcomp : (d.m_name ++ [Component.mk true (p.sha256 w.wire)])[x.m_name.length]? = some c) :
    x.matchesDataExclude p d
      = if p.isExcluded x.getExclude c then some (.ok false) else none := by
  unfold Interest.matchesDataExclude
  have hne : x.getExclude.empty = false := by
    cases h : x.getExclude with
    | nil => exact absurd h hex
    | cons a l => rfl
  have hlt : d.m_name.size + 1 > x.m_name.size := by
    simp only [Name.size]
    omega
  simp only [hne, Bool.not_false, Bool.true_and, hlt, decide_True, if_true,
    Nat.add_sub_cancel]
  by_cases heq : x.m_name.size = d.m_name.size
  · rw [if_pos heq, getFullName_of_wire p d w hw hc]
    simp only [Name.size] at heq ⊢
    rw [Name.get_ofNat, hcomp]
  · rw [if_neg heq]
    simp only [Name.size] at heq ⊢
    have hlt2 : x.m_name.length < d.m_name.length := by omega
    rw [List.getElem?_append_left hlt2] at hcomp
    rw [Name.get_ofNat, hcomp]

/-- C3: for an Interest whose only selector is a non-empty exclude filter `E`, and a
wire-encoded Data whose name has the Interest's name as a prefix, the full name of the
Data has a component `c` at index `|I.name|` (the plain component of the Data's name when
the Interest's name is shorter, the implicit digest that ends `getFullName()` when the
lengths are equal), and `matchesData` is false exactly when `E` excludes `c` and true
exactly when it does not. -/
theorem matchesData_exclude_only (p : Primitives) (t : TlvTypes) (x : Interest) (d : Data)
    (w : Block)
    (hmin : x.getMinSuffixComponents < 0) (hmax : x.getMaxSuffixComponents < 0)
    (hex : x.getExclude ≠ []) (hkl : x.getPublisherPublicKeyLocator = none)
    (hw : d.m_wire = some w) (hc : d.CacheOk p) (hpre : x.m_name <+: d.m_name) :
    ∃ fullName c,
      (d.getFullName p).1 = .ok fullName
      ∧ fullName = d.m_name ++ [Component.mk true (p.sha256 w.wire)]
      ∧ fullName[x.m_name.length]? = some c
      ∧ (x.m_name.length < d.m_name.length → d.m_name[x.m_name.length]? = some c)
      ∧ (x.m_name.length = d.m_name.length → fullName.getLast? = some c)
      ∧ (x.matchesData p t d = .ok false ↔ p.isExcluded x.getExclude c = true)
      ∧ (x.matchesData p t d = .ok true ↔ p.isExcluded x.getExclude c = false) := by
  have hlen : x.m_name.length ≤ d.m_name.length := hpre.length_le
  have hidx : x.m_name.length
      < (d.m_name ++ [Component.mk true (p.sha256 w.wire)]).length := by
    rw [List.length_append, List.length_singleton]
    omega
  refine ⟨d.m_name ++ [Component.mk true (p.sha256 w.wire)],
    (d.m_name ++ [Component.mk true (p.sha256 w.wire)])[x.m_name.length],
    getFullName_of_wire p d w hw hc, rfl, List.getElem?_eq_getElem hidx, ?_, ?_, ?_⟩
  · intro hlt
    rw [← List.getElem?_append_left hlt, List.getElem?_eq_getElem hidx]
  · intro heq
    have h1 : (d.m_name ++ [Component.mk true (p.sha256 w.wire)])[x.m_name.length]?
        = some (Component.mk true (p.sha256 w.wire)) := by
      rw [heq]
      simp
    rw [List.getElem?_eq_getElem hidx] at h1
    rw [Option.some.inj h1]
    simp
  · have hval : x.matchesData p t d = .ok (!p.isExcluded x.getExclude
        ((d.m_name ++ [Component.mk true (p.sha256 w.wire)])[x.m_name.length])) := by
      rw [matchesData_of_unset_bounds p t x d hmin hmax (by omega),
        matchesDataPrefix_of_le p x d hlen, (Name.isPrefixOf_iff _ _).mpr hpre,
        matchesDataExclude_of_nonempty p x d w hex hw hc hlen _
          (List.getElem?_eq_getElem hidx),
        matchesKeyLocator_of_none t x d hkl]
      cases p.isExcluded x.getExclude
        ((d.m_name ++ [Component.mk true (p.sha256 w.wire)])[x.m_name.length]) <;> rfl
    rw [hval]
    cases p.isExcluded x.getExclude
      ((d.m_name ++ [Component.mk true (p.sha256 w.wire)])[x.m_name.length]) <;> simp

/-- Interest(`/a`, exclude = `b`) does not match Data(`/a/b`) and matches Data(`/a/c`). -/
theorem matchesData_exclude_only_witness :
    (sampleInterest [comp [97]]
        { Selectors.default with exclude := [ExcludeEntry.component (comp [98])] }).matchesData
      samplePrimitives sampleTlv
        (sampleData [comp [97], comp [98]] [] (some ⟨6, []⟩)) = .ok false
    ∧ (sampleInterest [comp [97]]
        { Selectors.default with exclude := [ExcludeEntry.component (comp [98])] }).matchesData
      samplePrimitives sampleTlv
        (sampleData [comp [97], comp [99]] [] (some ⟨6, []⟩)) = .ok true := by
  constructor
  · obtain ⟨fullName, c, _, hfn, hc, _, _, hfalse, _⟩ :=
      matchesData_exclude_only samplePrimitives sampleTlv
        (sampleInterest [comp [97]]
          { Selectors.default with exclude := [ExcludeEntry.component (comp [98])] })
        (sampleData [comp [97], comp [98]] [] (some ⟨6, []⟩)) ⟨6, []⟩
        (by decide) (by decide) (by decide) rfl rfl (Or.inl rfl) (by decide)
    apply hfalse.mpr
    subst hfn
    simp only [sampleInterest, sampleData, List.cons_append, List.length_singleton,
      List.getElem?_cons_succ, List.getElem?_cons_zero, Option.some.injEq] at hc
    subst hc
    decide
  · obtain ⟨fullName, c, _, hfn, hc, _, _, _, htrue⟩ :=
      matchesData_exclude_only samplePrimitives sampleTlv
        (sampleInterest [comp [97]]
          { Selectors.default with exclude := [ExcludeEntry.component (comp [98])] })
        (sampleData [comp [97], comp [99]] [] (some ⟨6, []⟩)) ⟨6, []⟩
        (by decide) (by decide) (by decide) rfl rfl (Or.inl rfl) (by decide)
    apply htrue.mpr
    subst hfn
    simp only [sampleInterest, sampleData, List.cons_append, List.length_singleton,
      List.getElem?_cons_succ, List.getElem?_cons_zero, Option.some.injEq] at hc
    subst hc
    decide

/-- When `matchesData` returns true, its prefix check passed. -/
theorem matchesDataPrefix_of_true (p : Primitives) (t : TlvTypes) (x : Interest) (d : Data)
    (h : x.matchesData p t d = .ok true) : x.matchesDataPrefix p d = none := by
  have hshape : ∀ r, x.matchesDataPrefix p d = some r → r ≠ .ok true := by
    intro r hp
    unfold Interest.matchesDataPrefix at hp
    dsimp only at hp
    by_cases h1 : x.m_name.size = d.m_name.size + 1
    · rw [if_pos h1] at hp
      cases hg : Name.get x.m_name (-1) with
      | none =>
        rw [hg] at hp
        cases hp
        simp
      | some last =>
        rw [hg] at hp
        dsimp only at hp
        cases hdig : last.isImplicitSha256Digest with
        | false =>
          rw [hdig] at hp
          cases hp
          simp
        | true =>
          rw [hdig, if_pos rfl] at hp
          cases hfn : (d.getFullName p).1 with
          | error e =>
            rw [hfn] at hp
            cases hp
            simp
          | ok fullName =>
            rw [hfn] at hp
            dsimp only at hp
            by_cases hne : x.m_name ≠ fullName
            · rw [if_pos hne] at hp
              cases hp
              simp
            · rw [if_neg hne] at hp
              cases hp
    · rw [if_neg h1] at hp
      by_cases hpre : (!Name.isPrefixOf x.m_name d.m_name) = true
      · rw [if_pos hpre] at hp
        cases hp
        simp
      · rw [if_neg hpre] at hp
        cases hp
  cases hp : x.matchesDataPrefix p d with
  | none => rfl
  | some r =>
    exfalso
    apply hshape r hp
    unfold Interest.matchesData at h
    dsimp only at h
    rw [hp] at h
    by_cases h1 : (!decide (x.m_name.size +
        (if decide (x.getMinSuffixComponents ≥ 0) = true then
          x.getMinSuffixComponents.toNat else 0) ≤ d.m_name.size + 1)) = true
    · rw [if_pos h1] at h
      cases h
    · rw [if_neg h1] at h
      by_cases h2 : (decide (x.getMaxSuffixComponents ≥ 0) &&
          !decide (x.m_name.size + x.getMaxSuffixComponents.toNat ≥ d.m_name.size + 1)) = true
      · rw [if_pos h2] at h
        cases h
      · rw [if_neg h2] at h
        exact h

/-- C4: when the Interest's name is one component longer than the Data's name, the last
component `I.name[-1]` that the prefix check reads exists, and `matchesData` returns true
only if that component is an implicit-digest component and the whole Interest name is
equal to `D.getFullName()`; for a wire-encoded Data this full name is the Data's name
followed by the digest of its wire. -/
theorem matchesData_full_name_length (p : Primitives) (t : TlvTypes) (x : Interest)
    (d : Data) (hlen : x.m_name.length = d.m_name.length + 1) :
    (∃ last, Name.get x.m_name (-1) = some last ∧ x.m_name.getLast? = some last)
    ∧ (x.matchesData p t d = .ok true →
        ∃ last, Name.get x.m_name (-1) = some last
          ∧ last.isImplicitSha256Digest = true
          ∧ (d.getFullName p).1 = .ok x.m_name)
    ∧ (∀ w, d.m_wire = some w → d.CacheOk p → x.matchesData p t d = .ok true →
        x.m_name = d.m_name ++ [Component.mk true (p.sha256 w.wire)]) := by
  have hpos : 1 ≤ x.m_name.length := by omega
  have hlast : ∃ last, Name.get x.m_name (-1) = some last
      ∧ x.m_name.getLast? = some last := by
    rw [Name.get_neg_one _ hpos, List.getLast?_eq_getElem?]
    have hlt : x.m_name.length - 1 < x.m_name.length := by omega
    exact ⟨x.m_name[x.m_name.length - 1], List.getElem?_eq_getElem hlt,
      List.getElem?_eq_getElem hlt⟩
  have hmain : x.matchesData p t d = .ok true →
      ∃ last, Name.get x.m_name (-1) = some last
        ∧ last.isImplicitSha256Digest = true
        ∧ (d.getFullName p).1 = .ok x.m_name := by
    intro htrue
    have hp := matchesDataPrefix_of_true p t x d htrue
    obtain ⟨last, hget, _⟩ := hlast
    refine ⟨last, hget, ?_⟩
    unfold Interest.matchesDataPrefix at hp
    have heq : x.m_name.size = d.m_name.size + 1 := hlen
    simp only [heq, if_true, hget] at hp
    cases hdig : last.isImplicitSha256Digest with
    | false =>
      rw [hdig] at hp
      simp at hp
    | true =>
      rw [hdig] at hp
      simp only [if_true] at hp
      cases hfn : (d.getFullName p).1 with
      | error e =>
        rw [hfn] at hp
        cases hp
      | ok fullName =>
        rw [hfn] at hp
        dsimp only at hp
        split at hp
        · cases hp
        · rename_i hne
          refine ⟨rfl, ?_⟩
          simp only [ne_eq, Decidable.not_not] at hne
          rw [hne]
  refine ⟨hlast, hmain, ?_⟩
  intro w hw hc htrue
  obtain ⟨_, _, _, hfn⟩ := hmain htrue
  rw [getFullName_of_wire p d w hw hc] at hfn
  exact (Except.ok.inj hfn).symm

/-- An Interest named by the full name of a wire-encoded Data matches it. -/
theorem matchesData_full_name_length_witness :
    (sampleInterest [Component.mk true (List.replicate 32 0)] Selectors.default).m_name.length
        = (sampleData [] [] (some ⟨6, []⟩)).m_name.length + 1
    ∧ (sampleInterest [Component.mk true (List.replicate 32 0)] Selectors.default).matchesData
        samplePrimitives sampleTlv (sampleData [] [] (some ⟨6, []⟩)) = .ok true
    ∧ ((sampleData [] [] (some ⟨6, []⟩)).getFullName samplePrimitives).1
        = .ok (sampleInterest [Component.mk true (List.replicate 32 0)] Selectors.default).m_name :=
  ⟨by decide, by rfl,
   ((matchesData_full_name_length samplePrimitives sampleTlv
      (sampleInterest [Component.mk true (List.replicate 32 0)] Selectors.default)
      (sampleData [] [] (some ⟨6, []⟩)) (by decide)).2.1 (by rfl)).elim
      (fun _ h => h.2.2)⟩

/-- The exclude check of `matchesData` never yields true by itself. -/
theorem matchesDataExclude_shape (p : Primitives) (x : Interest) (d : Data)
    (r : Except Exn Bool) (hp : x.matchesDataExclude p d = some r) : r ≠ .ok true := by
  unfold Interest.matchesDataExclude at hp
  dsimp only at hp
  by_cases h0 : (!x.getExclude.empty && decide (d.m_name.size + 1 > x.m_name.size)) = true
  · rw [if_pos h0] at hp
    by_cases h1 : x.m_name.size = d.m_name.size + 1 - 1
    · rw [if_pos h1] at hp
      cases hfn : (d.getFullName p).1 with
      | error e =>
        rw [hfn] at hp
        cases hp
        simp
      | ok fullName =>
        rw [hfn] at hp
        dsimp only at hp
        cases hg : Name.get fullName (x.m_name.size : Int) with
        | none =>
          rw [hg] at hp
          cases hp
          simp
        | some c =>
          rw [hg] at hp
          dsimp only at hp
          cases hx : p.isExcluded x.getExclude c with
          | false =>
            rw [hx] at hp
            cases hp
          | true =>
            rw [hx] at hp
            cases hp
            simp
    · rw [if_neg h1] at hp
      cases hg : Name.get d.m_name (x.m_name.size : Int) with
      | none =>
        rw [hg] at hp
        cases hp
        simp
      | some c =>
        rw [hg] at hp
        dsimp only at hp
        cases hx : p.isExcluded x.getExclude c with
        | false =>
          rw [hx] at hp
          cases hp
        | true =>
          rw [hx] at hp
          cases hp
          simp
  · rw [if_neg h0] at hp
    cases hp

/-- When `matchesData` returns true, the exclude check passed and the key-locator check
answered true. -/
theorem matchesData_true_parts (p : Primitives) (t : TlvTypes) (x : Interest) (d : Data)
    (h : x.matchesData p t d = .ok true) :
    x.matchesDataPrefix p d = none ∧ x.matchesDataExclude p d = none
      ∧ x.matchesKeyLocator t d = true := by
  have hp := matchesDataPrefix_of_true p t x d h
  unfold Interest.matchesData at h
  dsimp only at h
  rw [hp] at h
  by_cases h1 : (!decide (x.m_name.size +
      (if decide (x.getMinSuffixComponents ≥ 0) = true then
        x.getMinSuffixComponents.toNat else 0) ≤ d.m_name.size + 1)) = true
  · rw [if_pos h1] at h
    cases h
  · rw [if_neg h1] at h
    by_cases h2 : (decide (x.getMaxSuffixComponents ≥ 0) &&
        !decide (x.m_name.size + x.getMaxSuffixComponents.toNat ≥ d.m_name.size + 1)) = true
    · rw [if_pos h2] at h
      cases h
    · rw [if_neg h2] at h
      dsimp only at h
      cases he : x.matchesDataExclude p d with
      | some r =>
        rw [he] at h
        exact absurd h (matchesDataExclude_shape p x d r he)
      | none =>
        rw [he] at h
        exact ⟨hp, rfl, Except.ok.inj h⟩

/-- On a wire-encoded Data the prefix check raises nothing. -/
theorem matchesDataPrefix_total (p : Primitives) (x : Interest) (d : Data) (w : Block)
    (hw : d.m_wire = some w) (hc : d.CacheOk p) :
    x.matchesDataPrefix p d = none ∨ x.matchesDataPrefix p d = some (.ok false) := by
  unfold Interest.matchesDataPrefix
  dsimp only
  by_cases h1 : x.m_name.size = d.m_name.size + 1
  · rw [if_pos h1]
    have hpos : 1 ≤ x.m_name.length := by
      simp only [Name.size] at h1
      omega
    have hlt : x.m_name.length - 1 < x.m_name.length := by omega
    rw [Name.get_neg_one _ hpos, List.getElem?_eq_getElem hlt, getFullName_of_wire p d w hw hc]
    dsimp only
    cases (x.m_name[x.m_name.length - 1]).isImplicitSha256Digest with
    | false => exact Or.inr rfl
    | true =>
      rw [if_pos rfl]
      by_cases hne : x.m_name ≠ d.m_name ++ [Component.mk true (p.sha256 w.wire)]
      · rw [if_pos hne]
        exact Or.inr rfl
      · rw [if_neg hne]
        exact Or.inl rfl
  · rw [if_neg h1]
    cases Name.isPrefixOf x.m_name d.m_name with
    | false => exact Or.inr rfl
    | true => exact Or.inl rfl

/-- On a wire-encoded Data the exclude check raises nothing. -/
theorem matchesDataExclude_total (p : Primitives) (x : Interest) (d : Data) (w : Block)
    (hw : d.m_wire = some w) (hc : d.CacheOk p) :
    x.matchesDataExclude p d = none ∨ x.matchesDataExclude p d = some (.ok false) := by
  unfold Interest.matchesDataExclude
  dsimp only
  by_cases h0 : (!x.getExclude.empty && decide (d.m_name.size + 1 > x.m_name.size)) = true
  · rw [if_pos h0]
    have hlt : x.m_name.length < d.m_name.length + 1 := by
      simp only [Bool.and_eq_true, decide_eq_true_eq, Name.size] at h0
      exact h0.2
    by_cases h1 : x.m_name.size = d.m_name.size + 1 - 1
    · rw [if_pos h1, getFullName_of_wire p d w hw hc]
      dsimp only
      have hidx : x.m_name.length
          < (d.m_name ++ [Component.mk true (p.sha256 w.wire)]).length := by
        rw [List.length_append, List.length_singleton]
        exact hlt
      simp only [Name.size]
      rw [Name.get_ofNat, List.getElem?_eq_getElem hidx]
      dsimp only
      cases p.isExcluded x.getExclude
        ((d.m_name ++ [Component.mk true (p.sha256 w.wire)])[x.m_name.length]) with
      | false => exact Or.inl rfl
      | true => exact Or.inr rfl
    · rw [if_neg h1]
      have hidx : x.m_name.length < d.m_name.length := by
        simp only [Name.size, Nat.add_sub_cancel] at h1
        omega
      simp only [Name.size]
      rw [Name.get_ofNat, List.getElem?_eq_getElem hidx]
      dsimp only
      cases p.isExcluded x.getExclude (d.m_name[x.m_name.length]) with
      | false => exact Or.inl rfl
      | true => exact Or.inr rfl
  · rw [if_neg h0]
    exact Or.inl rfl

/-- On a wire-encoded Data `matchesData` returns a boolean. -/
theorem matchesData_total (p : Primitives) (t : TlvTypes) (x : Interest) (d : Data)
    (w : Block) (hw : d.m_wire = some w) (hc : d.CacheOk p) :
    ∃ b, x.matchesData p t d = .ok b := by
  unfold Interest.matchesData
  dsimp only
  by_cases h1 : (!decide (x.m_name.size +
      (if decide (x.getMinSuffixComponents ≥ 0) = true then
        x.getMinSuffixComponents.toNat else 0) ≤ d.m_name.size + 1)) = true
  · rw [if_pos h1]
    exact ⟨false, rfl⟩
  · rw [if_neg h1]
    by_cases h2 : (decide (x.getMaxSuffixComponents ≥ 0) &&
        !decide (x.m_name.size + x.getMaxSuffixComponents.toNat ≥ d.m_name.size + 1)) = true
    · rw [if_pos h2]
      exact ⟨false, rfl⟩
    · rw [if_neg h2]
      rcases matchesDataPrefix_total p x d w hw hc with hp | hp
      · rw [hp]
        dsimp only
        rcases matchesDataExclude_total p x d w hw hc with he | he
        · rw [he]
          exact ⟨_, rfl⟩
        · rw [he]
          exact ⟨false, rfl⟩
      · rw [hp]
        exact ⟨false, rfl⟩

/-- The prefix and exclude checks do not read the signature of the Data. -/
theorem matchesData_signature_irrelevant (p : Primitives) (t : TlvTypes) (x : Interest)
    (d : Data) (sig : Signature) (hkl : x.getPublisherPublicKeyLocator = none) :
    x.matchesData p t { d with m_signature := sig } = x.matchesData p t d := by
  have hfn : (Data.getFullName p { d with m_signature := sig }).1 = (d.getFullName p).1 := by
    unfold Data.getFullName
    dsimp only
    cases d.m_fullName.isEmpty <;> cases d.m_wire <;> rfl
  have hp : x.matchesDataPrefix p { d with m_signature := sig } = x.matchesDataPrefix p d := by
    unfold Interest.matchesDataPrefix
    dsimp only
    rw [hfn]
  have he : x.matchesDataExclude p { d with m_signature := sig }
      = x.matchesDataExclude p d := by
    unfold Interest.matchesDataExclude
    dsimp only
    rw [hfn]
  unfold Interest.matchesData
  rw [hp, he, matchesKeyLocator_of_none t x _ hkl, matchesKeyLocator_of_none t x _ hkl]

/-- C5 as stated fails: an Interest with a key locator, named by a digest component, asked
about a Data that has no KeyLocator and no wire encoding, gets an exception from
`getFullName`, not the answer false. -/
theorem matchesData_keyLocator_counterexample :
    (sampleInterest [Component.mk true (List.replicate 32 0)]
        { Selectors.default with
          publisherPublicKeyLocator := some ⟨28, [1]⟩ }).getPublisherPublicKeyLocator ≠ none
    ∧ (sampleData [] [] none).findKeyLocator sampleTlv = none
    ∧ (sampleInterest [Component.mk true (List.replicate 32 0)]
        { Selectors.default with publisherPublicKeyLocator := some ⟨28, [1]⟩ }).matchesData
        samplePrimitives sampleTlv (sampleData [] [] none) = .error Exn.dataError
    ∧ (sampleInterest [Component.mk true (List.replicate 32 0)]
        { Selectors.default with publisherPublicKeyLocator := some ⟨28, [1]⟩ }).matchesData
        samplePrimitives sampleTlv (sampleData [] [] none) ≠ .ok false := by
  refine ⟨by decide, by rfl, by rfl, ?_⟩
  intro h
  have h2 : (sampleInterest [Component.mk true (List.replicate 32 0)]
        { Selectors.default with publisherPublicKeyLocator := some ⟨28, [1]⟩ }).matchesData
        samplePrimitives sampleTlv (sampleData [] [] none) = .error Exn.dataError := by rfl
  rw [h2] at h
  cases h

/-- C5 (amended): for an Interest that carries a publisher key locator `kl`: if the
SignatureInfo of the Data has no KeyLocator sub-element, `matchesData` never returns true,
and it returns false on every wire-encoded Data; if the SignatureInfo has a KeyLocator
sub-element, `matchesData` returns true only if `kl` is equal to it (type and value
bytes). For an Interest with an empty key locator, replacing the signature of the Data
does not change the result. -/
theorem matchesData_keyLocator (p : Primitives) (t : TlvTypes) (x : Interest) (d : Data) :
    (∀ kl, x.getPublisherPublicKeyLocator = some kl →
      (d.findKeyLocator t = none → x.matchesData p t d ≠ .ok true)
      ∧ (d.findKeyLocator t = none → ∀ w, d.m_wire = some w → d.CacheOk p →
          x.matchesData p t d = .ok false)
      ∧ (∀ it, d.findKeyLocator t = some it → x.matchesData p t d = .ok true → kl = it))
    ∧ (x.getPublisherPublicKeyLocator = none →
        ∀ sig, x.matchesData p t { d with m_signature := sig } = x.matchesData p t d) := by
  refine ⟨?_, fun hkl sig => matchesData_signature_irrelevant p t x d sig hkl⟩
  intro kl hkl
  have hnone : d.findKeyLocator t = none → x.matchesData p t d ≠ .ok true := by
    intro hno htrue
    have hk := (matchesData_true_parts p t x d htrue).2.2
    unfold Interest.matchesKeyLocator at hk
    rw [hkl, hno] at hk
    cases hk
  refine ⟨hnone, ?_, ?_⟩
  · intro hno w hw hc
    obtain ⟨b, hb⟩ := matchesData_total p t x d w hw hc
    cases b with
    | false => exact hb
    | true => exact absurd hb (hnone hno)
  · intro it hit htrue
    have hk := (matchesData_true_parts p t x d htrue).2.2
    unfold Interest.matchesKeyLocator at hk
    rw [hkl, hit] at hk
    dsimp only at hk
    by_cases hne : kl ≠ it
    · rw [if_pos hne] at hk
      cases hk
    · exact not_not.mp hne

/-- An Interest with a key locator does not match a wire-encoded Data whose SignatureInfo
has no KeyLocator. -/
theorem matchesData_keyLocator_witness :
    (sampleInterest [comp [97]]
        { Selectors.default with publisherPublicKeyLocator := some ⟨28, [1]⟩ }).matchesData
      samplePrimitives sampleTlv (sampleData [comp [97]] [] (some ⟨6, []⟩)) = .ok false :=
  ((matchesData_keyLocator samplePrimitives sampleTlv
      (sampleInterest [comp [97]]
        { Selectors.default with publisherPublicKeyLocator := some ⟨28, [1]⟩ })
      (sampleData [comp [97]] [] (some ⟨6, []⟩))).1 ⟨28, [1]⟩ rfl).2.1
    (by rfl) ⟨6, []⟩ rfl (Or.inl rfl)

end ndn

/-! # Theorems: TLV layer -/

namespace ndn

theorem bigEndian_length (k n : Nat) : (bigEndian k n).length = k := by
  induction k with
  | zero => rfl
  | succ k ih => simp [bigEndian, ih]

theorem foldl_bigEndian (k n acc : Nat) :
    (bigEndian k n).foldl (fun acc b => acc * 256 + b) acc = acc * 256 ^ k + n % 256 ^ k := by
  induction k generalizing acc with
  | zero => simp [bigEndian, Nat.mod_one]
  | succ k ih =>
    simp only [bigEndian, List.foldl_cons]
    rw [ih, Nat.mod_pow_succ, pow_succ]
    ring

theorem fromBigEndian_bigEndian (k n : Nat) : fromBigEndian (bigEndian k n) = n % 256 ^ k := by
  unfold fromBigEndian
  rw [foldl_bigEndian]
  simp

theorem encodeVarNumber_ne_nil (n : Nat) : encodeVarNumber n ≠ [] := by
  unfold encodeVarNumber
  dsimp only
  split
  · simp
  · split
    · simp
    · split <;> simp

theorem readVarNumber_marker (b k m : Nat) (rest : List Nat) (hb : ¬ b < 253)
    (hk : (if b = 253 then 2 else if b = 254 then 4 else 8) = k) (hm : m < 256 ^ k) :
    readVarNumber (b :: bigEndian k m ++ rest) = .ok (m, rest) := by
  simp only [List.cons_append, readVarNumber]
  rw [if_neg hb, hk]
  have hlen : ¬ ((bigEndian k m ++ rest).length < k) := by
    rw [List.length_append, bigEndian_length]
    omega
  rw [if_neg hlen, List.take_left' (bigEndian_length k m),
    List.drop_left' (bigEndian_length k m), fromBigEndian_bigEndian, Nat.mod_eq_of_lt hm]

theorem readVarNumber_encodeVarNumber (n : Nat) (rest : List Nat) :
    readVarNumber (encodeVarNumber n ++ rest) = .ok (n % 2 ^ 64, rest) := by
  have hlt : n % 2 ^ 64 < 2 ^ 64 := Nat.mod_lt _ (by norm_num)
  unfold encodeVarNumber
  dsimp only
  generalize n % 2 ^ 64 = m at hlt ⊢
  by_cases h1 : m < 253
  · rw [if_pos h1]
    simp only [List.cons_append, List.nil_append, readVarNumber]
    rw [if_pos h1]
  · rw [if_neg h1]
    by_cases h2 : m ≤ 65535
    · rw [if_pos h2]
      exact readVarNumber_marker 253 2 m rest (by omega) (by simp) (by norm_num; omega)
    · rw [if_neg h2]
      by_cases h3 : m ≤ 4294967295
      · rw [if_pos h3]
        exact readVarNumber_marker 254 4 m rest (by omega) (by simp) (by norm_num; omega)
      · rw [if_neg h3]
        exact readVarNumber_marker 255 8 m rest (by omega) (by simp) (by norm_num; omega)

/-- An element the parser accepts: the type fits 32 bits, the length fits 64 bits. -/
theorem readBlock_wire (b : Block) (rest : List Nat) (ht : b.type ≤ 4294967295)
    (hl : b.value.length < 2 ^ 64) : readBlock (b.wire ++ rest) = .ok (b, rest) := by
  unfold readBlock Block.wire
  rw [List.append_assoc, List.append_assoc, readVarNumber_encodeVarNumber]
  have h1 : b.type % 2 ^ 64 = b.type := Nat.mod_eq_of_lt (by omega)
  have h2 : b.value.length % 2 ^ 64 = b.value.length := Nat.mod_eq_of_lt hl
  dsimp only
  rw [h1, if_neg (by omega), readVarNumber_encodeVarNumber, h2]
  dsimp only
  rw [if_neg (by rw [List.length_append]; omega), List.take_left' rfl, List.drop_left' rfl]

theorem fromBuffer_wire (b : Block) (ht : b.type ≤ 4294967295)
    (hl : b.value.length < 2 ^ 64) : Block.fromBuffer b.wire = .ok b := by
  unfold Block.fromBuffer
  have := readBlock_wire b [] ht hl
  rw [List.append_nil] at this
  rw [this]
  simp

theorem wire_length_pos (b : Block) : 0 < b.wire.length := by
  unfold Block.wire
  have := encodeVarNumber_ne_nil b.type
  cases h : encodeVarNumber b.type with
  | nil => exact absurd h this
  | cons a l => simp

theorem wireOfBlocks_append (l1 l2 : List Block) :
    wireOfBlocks (l1 ++ l2) = wireOfBlocks l1 ++ wireOfBlocks l2 := by
  induction l1 with
  | nil => rfl
  | cons b l ih => simp [wireOfBlocks, ih]

theorem parseElementsAux_wireOfBlocks (bl : List Block) (after : List Nat)
    (hok : ∀ b ∈ bl, b.Ok) (fuel : Nat) (hf : (wireOfBlocks bl).length ≤ fuel) :
    parseElementsAux fuel (wireOfBlocks bl) after = .ok (elementsOf bl after) := by
  induction bl generalizing fuel with
  | nil =>
    simp only [wireOfBlocks, elementsOf]
    cases fuel <;> rfl
  | cons b l ih =>
    have hb := hok b (List.mem_cons_self _ _)
    have hpos := wire_length_pos b
    simp only [wireOfBlocks, List.length_append] at hf ⊢
    have hread := readBlock_wire b (wireOfBlocks l) hb.1 hb.2
    cases hbytes : b.wire ++ wireOfBlocks l with
    | nil =>
      have : (b.wire ++ wireOfBlocks l).length = 0 := by rw [hbytes]; rfl
      rw [List.length_append] at this
      omega
    | cons c cs =>
      cases fuel with
      | zero => omega
      | succ fuel =>
        rw [hbytes] at hread
        simp only [parseElementsAux, hread]
        rw [ih (fun b hb => hok b (List.mem_cons_of_mem _ hb)) fuel (by omega)]
        rfl

/-- Parsing the concatenation of well-formed elements gives the elements back. -/
theorem parseElements_wireOfBlocks (bl : List Block) (after : List Nat)
    (hok : ∀ b ∈ bl, b.Ok) :
    parseElements (wireOfBlocks bl) after = .ok (elementsOf bl after) :=
  parseElementsAux_wireOfBlocks bl after hok _ (Nat.le_refl _)

theorem findBlock_elementsOf (bl : List Block) (after : List Nat) (ty : Nat) :
    findBlock (elementsOf bl after) ty = bl.find? (fun b => decide (b.type = ty)) := by
  unfold findBlock
  induction bl with
  | nil => rfl
  | cons b l ih =>
    unfold findElement at ih ⊢
    simp only [elementsOf, List.find?_cons]
    by_cases h : b.type = ty
    · simp [h]
    · simp only [h, decide_False]
      exact ih

theorem u32OfBytes_u32Bytes (v : Nat) (h : v < 4294967296) : u32OfBytes (u32Bytes v) = v := by
  unfold u32OfBytes u32Bytes
  simp only [List.getD_cons_zero, List.getD_cons_succ, Nat.mod_mod]
  omega

theorem u32Bytes_length (v : Nat) : (u32Bytes v).length = 4 := rfl

theorem encodeVarNumber_four : encodeVarNumber 4 = [4] := by decide

/-! # Theorems: Interest codec -/

theorem u32_block_wire (ty v : Nat) :
    Block.wire ⟨ty, u32Bytes v⟩ = encodeVarNumber ty ++ ([4] ++ u32Bytes v) := by
  unfold Block.wire
  simp only [u32Bytes_length, encodeVarNumber_four, List.append_assoc]

/-- The buffer `Interest::wireEncode(encoder)` fills is the wire of one Interest element
whose value is the concatenation of the elements in wire order, and the returned
`totalLength` is the number of bytes written. -/
theorem Interest.wireEncodeImpl_bytes (cd : Codecs) (t : TlvTypes) (x : Interest) (g : Rng) :
    (x.wireEncodeImpl cd t g []).1.1
      = Block.wire ⟨t.Interest, wireOfBlocks (x.wireElements cd t (x.getNonce g).1)⟩
    ∧ (x.wireEncodeImpl cd t g []).1.2 = (x.wireEncodeImpl cd t g []).1.1.length
    ∧ (x.wireEncodeImpl cd t g []).2.1 = (x.getNonce g).2.1
    ∧ (x.wireEncodeImpl cd t g []).2.2 = (x.getNonce g).2.2 := by
  refine ⟨?_, ?_, rfl, rfl⟩
  · unfold Interest.wireEncodeImpl Interest.wireElements
    simp only [Encoder.prependBlock, Encoder.prependByteArray, Encoder.prependVarNumber,
      wireOfBlocks_append, wireOfBlocks, u32_block_wire]
    by_cases h1 : x.m_forwardingHint.length > 0 <;>
    by_cases h2 : x.m_interestLifetime = DEFAULT_INTEREST_LIFETIME <;>
    by_cases h3 : x.hasSelectors = true <;>
    simp only [h1, h2, h3, if_true, if_false, wireOfBlocks, Block.wire, List.append_nil,
      ne_eq, not_true_eq_false, not_false_eq_true,
      List.append_assoc, List.length_append, List.length_cons, List.length_nil,
      u32Bytes_length, encodeVarNumber_four, List.nil_append, List.cons_append,
      List.singleton_append, Bool.false_eq_true] <;>
    congr 3 <;> omega
  · unfold Interest.wireEncodeImpl
    simp only [Encoder.prependBlock, Encoder.prependByteArray, Encoder.prependVarNumber]
    by_cases h1 : x.m_forwardingHint.length > 0 <;>
    by_cases h2 : x.m_interestLifetime = DEFAULT_INTEREST_LIFETIME <;>
    by_cases h3 : x.hasSelectors = true <;>
    simp only [h1, h2, h3, if_true, if_false, List.append_nil,
      ne_eq, not_true_eq_false, not_false_eq_true,
      List.length_append, List.length_cons, List.length_nil,
      u32Bytes_length, encodeVarNumber_four, Bool.false_eq_true] <;>
    omega

theorem find_block_of_unique (bl : List Block) (b : Block) (hb : b ∈ bl)
    (huniq : ∀ c ∈ bl, c.type = b.type → c = b) :
    bl.find? (fun c => decide (c.type = b.type)) = some b := by
  induction bl with
  | nil => cases hb
  | cons a l ih =>
    rw [List.find?_cons]
    by_cases ha : a.type = b.type
    · simp only [ha, decide_True]
      rw [huniq a (List.mem_cons_self _ _) ha]
    · simp only [ha, decide_False]
      rcases List.mem_cons.mp hb with rfl | hb
      · exact absurd rfl ha
      · exact ih hb (fun c hc => huniq c (List.mem_cons_of_mem _ hc))

theorem find_block_of_absent (bl : List Block) (ty : Nat) (h : ∀ c ∈ bl, c.type ≠ ty) :
    bl.find? (fun c => decide (c.type = ty)) = none := by
  apply List.find?_eq_none.mpr
  intro c hc
  simpa using h c hc

theorem Interest.mem_wireElements (cd : Codecs) (t : TlvTypes) (x : Interest) (nonce : Nat)
    (c : Block) :
    c ∈ x.wireElements cd t nonce ↔
      (c = ⟨t.Name, cd.nameValue x.m_name⟩
      ∨ (x.hasSelectors = true ∧ c = ⟨t.Selectors, cd.selectorsValue x.m_selectors⟩)
      ∨ c = ⟨t.ForwardingMode, u32Bytes x.m_forwardingMode⟩
      ∨ c = ⟨t.ForwarderId, u32Bytes x.m_forwarderId⟩
      ∨ c = ⟨t.Nonce, u32Bytes nonce⟩
      ∨ (x.m_interestLifetime ≠ DEFAULT_INTEREST_LIFETIME ∧
          c = ⟨t.InterestLifetime,
                cd.nonNegativeIntegerValue (toUint64 x.m_interestLifetime)⟩)
      ∨ (x.m_forwardingHint.length > 0 ∧
          c = ⟨t.ForwardingHint, cd.forwardingHintValue x.m_forwardingHint⟩)) := by
  unfold Interest.wireElements
  by_cases h1 : x.m_forwardingHint.length > 0 <;>
  by_cases h2 : x.m_interestLifetime = DEFAULT_INTEREST_LIFETIME <;>
  by_cases h3 : x.hasSelectors = true <;>
  simp [h1, h2, h3]

theorem Interest.find_wireElements (cd : Codecs) (t : TlvTypes) (x : Interest) (nonce : Nat)
    (hnd : [t.Name, t.Selectors, t.ForwardingMode, t.ForwarderId, t.Nonce,
      t.InterestLifetime, t.ForwardingHint].Nodup) (after : List Nat) :
    findBlock (elementsOf (x.wireElements cd t nonce) after) t.Name
        = some ⟨t.Name, cd.nameValue x.m_name⟩
    ∧ findBlock (elementsOf (x.wireElements cd t nonce) after) t.Selectors
        = (if x.hasSelectors = true then
            some ⟨t.Selectors, cd.selectorsValue x.m_selectors⟩ else none)
    ∧ findBlock (elementsOf (x.wireElements cd t nonce) after) t.Nonce
        = some ⟨t.Nonce, u32Bytes nonce⟩
    ∧ findBlock (elementsOf (x.wireElements cd t nonce) after) t.ForwarderId
        = some ⟨t.ForwarderId, u32Bytes x.m_forwarderId⟩
    ∧ findBlock (elementsOf (x.wireElements cd t nonce) after) t.ForwardingMode
        = some ⟨t.ForwardingMode, u32Bytes x.m_forwardingMode⟩
    ∧ findBlock (elementsOf (x.wireElements cd t nonce) after) t.InterestLifetime
        = (if x.m_interestLifetime ≠ DEFAULT_INTEREST_LIFETIME then
            some ⟨t.InterestLifetime,
              cd.nonNegativeIntegerValue (toUint64 x.m_interestLifetime)⟩ else none)
    ∧ findBlock (elementsOf (x.wireElements cd t nonce) after) t.ForwardingHint
        = (if x.m_forwardingHint.length > 0 then
            some ⟨t.ForwardingHint, cd.forwardingHintValue x.m_forwardingHint⟩ else none) := by
  simp only [List.nodup_cons, List.mem_cons, List.mem_singleton, List.not_mem_nil, not_or,
    or_false, not_false_eq_true, List.nodup_nil, and_true] at hnd
  obtain ⟨⟨_, _, _, _, _, _⟩, ⟨_, _, _, _, _⟩, ⟨_, _, _, _⟩, ⟨_, _, _⟩, ⟨_, _⟩, _⟩ := hnd
  simp only [findBlock_elementsOf]
  have hmem := Interest.mem_wireElements cd t x nonce
  refine ⟨?_, ?_, ?_, ?_, ?_, ?_, ?_⟩
  · apply find_block_of_unique _ ⟨t.Name, cd.nameValue x.m_name⟩
    · exact (hmem _).mpr (Or.inl rfl)
    · intro c hc hty
      rcases (hmem c).mp hc with h | ⟨_, h⟩ | h | h | h | ⟨_, h⟩ | ⟨_, h⟩ <;>
        first | exact h | (rw [h] at hty; first | exact absurd hty ‹_› | exact absurd hty.symm ‹_›)
  · by_cases hs : x.hasSelectors = true
    · rw [if_pos hs]
      apply find_block_of_unique _ ⟨t.Selectors, cd.selectorsValue x.m_selectors⟩
      · exact (hmem _).mpr (Or.inr (Or.inl ⟨hs, rfl⟩))
      · intro c hc hty
        rcases (hmem c).mp hc with h | ⟨_, h⟩ | h | h | h | ⟨_, h⟩ | ⟨_, h⟩ <;>
          first | exact h | (rw [h] at hty; first | exact absurd hty ‹_› | exact absurd hty.symm ‹_›)
    · rw [if_neg hs]
      apply find_block_of_absent
      intro c hc hty
      rcases (hmem c).mp hc with h | ⟨h', h⟩ | h | h | h | ⟨_, h⟩ | ⟨_, h⟩ <;>
        first | exact hs h' | (rw [h] at hty; first | exact absurd hty ‹_› | exact absurd hty.symm ‹_›)
  · apply find_block_of_unique _ ⟨t.Nonce, u32Bytes nonce⟩
    · exact (hmem _).mpr (Or.inr (Or.inr (Or.inr (Or.inr (Or.inl rfl)))))
    · intro c hc hty
      rcases (hmem c).mp hc with h | ⟨_, h⟩ | h | h | h | ⟨_, h⟩ | ⟨_, h⟩ <;>
        first | exact h | (rw [h] at hty; first | exact absurd hty ‹_› | exact absurd hty.symm ‹_›)
  · apply find_block_of_unique _ ⟨t.ForwarderId, u32Bytes x.m_forwarderId⟩
    · exact (hmem _).mpr (Or.inr (Or.inr (Or.inr (Or.inl rfl))))
    · intro c hc hty
      rcases (hmem c).mp hc with h | ⟨_, h⟩ | h | h | h | ⟨_, h⟩ | ⟨_, h⟩ <;>
        first | exact h | (rw [h] at hty; first | exact absurd hty ‹_› | exact absurd hty.symm ‹_›)
  · apply find_block_of_unique _ ⟨t.ForwardingMode, u32Bytes x.m_forwardingMode⟩
    · exact (hmem _).mpr (Or.inr (Or.inr (Or.inl rfl)))
    · intro c hc hty
      rcases (hmem c).mp hc with h | ⟨_, h⟩ | h | h | h | ⟨_, h⟩ | ⟨_, h⟩ <;>
        first | exact h | (rw [h] at hty; first | exact absurd hty ‹_› | exact absurd hty.symm ‹_›)
  · by_cases hs : x.m_interestLifetime ≠ DEFAULT_INTEREST_LIFETIME
    · rw [if_pos hs]
      apply find_block_of_unique _ ⟨t.InterestLifetime,
        cd.nonNegativeIntegerValue (toUint64 x.m_interestLifetime)⟩
      · exact (hmem _).mpr (Or.inr (Or.inr (Or.inr (Or.inr (Or.inr (Or.inl ⟨hs, rfl⟩))))))
      · intro c hc hty
        rcases (hmem c).mp hc with h | ⟨_, h⟩ | h | h | h | ⟨_, h⟩ | ⟨_, h⟩ <;>
          first | exact h | (rw [h] at hty; first | exact absurd hty ‹_› | exact absurd hty.symm ‹_›)
    · rw [if_neg hs]
      apply find_block_of_absent
      intro c hc hty
      rcases (hmem c).mp hc with h | ⟨_, h⟩ | h | h | h | ⟨h', h⟩ | ⟨_, h⟩ <;>
        first | exact hs h' | (rw [h] at hty; first | exact absurd hty ‹_› | exact absurd hty.symm ‹_›)
  · by_cases hs : x.m_forwardingHint.length > 0
    · rw [if_pos hs]
      apply find_block_of_unique _ ⟨t.ForwardingHint,
        cd.forwardingHintValue x.m_forwardingHint⟩
      · exact (hmem _).mpr (Or.inr (Or.inr (Or.inr (Or.inr (Or.inr (Or.inr ⟨hs, rfl⟩))))))
      · intro c hc hty
        rcases (hmem c).mp hc with h | ⟨_, h⟩ | h | h | h | ⟨_, h⟩ | ⟨_, h⟩ <;>
          first | exact h | (rw [h] at hty; exact absurd hty ‹_›)
    · rw [if_neg hs]
      apply find_block_of_absent
      intro c hc hty
      rcases (hmem c).mp hc with h | ⟨_, h⟩ | h | h | h | ⟨_, h⟩ | ⟨h', h⟩ <;>
        first | exact hs h' | (rw [h] at hty; exact absurd hty ‹_›)

theorem value_length_le_wireOfBlocks (bl : List Block) (b : Block) (hb : b ∈ bl) :
    b.value.length ≤ (wireOfBlocks bl).length := by
  induction bl with
  | nil => cases hb
  | cons a l ih =>
    simp only [wireOfBlocks, List.length_append]
    rcases List.mem_cons.mp hb with rfl | hb
    · unfold Block.wire
      simp only [List.length_append]
      omega
    · have := ih hb
      omega

theorem toInt64_toUint64 (i : Int) (h0 : 0 ≤ i) (h1 : i < 2 ^ 63) :
    toInt64 (toUint64 i) = i := by
  unfold toInt64 toUint64
  have hmod : i % 2 ^ 64 = i := Int.emod_eq_of_lt h0 (by omega)
  rw [hmod]
  have hnat : (i.toNat) % 2 ^ 64 = i.toNat := Nat.mod_eq_of_lt (by omega)
  rw [hnat]
  have hlt : i.toNat < 2 ^ 63 := by omega
  rw [if_pos hlt]
  omega

/-- Decoding the element sequence of `x` into any Interest `y` succeeds and installs the
fields of `x`. -/
theorem Interest.wireDecode_wireElements (cd : Codecs) (t : TlvTypes) (x y : Interest)
    (nonce : Nat) (ht : t.InterestOk) (hf : x.FieldsOk) (hn : nonce < 4294967296)
    (hc : x.CodecsOk cd t)
    (hsz : (wireOfBlocks (x.wireElements cd t nonce)).length < 2 ^ 64) :
    y.wireDecode cd t ⟨t.Interest, wireOfBlocks (x.wireElements cd t nonce)⟩
      = (.ok (),
          { m_name := x.m_name, m_selectors := x.m_selectors, m_nonce := some nonce,
            m_interestLifetime := x.m_interestLifetime,
            m_forwardingHint := x.m_forwardingHint, m_forwarderId := x.m_forwarderId,
            m_forwardingMode := x.m_forwardingMode,
            m_wire := some ⟨t.Interest, wireOfBlocks (x.wireElements cd t nonce)⟩ }) := by
  have hok : ∀ b ∈ x.wireElements cd t nonce, b.Ok := by
    intro b hb
    refine ⟨?_, lt_of_le_of_lt (value_length_le_wireOfBlocks _ b hb) hsz⟩
    have hty := ht.2
    simp only [List.mem_cons, List.mem_singleton, List.not_mem_nil, or_false,
      forall_eq_or_imp, forall_eq] at hty
    rcases (Interest.mem_wireElements cd t x nonce b).mp hb with
      h | ⟨_, h⟩ | h | h | h | ⟨_, h⟩ | ⟨_, h⟩ <;> rw [h] <;> simp only <;> omega
  obtain ⟨fName, fSel, fNonce, fFid, fFmode, fLife, fHint⟩ :=
    Interest.find_wireElements cd t x nonce ht.1 []
  obtain ⟨hcName, hcSel, hcLife, hcHint⟩ := hc
  obtain ⟨_, hfid, hfmode, hl0, hl1⟩ := hf
  unfold Interest.wireDecode
  simp only [parseElements_wireOfBlocks _ [] hok, getBlock, fName, fSel, fNonce, fFid, fFmode,
    fLife, fHint, hcName, ne_eq, not_true_eq_false, if_false, u32Bytes_length,
    u32OfBytes_u32Bytes _ hn, u32OfBytes_u32Bytes _ hfid, u32OfBytes_u32Bytes _ hfmode]
  have hsel : (match (if x.hasSelectors = true then
        some (Block.mk t.Selectors (cd.selectorsValue x.m_selectors)) else none) with
      | some val => cd.selectorsDecode val
      | none => Except.ok Selectors.default) = .ok x.m_selectors := by
    by_cases hs : x.hasSelectors = true
    · rw [if_pos hs]
      exact hcSel hs
    · rw [if_neg hs]
      unfold Interest.hasSelectors Selectors.empty at hs
      simp only [Bool.not_eq_true', decide_eq_false_iff_not, Decidable.not_not] at hs
      simp only [hs]
  have hlife : (match (if ¬ x.m_interestLifetime = DEFAULT_INTEREST_LIFETIME then
        some (Block.mk t.InterestLifetime
          (cd.nonNegativeIntegerValue (toUint64 x.m_interestLifetime))) else none) with
      | some val =>
        match cd.readNonNegativeInteger val with
        | .error e => Except.error e
        | .ok v => .ok (toInt64 v)
      | none => Except.ok DEFAULT_INTEREST_LIFETIME) = .ok x.m_interestLifetime := by
    by_cases hs : x.m_interestLifetime = DEFAULT_INTEREST_LIFETIME
    · rw [if_neg (not_not.mpr hs), hs]
    · rw [if_pos hs]
      simp only [hcLife hs, toInt64_toUint64 _ hl0 hl1]
  have hhint : (match (if x.m_forwardingHint.length > 0 then
        some (Block.mk t.ForwardingHint (cd.forwardingHintValue x.m_forwardingHint))
        else none) with
      | some val => cd.forwardingHintDecode val
      | none => Except.ok []) = .ok x.m_forwardingHint := by
    by_cases hs : x.m_forwardingHint.length > 0
    · rw [if_pos hs]
      exact hcHint hs
    · rw [if_neg hs]
      have : x.m_forwardingHint = [] := List.length_eq_zero.mp (by omega)
      simp only [this]
  rw [hsel]
  simp only [hlife, hhint]

theorem Interest.getNonce_lt (x : Interest) (g : Rng) (hf : x.FieldsOk) :
    (x.getNonce g).1 < 4294967296 ∧ (x.getNonce g).2.1.m_nonce = some (x.getNonce g).1
      ∧ (∀ n, x.m_nonce = some n → (x.getNonce g).1 = n) := by
  unfold Interest.getNonce
  cases hn : x.m_nonce with
  | some n =>
    refine ⟨hf.1 n hn, hn, ?_⟩
    intro m hm
    exact Option.some.inj hm
  | none =>
    refine ⟨Nat.mod_lt _ (by norm_num), rfl, ?_⟩
    intro m hm
    cases hm

theorem value_length_le_wire (b : Block) : b.value.length ≤ b.wire.length := by
  unfold Block.wire
  simp only [List.length_append]
  omega

/-- C9: for an Interest whose integer fields hold values of their types (lifetime `>= 0`),
with type numbers that are pairwise distinct, with collaborating codecs that decode what
they encode for its name, selectors, lifetime and forwarding hint, and with an encoding
shorter than `2^64` bytes: the buffer `wireEncode` fills is one block; decoding that block
into any Interest succeeds and gives the name, selectors, nonce, forwarderId,
forwardingMode, interestLifetime and forwardingHint of `x`, the nonce being the one `x`
holds after the encoding; and `wireEncode()` returns that block. The cases where
Selectors, InterestLifetime or ForwardingHint are left out of the wire are included. -/
theorem interest_wire_roundtrip (cd : Codecs) (t : TlvTypes) (x : Interest) (g : Rng)
    (ht : t.InterestOk) (hf : x.FieldsOk) (hc : x.CodecsOk cd t)
    (hsz : (x.wireEncodeImpl cd t g []).1.1.length < 2 ^ 64) :
    ∃ blk nonce,
      Block.fromBuffer (x.wireEncodeImpl cd t g []).1.1 = .ok blk
      ∧ (x.wireEncodeImpl cd t g []).2.1.m_nonce = some nonce
      ∧ (∀ n, x.m_nonce = some n → nonce = n)
      ∧ (∀ y : Interest,
          (y.wireDecode cd t blk).1 = .ok ()
          ∧ (y.wireDecode cd t blk).2.m_name = x.m_name
          ∧ (y.wireDecode cd t blk).2.m_selectors = x.m_selectors
          ∧ (y.wireDecode cd t blk).2.m_nonce = some nonce
          ∧ (y.wireDecode cd t blk).2.m_forwarderId = x.m_forwarderId
          ∧ (y.wireDecode cd t blk).2.m_forwardingMode = x.m_forwardingMode
          ∧ (y.wireDecode cd t blk).2.m_interestLifetime = x.m_interestLifetime
          ∧ (y.wireDecode cd t blk).2.m_forwardingHint = x.m_forwardingHint
          ∧ (y.wireDecode cd t blk).2.m_wire = some blk)
      ∧ (x.wireEncode cd t g).1 = .ok blk := by
  obtain ⟨hbytes, _, hx1, _⟩ := Interest.wireEncodeImpl_bytes cd t x g
  obtain ⟨hnlt, hnonce, hsame⟩ := Interest.getNonce_lt x g hf
  have htI : t.Interest ≤ 4294967295 := ht.2 _ (List.mem_cons_self _ _)
  rw [hbytes] at hsz
  have hvlen : (wireOfBlocks (x.wireElements cd t (x.getNonce g).1)).length < 2 ^ 64 :=
    lt_of_le_of_lt (value_length_le_wire ⟨t.Interest, _⟩) hsz
  have hbuf : Block.fromBuffer (x.wireEncodeImpl cd t g []).1.1
      = .ok ⟨t.Interest, wireOfBlocks (x.wireElements cd t (x.getNonce g).1)⟩ := by
    rw [hbytes]
    exact fromBuffer_wire _ htI hvlen
  have hdec := fun y => Interest.wireDecode_wireElements cd t x y (x.getNonce g).1 ht hf hnlt
    hc hvlen
  refine ⟨_, (x.getNonce g).1, hbuf, ?_, hsame, ?_, ?_⟩
  · rw [hx1]
    exact hnonce
  · intro y
    rw [hdec y]
    exact ⟨rfl, rfl, rfl, rfl, rfl, rfl, rfl, rfl, rfl⟩
  · unfold Interest.wireEncode
    simp only [hbuf, hdec]

theorem interest_wire_roundtrip_witness :
    ∃ blk, (fullInterest.wireEncode sampleCodecs sampleTlv sampleRng).1 = .ok blk
      ∧ ((sampleInterest [] Selectors.default).wireDecode sampleCodecs sampleTlv blk).2
        = { fullInterest with m_nonce := some 7, m_wire := some blk } := by
  obtain ⟨blk, nonce, _, hn, _, hdec, henc⟩ :=
    interest_wire_roundtrip sampleCodecs sampleTlv fullInterest sampleRng
      ⟨by decide, by decide⟩
      ⟨fun _ h => Option.noConfusion h, by decide, by decide, by decide, by decide⟩
      ⟨rfl, fun _ => rfl, fun _ => rfl, fun _ => rfl⟩
      (by decide)
  refine ⟨blk, henc, ?_⟩
  have hn7 : nonce = 7 := by
    have : (fullInterest.wireEncodeImpl sampleCodecs sampleTlv sampleRng []).2.1.m_nonce
        = some 7 := by rfl
    rw [this] at hn
    exact (Option.some.inj hn).symm
  subst hn7
  obtain ⟨_, h1, h2, h3, h4, h5, h6, h7, h8⟩ := hdec (sampleInterest [] Selectors.default)
  cases hy : ((sampleInterest [] Selectors.default).wireDecode sampleCodecs sampleTlv blk).2
  rw [hy] at h1 h2 h3 h4 h5 h6 h7 h8
  simp only at h1 h2 h3 h4 h5 h6 h7 h8
  subst h1 h2 h3 h4 h5 h6 h7 h8
  rfl

/-! # Theorems: Data codec -/

theorem foldl_idsListStep (l : List Int) (enc : Encoder) (n : Nat) :
    l.foldl idsListStep (enc, n) = (idsListValue l ++ enc, n + (idsListValue l).length) := by
  induction l generalizing enc n with
  | nil => simp [idsListValue]
  | cons id l ih =>
    simp only [List.foldl_cons, idsListStep, Encoder.prependByteArray, Encoder.prependVarNumber,
      encodeVarNumber_four, u32Bytes_length, List.length_singleton]
    rw [ih]
    simp only [idsListValue, List.append_assoc, List.length_append, List.length_cons,
      u32Bytes_length, List.singleton_append, Prod.mk.injEq]
    exact ⟨by simp, by omega⟩

theorem wire_of_value (ty n : Nat) (V : List Nat) (h : n = V.length) :
    encodeVarNumber ty ++ (encodeVarNumber n ++ V) = Block.wire ⟨ty, V⟩ := by
  subst h
  simp only [Block.wire, List.append_assoc]

theorem Data.wireEncodeIdsList_bytes (t : TlvTypes) (d : Data) (enc : Encoder) :
    d.wireEncodeIdsList t enc
      = (Block.wire ⟨t.IdsList, idsListValue d.m_idsList⟩ ++ enc,
          (Block.wire ⟨t.IdsList, idsListValue d.m_idsList⟩).length) := by
  unfold Data.wireEncodeIdsList
  simp only [foldl_idsListStep, Encoder.prependVarNumber, Block.wire, Nat.zero_add,
    List.append_assoc, List.length_append, Prod.mk.injEq, true_and]
  omega

theorem Data.wireOfBlocks_wireElements (cd : Codecs) (t : TlvTypes) (d : Data) :
    wireOfBlocks (d.wireElements cd t)
      = Block.wire ⟨t.IdsList, idsListValue d.m_idsList⟩ ++
          (encodeVarNumber t.InitialHop ++ (encodeVarNumber 4 ++ (u32Bytes d.m_initialHop ++
          (encodeVarNumber t.ResidualEnergy ++ (encodeVarNumber 4 ++
          (u32Bytes d.m_residualEnergy ++
          (Block.wire ⟨t.Name, cd.nameValue d.m_name⟩ ++
          (Block.wire ⟨t.MetaInfo, cd.metaInfoValue d.m_metaInfo⟩ ++
          (d.getContent.wire ++
          (d.m_signature.info.wire ++ (d.m_signature.value.wire ++ []))))))))))) := by
  unfold Data.wireElements Data.getContent
  simp only [wireOfBlocks, u32_block_wire, encodeVarNumber_four, List.append_assoc,
    List.append_nil]

/-- The buffer `Data::wireEncode(encoder, false)` fills for a signed Data is the wire of
one Data element whose value is the concatenation of the elements in wire order, and the
returned `totalLength` is the number of bytes written. -/
theorem Data.wireEncodeImpl_dataBytes (cd : Codecs) (t : TlvTypes) (d : Data)
    (hs : d.m_signature.isSet = true) :
    d.wireEncodeImpl cd t [] false
      = .ok (Block.wire ⟨t.Data, wireOfBlocks (d.wireElements cd t)⟩,
          (Block.wire ⟨t.Data, wireOfBlocks (d.wireElements cd t)⟩).length) := by
  unfold Data.wireEncodeImpl
  simp only [hs, Bool.not_false, Bool.not_true, Bool.and_false, Bool.false_eq_true, if_false,
    if_true, Data.wireEncodeIdsList_bytes, Encoder.prependBlock, Encoder.prependByteArray,
    Encoder.prependVarNumber]
  have hlen : d.m_signature.value.wire.length + d.m_signature.info.wire.length
      + d.getContent.wire.length
      + (Block.wire ⟨t.MetaInfo, cd.metaInfoValue d.m_metaInfo⟩).length
      + (Block.wire ⟨t.Name, cd.nameValue d.m_name⟩).length
      + (u32Bytes d.m_residualEnergy).length + (encodeVarNumber 4).length
      + (encodeVarNumber t.ResidualEnergy).length + (u32Bytes d.m_initialHop).length
      + (encodeVarNumber 4).length + (encodeVarNumber t.InitialHop).length
      + (Block.wire ⟨t.IdsList, idsListValue d.m_idsList⟩).length
      = (wireOfBlocks (d.wireElements cd t)).length := by
    rw [Data.wireOfBlocks_wireElements cd t d]
    simp only [List.length_append, List.length_nil]
    omega
  rw [hlen, wire_of_value t.Data _ _ ?_]
  · rw [← Data.wireOfBlocks_wireElements cd t d]
    congr 2
    rw [← wire_of_value t.Data _ _ rfl]
    simp only [List.length_append]
    omega
  · rw [Data.wireOfBlocks_wireElements cd t d]

theorem Data.mem_dataElements (cd : Codecs) (t : TlvTypes) (d : Data) (c : Block) :
    c ∈ d.wireElements cd t ↔
      (c = ⟨t.IdsList, idsListValue d.m_idsList⟩
      ∨ c = ⟨t.InitialHop, u32Bytes d.m_initialHop⟩
      ∨ c = ⟨t.ResidualEnergy, u32Bytes d.m_residualEnergy⟩
      ∨ c = ⟨t.Name, cd.nameValue d.m_name⟩
      ∨ c = ⟨t.MetaInfo, cd.metaInfoValue d.m_metaInfo⟩
      ∨ c = d.m_content
      ∨ c = d.m_signature.info
      ∨ c = d.m_signature.value) := by
  unfold Data.wireElements
  simp only [List.mem_cons, List.mem_singleton, List.not_mem_nil, or_false]

theorem Data.find_dataElements (cd : Codecs) (t : TlvTypes) (d : Data)
    (hnd : [t.IdsList, t.InitialHop, t.ResidualEnergy, t.Name, t.MetaInfo, t.Content,
      t.SignatureInfo, t.SignatureValue].Nodup)
    (hct : d.m_content.type = t.Content) (hit : d.m_signature.info.type = t.SignatureInfo)
    (hvt : d.m_signature.value.type = t.SignatureValue) (after : List Nat) :
    findBlock (elementsOf (d.wireElements cd t) after) t.Name = some ⟨t.Name, cd.nameValue d.m_name⟩
    ∧ findBlock (elementsOf (d.wireElements cd t) after) t.MetaInfo = some ⟨t.MetaInfo, cd.metaInfoValue d.m_metaInfo⟩
    ∧ findBlock (elementsOf (d.wireElements cd t) after) t.Content = some (d.m_content)
    ∧ findBlock (elementsOf (d.wireElements cd t) after) t.SignatureInfo = some (d.m_signature.info)
    ∧ findBlock (elementsOf (d.wireElements cd t) after) t.SignatureValue = some (d.m_signature.value)
    ∧ findBlock (elementsOf (d.wireElements cd t) after) t.ResidualEnergy = some ⟨t.ResidualEnergy, u32Bytes d.m_residualEnergy⟩
    ∧ findBlock (elementsOf (d.wireElements cd t) after) t.InitialHop = some ⟨t.InitialHop, u32Bytes d.m_initialHop⟩ := by
  simp only [List.nodup_cons, List.mem_cons, List.mem_singleton, List.not_mem_nil, not_or,
    or_false, not_false_eq_true, List.nodup_nil, and_true] at hnd
  obtain ⟨⟨_, _, _, _, _, _, _⟩, ⟨_, _, _, _, _, _⟩, ⟨_, _, _, _, _⟩, ⟨_, _, _, _⟩, ⟨_, _, _⟩,
    ⟨_, _⟩, _⟩ := hnd
  simp only [findBlock_elementsOf]
  have hmem := Data.mem_dataElements cd t d
  refine ⟨?_, ?_, ?_, ?_, ?_, ?_, ?_⟩
  · apply find_block_of_unique _ ⟨t.Name, cd.nameValue d.m_name⟩
    · exact (hmem _).mpr (Or.inr (Or.inr (Or.inr (Or.inl rfl))))
    · intro c hc hty
      rcases (hmem c).mp hc with h | h | h | h | h | h | h | h <;>
        first
        | exact h
        | (rw [h] at hty
           try simp only [hct, hit, hvt] at hty
           first | exact absurd hty ‹_› | exact absurd hty.symm ‹_›)
  · apply find_block_of_unique _ ⟨t.MetaInfo, cd.metaInfoValue d.m_metaInfo⟩
    · exact (hmem _).mpr (Or.inr (Or.inr (Or.inr (Or.inr (Or.inl rfl)))))
    · intro c hc hty
      rcases (hmem c).mp hc with h | h | h | h | h | h | h | h <;>
        first
        | exact h
        | (rw [h] at hty
           try simp only [hct, hit, hvt] at hty
           first | exact absurd hty ‹_› | exact absurd hty.symm ‹_›)
  · rw [← hct]
    apply find_block_of_unique _ (d.m_content)
    · exact (hmem _).mpr (Or.inr (Or.inr (Or.inr (Or.inr (Or.inr (Or.inl rfl))))))
    · intro c hc hty
      rcases (hmem c).mp hc with h | h | h | h | h | h | h | h <;>
        first
        | exact h
        | (rw [h] at hty
           try simp only [hct, hit, hvt] at hty
           first | exact absurd hty ‹_› | exact absurd hty.symm ‹_›)
  · rw [← hit]
    apply find_block_of_unique _ (d.m_signature.info)
    · exact (hmem _).mpr (Or.inr (Or.inr (Or.inr (Or.inr (Or.inr (Or.inr (Or.inl rfl)))))))
    · intro c hc hty
      rcases (hmem c).mp hc with h | h | h | h | h | h | h | h <;>
        first
        | exact h
        | (rw [h] at hty
           try simp only [hct, hit, hvt] at hty
           first | exact absurd hty ‹_› | exact absurd hty.symm ‹_›)
  · rw [← hvt]
    apply find_block_of_unique _ (d.m_signature.value)
    · exact (hmem _).mpr (Or.inr (Or.inr (Or.inr (Or.inr (Or.inr (Or.inr (Or.inr rfl)))))))
    · intro c hc hty
      rcases (hmem c).mp hc with h | h | h | h | h | h | h | h <;>
        first
        | exact h
        | (rw [h] at hty
           try simp only [hct, hit, hvt] at hty
           exact absurd hty ‹_›)
  · apply find_block_of_unique _ ⟨t.ResidualEnergy, u32Bytes d.m_residualEnergy⟩
    · exact (hmem _).mpr (Or.inr (Or.inr (Or.inl rfl)))
    · intro c hc hty
      rcases (hmem c).mp hc with h | h | h | h | h | h | h | h <;>
        first
        | exact h
        | (rw [h] at hty
           try simp only [hct, hit, hvt] at hty
           first | exact absurd hty ‹_› | exact absurd hty.symm ‹_›)
  · apply find_block_of_unique _ ⟨t.InitialHop, u32Bytes d.m_initialHop⟩
    · exact (hmem _).mpr (Or.inr (Or.inl rfl))
    · intro c hc hty
      rcases (hmem c).mp hc with h | h | h | h | h | h | h | h <;>
        first
        | exact h
        | (rw [h] at hty
           try simp only [hct, hit, hvt] at hty
           first | exact absurd hty ‹_› | exact absurd hty.symm ‹_›)

/-- Decoding the element sequence of a signed Data `d` into any Data `y` succeeds and
installs the name, metaInfo, content, signature and the two counters of `d`. -/
theorem Data.wireDecode_dataElements (cd : Codecs) (t : TlvTypes) (d y : Data)
    (ht : t.DataOk) (hs : d.Signed cd t) (hc : d.CodecsOk cd t)
    (hsz : (wireOfBlocks (d.wireElements cd t)).length < 2 ^ 64) :
    (y.wireDecode cd t ⟨t.Data, wireOfBlocks (d.wireElements cd t)⟩).1 = .ok ()
    ∧ (y.wireDecode cd t ⟨t.Data, wireOfBlocks (d.wireElements cd t)⟩).2.m_name = d.m_name
    ∧ (y.wireDecode cd t ⟨t.Data, wireOfBlocks (d.wireElements cd t)⟩).2.m_metaInfo
        = d.m_metaInfo
    ∧ (y.wireDecode cd t ⟨t.Data, wireOfBlocks (d.wireElements cd t)⟩).2.m_content
        = d.m_content
    ∧ (y.wireDecode cd t ⟨t.Data, wireOfBlocks (d.wireElements cd t)⟩).2.m_signature
        = d.m_signature
    ∧ (y.wireDecode cd t ⟨t.Data, wireOfBlocks (d.wireElements cd t)⟩).2.m_residualEnergy
        = d.m_residualEnergy
    ∧ (y.wireDecode cd t ⟨t.Data, wireOfBlocks (d.wireElements cd t)⟩).2.m_initialHop
        = d.m_initialHop
    ∧ (y.wireDecode cd t ⟨t.Data, wireOfBlocks (d.wireElements cd t)⟩).2.m_wire
        = some ⟨t.Data, wireOfBlocks (d.wireElements cd t)⟩
    ∧ (y.wireDecode cd t ⟨t.Data, wireOfBlocks (d.wireElements cd t)⟩).2.m_fullName = [] := by
  obtain ⟨_, hct, hit, hiok, hvt, hre, hih⟩ := hs
  have hok : ∀ b ∈ d.wireElements cd t, b.Ok := by
    intro b hb
    refine ⟨?_, lt_of_le_of_lt (value_length_le_wireOfBlocks _ b hb) hsz⟩
    have hty := ht.2
    simp only [List.mem_cons, List.mem_singleton, List.not_mem_nil, or_false,
      forall_eq_or_imp, forall_eq] at hty
    rcases (Data.mem_dataElements cd t d b).mp hb with
      h | h | h | h | h | h | h | h <;> rw [h] <;>
      first | (simp only; omega) | (rw [hct]; omega) | (rw [hit]; omega) | (rw [hvt]; omega)
  obtain ⟨fName, fMeta, fContent, fInfo, fValue, fEnergy, fHop⟩ :=
    Data.find_dataElements cd t d ht.1 hct hit hvt []
  obtain ⟨hcName, hcMeta⟩ := hc
  unfold Data.wireDecode
  simp only [parseElements_wireOfBlocks _ [] hok, getBlock, fName, fMeta, fContent, fInfo,
    fValue, fEnergy, fHop, hcName, hcMeta, hiok, Bool.not_true, Bool.false_eq_true, if_false,
    ne_eq, not_true_eq_false, u32Bytes_length, u32OfBytes_u32Bytes _ hre,
    u32OfBytes_u32Bytes _ hih]
  cases findElement (elementsOf (d.wireElements cd t) []) t.IdsList with
  | none => refine ⟨?_, ?_, ?_, ?_, ?_, ?_, ?_, ?_, ?_⟩ <;> trivial
  | some val =>
    dsimp only
    cases Data.wireDecodeIdsList val with
    | error e => refine ⟨?_, ?_, ?_, ?_, ?_, ?_, ?_, ?_, ?_⟩ <;> trivial
    | ok v => refine ⟨?_, ?_, ?_, ?_, ?_, ?_, ?_, ?_, ?_⟩ <;> trivial

/-- C10: for a signed Data (content, signature info and signature value blocks of their
own types, 32-bit counters), with type numbers that are pairwise distinct, with
collaborating codecs that decode what they encode for its name and metaInfo, and with an
encoding shorter than `2^64` bytes: `wireEncode` fills the buffer with one block; decoding
that block into any Data succeeds and gives the name, metaInfo, content, signature info,
signature value, residualEnergy and initialHop of `x`; and `wireEncode()` returns that
block and leaves these fields as they were. -/
theorem data_wire_roundtrip (cd : Codecs) (t : TlvTypes) (x : Data)
    (ht : t.DataOk) (hs : x.Signed cd t) (hc : x.CodecsOk cd t)
    (hsz : ∀ buffer n, x.wireEncodeImpl cd t [] false = .ok (buffer, n) →
      buffer.length < 2 ^ 64) :
    ∃ buffer n blk,
      x.wireEncodeImpl cd t [] false = .ok (buffer, n)
      ∧ Block.fromBuffer buffer = .ok blk
      ∧ (∀ y : Data,
          (y.wireDecode cd t blk).1 = .ok ()
          ∧ (y.wireDecode cd t blk).2.m_name = x.m_name
          ∧ (y.wireDecode cd t blk).2.m_metaInfo = x.m_metaInfo
          ∧ (y.wireDecode cd t blk).2.m_content = x.m_content
          ∧ (y.wireDecode cd t blk).2.m_signature.info = x.m_signature.info
          ∧ (y.wireDecode cd t blk).2.m_signature.value = x.m_signature.value
          ∧ (y.wireDecode cd t blk).2.m_residualEnergy = x.m_residualEnergy
          ∧ (y.wireDecode cd t blk).2.m_initialHop = x.m_initialHop)
      ∧ (x.wireEncode cd t).1 = .ok blk
      ∧ (x.wireEncode cd t).2.m_name = x.m_name
      ∧ (x.wireEncode cd t).2.m_metaInfo = x.m_metaInfo
      ∧ (x.wireEncode cd t).2.m_content = x.m_content
      ∧ (x.wireEncode cd t).2.m_signature = x.m_signature
      ∧ (x.wireEncode cd t).2.m_residualEnergy = x.m_residualEnergy
      ∧ (x.wireEncode cd t).2.m_initialHop = x.m_initialHop
      ∧ (x.wireEncode cd t).2.m_wire = some blk := by
  have henc := Data.wireEncodeImpl_dataBytes cd t x hs.1
  have hlen := hsz _ _ henc
  have htD : t.Data ≤ 4294967295 := ht.2 _ (List.mem_cons_self _ _)
  have hvlen : (wireOfBlocks (x.wireElements cd t)).length < 2 ^ 64 :=
    lt_of_le_of_lt (value_length_le_wire ⟨t.Data, _⟩) hlen
  have hbuf : Block.fromBuffer (Block.wire ⟨t.Data, wireOfBlocks (x.wireElements cd t)⟩)
      = .ok ⟨t.Data, wireOfBlocks (x.wireElements cd t)⟩ := fromBuffer_wire _ htD hvlen
  have hdec := fun y => Data.wireDecode_dataElements cd t x y ht hs hc hvlen
  have hself := hdec x
  have hwe : x.wireEncode cd t
      = (.ok ⟨t.Data, wireOfBlocks (x.wireElements cd t)⟩,
          (x.wireDecode cd t ⟨t.Data, wireOfBlocks (x.wireElements cd t)⟩).2) := by
    unfold Data.wireEncode
    simp only [henc, hbuf]
    cases hr : x.wireDecode cd t ⟨t.Data, wireOfBlocks (x.wireElements cd t)⟩ with
    | mk r1 r2 =>
      rw [hr] at hself
      simp only at hself
      rw [hself.1]
  refine ⟨_, _, _, henc, hbuf, ?_, ?_⟩
  · intro y
    obtain ⟨h1, h2, h3, h4, h5, h6, h7, _, _⟩ := hdec y
    exact ⟨h1, h2, h3, h4, by rw [h5], by rw [h5], h6, h7⟩
  · rw [hwe]
    obtain ⟨_, h2, h3, h4, h5, h6, h7, h8, _⟩ := hself
    exact ⟨rfl, h2, h3, h4, h5, h6, h7, h8⟩

theorem data_wire_roundtrip_witness :
    ∃ blk, (signedData.wireEncode sampleCodecs sampleTlv).1 = .ok blk
      ∧ ((sampleData [] [] none).wireDecode sampleCodecs sampleTlv blk).1 = .ok ()
      ∧ ((sampleData [] [] none).wireDecode sampleCodecs sampleTlv blk).2.m_name
          = signedData.m_name
      ∧ ((sampleData [] [] none).wireDecode sampleCodecs sampleTlv blk).2.m_content
          = signedData.m_content
      ∧ ((sampleData [] [] none).wireDecode sampleCodecs sampleTlv blk).2.m_residualEnergy
          = 77 := by
  obtain ⟨_, _, blk, _, _, hdec, henc, _⟩ :=
    data_wire_roundtrip sampleCodecs sampleTlv signedData
      ⟨by decide, by decide⟩
      ⟨by decide, by decide, by decide, by rfl, by decide, by decide, by decide⟩
      ⟨rfl, rfl⟩
      (by
        intro buffer n h
        rw [Data.wireEncodeImpl_dataBytes _ _ _ (by decide)] at h
        cases h
        decide)
  obtain ⟨h1, h2, _, h4, _, _, h7, _⟩ := hdec (sampleData [] [] none)
  exact ⟨blk, henc, h1, h2, h4, h7⟩

end ndn

/-! # Theorems: lifetime, nonce and cache invalidation -/

namespace ndn

/-- C17: the Interest constructor and `setInterestLifetime` fail, with the
invalid-argument error, exactly when the given lifetime is negative. When
`setInterestLifetime` fails the Interest is left as it was (lifetime and cached wire
included); when it succeeds the lifetime is the given value, the cached wire is cleared
and the other fields are untouched. A successful construction holds the given name and
lifetime. -/
theorem interest_lifetime_argument_check (x : Interest) (name : Name) (lifetime : Int) :
    ((∃ e, Interest.new name lifetime = .error e) ↔ lifetime < 0)
    ∧ (lifetime < 0 → Interest.new name lifetime = .error Exn.invalidArgument)
    ∧ (0 ≤ lifetime → ∃ y, Interest.new name lifetime = .ok y ∧ y.m_name = name
        ∧ y.m_interestLifetime = lifetime ∧ y.m_wire = none)
    ∧ ((∃ e, (x.setInterestLifetime lifetime).1 = .error e) ↔ lifetime < 0)
    ∧ (lifetime < 0 → (x.setInterestLifetime lifetime).1 = .error Exn.invalidArgument
        ∧ (x.setInterestLifetime lifetime).2 = x)
    ∧ (0 ≤ lifetime → (x.setInterestLifetime lifetime).1 = .ok ()
        ∧ (x.setInterestLifetime lifetime).2.m_interestLifetime = lifetime
        ∧ (x.setInterestLifetime lifetime).2.m_wire = none
        ∧ (x.setInterestLifetime lifetime).2
            = { x with m_interestLifetime := lifetime, m_wire := none }) := by
  unfold Interest.new Interest.setInterestLifetime
  by_cases h : lifetime < 0
  · have h2 : ¬ (0 ≤ lifetime) := by omega
    simp [h, h2]
  · have h2 : 0 ≤ lifetime := by omega
    simp [h, h2]

theorem refreshLoop_ne (fuel oldNonce newNonce : Nat) (g : Rng) (r : Nat × Rng)
    (h : refreshLoop fuel oldNonce newNonce g = some r) : r.1 ≠ oldNonce := by
  induction fuel generalizing newNonce g with
  | zero => simp [refreshLoop] at h
  | succ fuel ih =>
    unfold refreshLoop at h
    by_cases hc : newNonce = oldNonce
    · rw [if_pos hc] at h
      exact ih _ _ h
    · rw [if_neg hc] at h
      cases h
      exact hc

/-- The loop of `refreshNonce` ends as soon as the stream offers a word other than the
old nonce: `k` equal words followed by a different one need `k + 2` tests. -/
theorem refreshLoop_returns (k oldNonce : Nat) (g : Rng)
    (hsame : ∀ j, j < k → g.stream (g.pos + j) % 4294967296 = oldNonce)
    (hdiff : g.stream (g.pos + k) % 4294967296 ≠ oldNonce) :
    refreshLoop (k + 2) oldNonce oldNonce g
      = some (g.stream (g.pos + k) % 4294967296, { g with pos := g.pos + k + 1 }) := by
  induction k generalizing g with
  | zero =>
    simp only [refreshLoop, if_true, Rng.generateWord32, Nat.add_zero] at hdiff ⊢
    rw [if_neg hdiff]
  | succ k ih =>
    have h0 : g.stream g.pos % 4294967296 = oldNonce := by
      have := hsame 0 (by omega)
      simpa using this
    have hstep : refreshLoop (k + 1 + 2) oldNonce oldNonce g
        = refreshLoop (k + 2) oldNonce oldNonce { g with pos := g.pos + 1 } := by
      conv_lhs => unfold refreshLoop
      simp only [if_true, Rng.generateWord32, h0]
    rw [hstep, ih { g with pos := g.pos + 1 }]
    · simp only [Nat.add_assoc, Nat.add_comm 1 k]
    · intro j hj
      have := hsame (j + 1) (by omega)
      simpa [Nat.add_assoc, Nat.add_comm 1 j] using this
    · simpa [Nat.add_assoc, Nat.add_comm 1 k] using hdiff

/-- C19: with the generator an arbitrary stream of 32-bit words. On an Interest with no
nonce the first `getNonce()` returns the next word of the stream and stores it, and a
second `getNonce()` returns the same value and leaves the generator where it was;
`refreshNonce()` on an Interest with no nonce changes nothing. On an Interest whose nonce
is `v`, whenever `refreshNonce()` returns, `getNonce()` returns a value different from `v`
and the cached wire is cleared; and it does return as soon as the stream offers a word
different from `v`. -/
theorem nonce_generate_once_and_refresh (x : Interest) (g : Rng) :
    (x.m_nonce = none →
      (x.getNonce g).1 = g.stream g.pos % 4294967296
      ∧ (x.getNonce g).2.1.m_nonce = some (x.getNonce g).1
      ∧ (x.getNonce g).2.2.pos = g.pos + 1
      ∧ (x.getNonce g).2.1.getNonce (x.getNonce g).2.2
          = ((x.getNonce g).1, (x.getNonce g).2.1, (x.getNonce g).2.2)
      ∧ ∀ fuel, x.refreshNonce fuel g = some (x, g))
    ∧ (∀ v, x.m_nonce = some v → ∀ fuel y g1, x.refreshNonce fuel g = some (y, g1) →
        (∀ g2, (y.getNonce g2).1 ≠ v) ∧ y.m_wire = none
        ∧ ∃ w, w ≠ v ∧ y = { x with m_nonce := some w, m_wire := none })
    ∧ (∀ v k, x.m_nonce = some v →
        (∀ j, j < k → g.stream (g.pos + j) % 4294967296 = v) →
        g.stream (g.pos + k) % 4294967296 ≠ v →
        x.refreshNonce (k + 2) g
          = some (x.setNonce (g.stream (g.pos + k) % 4294967296),
              { g with pos := g.pos + k + 1 })) := by
  refine ⟨?_, ?_, ?_⟩
  · intro hn
    refine ⟨?_, ?_, ?_, ?_, ?_⟩
    · simp [Interest.getNonce, hn, Rng.generateWord32]
    · simp [Interest.getNonce, hn]
    · simp [Interest.getNonce, hn, Rng.generateWord32]
    · simp [Interest.getNonce, hn]
    · intro fuel
      simp [Interest.refreshNonce, Interest.hasNonce, hn]
  · intro v hv fuel y g1 hr
    unfold Interest.refreshNonce at hr
    simp only [Interest.hasNonce, hv, Option.isSome_some, Bool.not_true, Bool.false_eq_true,
      if_false, Interest.getNonce] at hr
    cases hl : refreshLoop fuel v v g with
    | none =>
      rw [hl] at hr
      cases hr
    | some r =>
      rw [hl] at hr
      have hne := refreshLoop_ne fuel v v g r hl
      obtain ⟨w, g3⟩ := r
      simp only [Option.some.injEq, Prod.mk.injEq] at hr
      obtain ⟨hy, _⟩ := hr
      subst hy
      refine ⟨?_, rfl, w, hne, rfl⟩
      intro g2
      simpa [Interest.getNonce, Interest.setNonce] using hne
  · intro v k hv hsame hdiff
    unfold Interest.refreshNonce
    simp only [Interest.hasNonce, hv, Option.isSome_some, Bool.not_true, Bool.false_eq_true,
      if_false, Interest.getNonce]
    rw [refreshLoop_returns k v g hsame hdiff]

theorem mutate_resets (t : TlvTypes) (d : Data) (m : DataMutator) :
    (d.mutate t m).m_wire = none ∧ (d.mutate t m).m_fullName = [] := by
  cases m <;> first
    | exact ⟨rfl, rfl⟩
    | (unfold Data.mutate Data.setContentBlock
       dsimp only
       split <;> exact ⟨rfl, rfl⟩)

theorem wireDecode_sets_cache (cd : Codecs) (t : TlvTypes) (d : Data) (wire : Block) :
    (d.wireDecode cd t wire).2.m_wire = some wire
      ∧ (d.wireDecode cd t wire).2.m_fullName = [] := by
  unfold Data.wireDecode
  dsimp only
  repeat' split
  all_goals exact ⟨rfl, rfl⟩

theorem getFullName_fails_of_reset (p : Primitives) (d : Data) (hw : d.m_wire = none)
    (hf : d.m_fullName = []) : (d.getFullName p).1 = .error Exn.dataError := by
  unfold Data.getFullName
  simp [hw, hf]

theorem wireEncode_state (cd : Codecs) (t : TlvTypes) (d : Data) :
    (d.wireEncode cd t).2 = d ∨ ∃ wire, (d.wireEncode cd t).2 = (d.wireDecode cd t wire).2 := by
  unfold Data.wireEncode
  cases d.wireEncodeImpl cd t [] false with
  | error e => exact Or.inl rfl
  | ok r =>
    obtain ⟨buffer, n⟩ := r
    dsimp only
    cases Block.fromBuffer buffer with
    | error e => exact Or.inl rfl
    | ok blk =>
      dsimp only
      refine Or.inr ⟨blk, ?_⟩
      cases hr : d.wireDecode cd t blk with
      | mk r1 r2 =>
        cases r1 <;> rfl

theorem step_cacheOk (p : Primitives) (cd : Codecs) (t : TlvTypes) (d : Data) (op : DataOp)
    (h : d.CacheOk p) : (d.step p cd t op).CacheOk p := by
  cases op with
  | mutate m => exact Or.inl (mutate_resets t d m).2
  | wireDecode wire => exact Or.inl (wireDecode_sets_cache cd t d wire).2
  | wireEncode =>
    show ((d.wireEncode cd t).2).CacheOk p
    rcases wireEncode_state cd t d with he | ⟨wire, he⟩
    · rw [he]
      exact h
    · rw [he]
      exact Or.inl (wireDecode_sets_cache cd t d wire).2
  | getFullName =>
    show ((d.getFullName p).2).CacheOk p
    unfold Data.getFullName
    by_cases he : d.m_fullName.isEmpty = true
    · rw [if_pos he]
      cases hw : d.m_wire with
      | none => exact h
      | some w => exact Or.inr ⟨w, rfl, rfl⟩
    · rw [if_neg he]
      exact h

theorem run_cacheOk (p : Primitives) (cd : Codecs) (t : TlvTypes) (ops : List DataOp)
    (d : Data) (h : d.CacheOk p) : (d.run p cd t ops).CacheOk p := by
  induction ops generalizing d with
  | nil => exact h
  | cons op ops ih => exact ih _ (step_cacheOk p cd t d op h)

/-- C20: after any field mutator of a Data the cached wire is gone and the cached full
name is empty, so `getFullName()` fails; it works again once the Data is decoded from (or
encoded to) a wire. On every Data reached from a newly constructed one by mutators,
`wireDecode`, `wireEncode()` and `getFullName()` calls, `getFullName()` fails whenever the
Data carries no wire encoding. -/
theorem data_mutators_invalidate_cache (p : Primitives) (cd : Codecs) (t : TlvTypes)
    (d : Data) :
    (∀ m, (d.mutate t m).m_wire = none ∧ (d.mutate t m).m_fullName = []
        ∧ ((d.mutate t m).getFullName p).1 = .error Exn.dataError)
    ∧ (∀ wire, ((d.wireDecode cd t wire).2.getFullName p).1
        = .ok ((d.wireDecode cd t wire).2.m_name ++ [Component.mk true (p.sha256 wire.wire)]))
    ∧ (∀ blk, (d.wireEncode cd t).1 = .ok blk →
        ((d.wireEncode cd t).2.getFullName p).1
          = .ok ((d.wireEncode cd t).2.m_name ++ [Component.mk true (p.sha256 blk.wire)]))
    ∧ (d.CacheOk p → d.m_wire = none → (d.getFullName p).1 = .error Exn.dataError)
    ∧ (∀ name ops, ((Data.new t name).run p cd t ops).m_wire = none →
        (((Data.new t name).run p cd t ops).getFullName p).1 = .error Exn.dataError) := by
  have hreset : ∀ e : Data, e.CacheOk p → e.m_wire = none →
      (e.getFullName p).1 = .error Exn.dataError := by
    intro e hc hw
    rcases hc with hf | ⟨w, hw2, _⟩
    · exact getFullName_fails_of_reset p e hw hf
    · rw [hw] at hw2
      cases hw2
  refine ⟨?_, ?_, ?_, hreset d, ?_⟩
  · intro m
    obtain ⟨hw, hf⟩ := mutate_resets t d m
    exact ⟨hw, hf, getFullName_fails_of_reset p _ hw hf⟩
  · intro wire
    obtain ⟨hw, hf⟩ := wireDecode_sets_cache cd t d wire
    exact getFullName_of_wire p _ wire hw (Or.inl hf)
  · intro blk hok
    unfold Data.wireEncode at hok ⊢
    cases henc : d.wireEncodeImpl cd t [] false with
    | error e =>
      rw [henc] at hok
      cases hok
    | ok r =>
      obtain ⟨buffer, n⟩ := r
      rw [henc] at hok
      dsimp only at hok ⊢
      cases hbuf : Block.fromBuffer buffer with
      | error e =>
        rw [hbuf] at hok
        cases hok
      | ok b =>
        rw [hbuf] at hok
        dsimp only at hok ⊢
        cases hr : d.wireDecode cd t b with
        | mk r1 r2 =>
          rw [hr] at hok
          cases r1 with
          | error e => cases hok
          | ok u =>
            dsimp only at hok ⊢
            cases hok
            obtain ⟨hw, hf⟩ := wireDecode_sets_cache cd t d blk
            rw [hr] at hw hf
            exact getFullName_of_wire p _ blk hw (Or.inl hf)
  · intro name ops hw
    exact hreset _ (run_cacheOk p cd t ops _ (Or.inl rfl)) hw

end ndn

/-! # Theorems: what `wireDecode` accepts and what it leaves on failure -/

namespace ndn

/-- What a successful `Interest::wireDecode` has seen in the block and left in the
packet. -/
theorem Interest.wireDecode_inv (cd : Codecs) (t : TlvTypes) (x : Interest) (wire : Block)
    (h : (x.wireDecode cd t wire).1 = .ok ()) :
    ∃ els nb name sel vn vf vm life hint,
      parseElements wire.value [] = .ok els ∧ wire.type = t.Interest
      ∧ findBlock els t.Name = some nb ∧ cd.nameDecode nb = .ok name
      ∧ (∀ val, findBlock els t.Selectors = some val → cd.selectorsDecode val = .ok sel)
      ∧ (findBlock els t.Selectors = none → sel = Selectors.default)
      ∧ findBlock els t.Nonce = some vn ∧ vn.value.length = 4
      ∧ findBlock els t.ForwarderId = some vf ∧ vf.value.length = 4
      ∧ findBlock els t.ForwardingMode = some vm ∧ vm.value.length = 4
      ∧ (∀ val, findBlock els t.InterestLifetime = some val →
          ∃ v, cd.readNonNegativeInteger val = .ok v ∧ life = toInt64 v)
      ∧ (findBlock els t.InterestLifetime = none → life = DEFAULT_INTEREST_LIFETIME)
      ∧ (∀ val, findBlock els t.ForwardingHint = some val →
          cd.forwardingHintDecode val = .ok hint)
      ∧ (findBlock els t.ForwardingHint = none → hint = [])
      ∧ (x.wireDecode cd t wire).2
          = { m_name := name, m_selectors := sel, m_nonce := some (u32OfBytes vn.value),
              m_interestLifetime := life, m_forwardingHint := hint,
              m_forwarderId := u32OfBytes vf.value,
              m_forwardingMode := u32OfBytes vm.value, m_wire := some wire } := by
  unfold Interest.wireDecode at h
  dsimp only at h
  cases hp : parseElements wire.value [] with
  | error e => simp only [hp] at h; cases h
  | ok els =>
  simp only [hp] at h
  by_cases hty : wire.type = t.Interest
  swap
  · simp only [ne_eq, hty, not_false_eq_true, if_true] at h; cases h
  simp only [ne_eq, hty, not_true_eq_false, if_false, getBlock] at h
  cases hn : findBlock els t.Name with
  | none => simp only [hn] at h; cases h
  | some nb =>
  simp only [hn] at h
  cases hnd : cd.nameDecode nb with
  | error e => simp only [hnd] at h; cases h
  | ok name =>
  simp only [hnd] at h
  have hsel : ∃ sel, (∀ val, findBlock els t.Selectors = some val →
        cd.selectorsDecode val = .ok sel)
      ∧ (findBlock els t.Selectors = none → sel = Selectors.default)
      ∧ (match findBlock els t.Selectors with
          | some val => cd.selectorsDecode val
          | none => Except.ok Selectors.default) = .ok sel := by
    cases hs : findBlock els t.Selectors with
    | none => exact ⟨Selectors.default, fun _ hv => Option.noConfusion hv, fun _ => rfl, rfl⟩
    | some val =>
      cases hsd : cd.selectorsDecode val with
      | error e => simp only [hs, hsd] at h; cases h
      | ok sel =>
        refine ⟨sel, ?_, fun hv => Option.noConfusion hv, hsd⟩
        intro v hv
        cases hv
        exact hsd
  obtain ⟨sel, hs1, hs2, hs3⟩ := hsel
  simp only [hs3] at h
  cases hvn : findBlock els t.Nonce with
  | none => simp only [hvn] at h; cases h
  | some vn =>
  simp only [hvn] at h
  by_cases hvnl : vn.value.length = 4
  swap
  · simp only [hvnl, not_false_eq_true, if_true] at h; cases h
  simp only [hvnl, not_true_eq_false, if_false] at h
  cases hvf : findBlock els t.ForwarderId with
  | none => simp only [hvf] at h; cases h
  | some vf =>
  simp only [hvf] at h
  by_cases hvfl : vf.value.length = 4
  swap
  · simp only [hvfl, not_false_eq_true, if_true] at h; cases h
  simp only [hvfl, not_true_eq_false, if_false] at h
  cases hvm : findBlock els t.ForwardingMode with
  | none => simp only [hvm] at h; cases h
  | some vm =>
  simp only [hvm] at h
  by_cases hvml : vm.value.length = 4
  swap
  · simp only [hvml, not_false_eq_true, if_true] at h; cases h
  simp only [hvml, not_true_eq_false, if_false] at h
  have hlife : ∃ life, (∀ val, findBlock els t.InterestLifetime = some val →
        ∃ v, cd.readNonNegativeInteger val = .ok v ∧ life = toInt64 v)
      ∧ (findBlock els t.InterestLifetime = none → life = DEFAULT_INTEREST_LIFETIME)
      ∧ (match findBlock els t.InterestLifetime with
          | some val =>
            match cd.readNonNegativeInteger val with
            | .error e => Except.error e
            | .ok v => .ok (toInt64 v)
          | none => Except.ok DEFAULT_INTEREST_LIFETIME) = .ok life := by
    cases hl : findBlock els t.InterestLifetime with
    | none => exact ⟨DEFAULT_INTEREST_LIFETIME, fun _ hv => Option.noConfusion hv, fun _ => rfl, rfl⟩
    | some val =>
      cases hld : cd.readNonNegativeInteger val with
      | error e => simp only [hl, hld] at h; cases h
      | ok v =>
        refine ⟨toInt64 v, ?_, fun hv => Option.noConfusion hv, by simp only [hld]⟩
        intro v' hv
        cases hv
        exact ⟨v, hld, rfl⟩
  obtain ⟨life, hl1, hl2, hl3⟩ := hlife
  simp only [hl3] at h
  have hhint : ∃ hint, (∀ val, findBlock els t.ForwardingHint = some val →
        cd.forwardingHintDecode val = .ok hint)
      ∧ (findBlock els t.ForwardingHint = none → hint = [])
      ∧ (match findBlock els t.ForwardingHint with
          | some val => cd.forwardingHintDecode val
          | none => Except.ok []) = .ok hint := by
    cases hl : findBlock els t.ForwardingHint with
    | none => exact ⟨[], fun _ hv => Option.noConfusion hv, fun _ => rfl, rfl⟩
    | some val =>
      cases hld : cd.forwardingHintDecode val with
      | error e => simp only [hl, hld] at h; cases h
      | ok hint =>
        refine ⟨hint, ?_, fun hv => Option.noConfusion hv, hld⟩
        intro v' hv
        cases hv
        exact hld
  obtain ⟨hint, hh1, hh2, hh3⟩ := hhint
  refine ⟨els, nb, name, sel, vn, vf, vm, life, hint, rfl, hty, hn, hnd, hs1, hs2, hvn,
    hvnl, hvf, hvfl, hvm, hvml, hl1, hl2, hh1, hh2, ?_⟩
  unfold Interest.wireDecode
  simp only [hp, ne_eq, hty, not_true_eq_false, if_false, getBlock, hn, hnd, hs3, hvn, hvnl,
    hvf, hvfl, hvm, hvml, hl3, hh3]

theorem Interest.wireDecode_fails_of_not_ok (cd : Codecs) (t : TlvTypes) (x : Interest)
    (wire : Block) (h : (x.wireDecode cd t wire).1 ≠ .ok ()) :
    ∃ e, (x.wireDecode cd t wire).1 = .error e := by
  cases hr : (x.wireDecode cd t wire).1 with
  | error e => exact ⟨e, rfl⟩
  | ok u => exact absurd hr h

/-- C13: `Interest::wireDecode` fails whenever the outer type is not Interest (with
`Interest::Error` once the block has parsed), and whenever the Nonce, the ForwarderId or
the ForwardingMode element is absent or its value is not exactly 4 bytes long. An absent
Selectors, InterestLifetime or ForwardingHint element leaves after a successful decode
the empty selectors, the default lifetime and the empty forwarding hint, and a block that
holds only Name, Nonce, ForwarderId and ForwardingMode decodes without failure. -/
theorem interest_wireDecode_mandatory_elements (cd : Codecs) (t : TlvTypes) (x : Interest)
    (wire : Block) :
    (wire.type ≠ t.Interest → ∃ e, (x.wireDecode cd t wire).1 = .error e)
    ∧ (∀ els, parseElements wire.value [] = .ok els →
        (wire.type ≠ t.Interest → (x.wireDecode cd t wire).1 = .error Exn.interestError)
        ∧ ((∀ v, findBlock els t.ForwarderId = some v → v.value.length ≠ 4) →
            ∃ e, (x.wireDecode cd t wire).1 = .error e)
        ∧ ((∀ v, findBlock els t.ForwardingMode = some v → v.value.length ≠ 4) →
            ∃ e, (x.wireDecode cd t wire).1 = .error e)
        ∧ ((∀ v, findBlock els t.Nonce = some v → v.value.length ≠ 4) →
            ∃ e, (x.wireDecode cd t wire).1 = .error e)
        ∧ ((x.wireDecode cd t wire).1 = .ok () →
            (findBlock els t.Selectors = none →
              (x.wireDecode cd t wire).2.m_selectors = Selectors.default)
            ∧ (findBlock els t.InterestLifetime = none →
              (x.wireDecode cd t wire).2.m_interestLifetime = DEFAULT_INTEREST_LIFETIME)
            ∧ (findBlock els t.ForwardingHint = none →
              (x.wireDecode cd t wire).2.m_forwardingHint = []))
        ∧ (∀ nb name vn vf vm, wire.type = t.Interest →
            findBlock els t.Name = some nb → cd.nameDecode nb = .ok name →
            findBlock els t.Nonce = some vn → vn.value.length = 4 →
            findBlock els t.ForwarderId = some vf → vf.value.length = 4 →
            findBlock els t.ForwardingMode = some vm → vm.value.length = 4 →
            findBlock els t.Selectors = none → findBlock els t.InterestLifetime = none →
            findBlock els t.ForwardingHint = none →
            x.wireDecode cd t wire
              = (.ok (),
                  { m_name := name, m_selectors := Selectors.default,
                    m_nonce := some (u32OfBytes vn.value),
                    m_interestLifetime := DEFAULT_INTEREST_LIFETIME, m_forwardingHint := [],
                    m_forwarderId := u32OfBytes vf.value,
                    m_forwardingMode := u32OfBytes vm.value, m_wire := some wire }))) := by
  have hfail := Interest.wireDecode_fails_of_not_ok cd t x wire
  refine ⟨?_, ?_⟩
  · intro hty
    apply hfail
    intro hok
    obtain ⟨_, _, _, _, _, _, _, _, _, _, hty2, _⟩ := Interest.wireDecode_inv cd t x wire hok
    exact hty hty2
  · intro els hp
    refine ⟨?_, ?_, ?_, ?_, ?_, ?_⟩
    · intro hty
      unfold Interest.wireDecode
      simp only [hp, ne_eq, hty, not_false_eq_true, if_true]
    · intro hcond
      apply hfail
      intro hok
      obtain ⟨els2, _, _, _, _, vf, _, _, _, hp2, _, _, _, _, _, _, _, hvf, hvfl, _⟩ :=
        Interest.wireDecode_inv cd t x wire hok
      rw [hp] at hp2
      cases hp2
      exact hcond vf hvf hvfl
    · intro hcond
      apply hfail
      intro hok
      obtain ⟨els2, _, _, _, _, _, vm, _, _, hp2, _, _, _, _, _, _, _, _, _, hvm, hvml, _⟩ :=
        Interest.wireDecode_inv cd t x wire hok
      rw [hp] at hp2
      cases hp2
      exact hcond vm hvm hvml
    · intro hcond
      apply hfail
      intro hok
      obtain ⟨els2, _, _, _, vn, _, _, _, _, hp2, _, _, _, _, _, hvn, hvnl, _⟩ :=
        Interest.wireDecode_inv cd t x wire hok
      rw [hp] at hp2
      cases hp2
      exact hcond vn hvn hvnl
    · intro hok
      obtain ⟨els2, _, _, sel, _, _, _, life, hint, hp2, _, _, _, _, hs2, _, _, _, _, _, _, _,
        hl2, _, hh2, hres⟩ := Interest.wireDecode_inv cd t x wire hok
      rw [hp] at hp2
      cases hp2
      rw [hres]
      exact ⟨hs2, hl2, hh2⟩
    · intro nb name vn vf vm hty hn hnd hvn hvnl hvf hvfl hvm hvml hs hl hh
      unfold Interest.wireDecode
      simp only [hp, ne_eq, hty, not_true_eq_false, if_false, getBlock, hn, hnd, hs, hvn, hvnl,
        hvf, hvfl, hvm, hvml, hl, hh]

/-- With the four required elements present and decodable, `Data::wireDecode` succeeds
and what it leaves is the required fields followed by the four later steps, each applied
to the outcome of the one before. -/
theorem Data.wireDecode_stages (cd : Codecs) (t : TlvTypes) (d : Data) (wire : Block)
    (els : List Element) (nb mb cb ib : Block) (name : Name) (mi : MetaInfo)
    (hp : parseElements wire.value [] = .ok els)
    (hn : findBlock els t.Name = some nb) (hnd : cd.nameDecode nb = .ok name)
    (hm : findBlock els t.MetaInfo = some mb) (hmd : cd.metaInfoDecode mb = .ok mi)
    (hc : findBlock els t.Content = some cb)
    (hi : findBlock els t.SignatureInfo = some ib) (hiok : cd.signatureInfoOk ib = true) :
    d.wireDecode cd t wire
      = (.ok (),
          Data.decodeIdsList t els (Data.decodeInitialHop t els (Data.decodeResidualEnergy t els
            (Data.decodeSignatureValue t els
              { m_name := name, m_metaInfo := mi, m_content := cb,
                m_signature := ⟨ib, d.m_signature.value⟩,
                m_residualEnergy := d.m_residualEnergy, m_initialHop := d.m_initialHop,
                m_forwarderId := d.m_forwarderId, m_idsList := d.m_idsList,
                m_wire := some wire, m_fullName := [] })))) := by
  unfold Data.wireDecode
  simp only [hp, getBlock, hn, hnd, hm, hmd, hc, hi, hiok, Bool.not_true, Bool.false_eq_true,
    if_false]
  rfl

theorem decodeSignatureValue_fields (t : TlvTypes) (els : List Element) (d : Data) :
    (Data.decodeSignatureValue t els d).m_name = d.m_name
    ∧ (Data.decodeSignatureValue t els d).m_metaInfo = d.m_metaInfo
    ∧ (Data.decodeSignatureValue t els d).m_content = d.m_content
    ∧ (Data.decodeSignatureValue t els d).m_signature.info = d.m_signature.info
    ∧ (Data.decodeSignatureValue t els d).m_residualEnergy = d.m_residualEnergy
    ∧ (Data.decodeSignatureValue t els d).m_initialHop = d.m_initialHop
    ∧ (Data.decodeSignatureValue t els d).m_idsList = d.m_idsList
    ∧ (∀ v, findBlock els t.SignatureValue = some v →
        (Data.decodeSignatureValue t els d).m_signature.value = v)
    ∧ (findBlock els t.SignatureValue = none →
        (Data.decodeSignatureValue t els d).m_signature.value = d.m_signature.value) := by
  unfold Data.decodeSignatureValue
  cases h : findBlock els t.SignatureValue with
  | none => exact ⟨rfl, rfl, rfl, rfl, rfl, rfl, rfl, fun _ hv => Option.noConfusion hv,
      fun _ => rfl⟩
  | some v => exact ⟨rfl, rfl, rfl, rfl, rfl, rfl, rfl, fun _ hv => Option.some.inj hv ▸ rfl,
      fun hv => Option.noConfusion hv⟩

theorem decodeResidualEnergy_fields (t : TlvTypes) (els : List Element) (d : Data) :
    (Data.decodeResidualEnergy t els d).m_name = d.m_name
    ∧ (Data.decodeResidualEnergy t els d).m_metaInfo = d.m_metaInfo
    ∧ (Data.decodeResidualEnergy t els d).m_content = d.m_content
    ∧ (Data.decodeResidualEnergy t els d).m_signature = d.m_signature
    ∧ (Data.decodeResidualEnergy t els d).m_initialHop = d.m_initialHop
    ∧ (Data.decodeResidualEnergy t els d).m_idsList = d.m_idsList
    ∧ (∀ v, findBlock els t.ResidualEnergy = some v → v.value.length = 4 →
        (Data.decodeResidualEnergy t els d).m_residualEnergy = u32OfBytes v.value)
    ∧ ((∀ v, findBlock els t.ResidualEnergy = some v → v.value.length ≠ 4) →
        (Data.decodeResidualEnergy t els d).m_residualEnergy = d.m_residualEnergy) := by
  unfold Data.decodeResidualEnergy
  cases h : findBlock els t.ResidualEnergy with
  | none => exact ⟨rfl, rfl, rfl, rfl, rfl, rfl, fun _ hv => Option.noConfusion hv,
      fun _ => rfl⟩
  | some v =>
    dsimp only
    by_cases hl : v.value.length = 4
    · rw [if_neg (not_not.mpr hl)]
      refine ⟨rfl, rfl, rfl, rfl, rfl, rfl, ?_, ?_⟩
      · intro w hw _
        cases hw
        rfl
      · intro hall
        exact absurd hl (hall v rfl)
    · rw [if_pos hl]
      refine ⟨rfl, rfl, rfl, rfl, rfl, rfl, ?_, fun _ => rfl⟩
      intro w hw hwl
      cases hw
      exact absurd hwl hl

theorem decodeInitialHop_fields (t : TlvTypes) (els : List Element) (d : Data) :
    (Data.decodeInitialHop t els d).m_name = d.m_name
    ∧ (Data.decodeInitialHop t els d).m_metaInfo = d.m_metaInfo
    ∧ (Data.decodeInitialHop t els d).m_content = d.m_content
    ∧ (Data.decodeInitialHop t els d).m_signature = d.m_signature
    ∧ (Data.decodeInitialHop t els d).m_residualEnergy = d.m_residualEnergy
    ∧ (Data.decodeInitialHop t els d).m_idsList = d.m_idsList
    ∧ (∀ v, findBlock els t.InitialHop = some v → v.value.length = 4 →
        (Data.decodeInitialHop t els d).m_initialHop = u32OfBytes v.value)
    ∧ ((∀ v, findBlock els t.InitialHop = some v → v.value.length ≠ 4) →
        (Data.decodeInitialHop t els d).m_initialHop = d.m_initialHop) := by
  unfold Data.decodeInitialHop
  cases h : findBlock els t.InitialHop with
  | none => exact ⟨rfl, rfl, rfl, rfl, rfl, rfl, fun _ hv => Option.noConfusion hv,
      fun _ => rfl⟩
  | some v =>
    dsimp only
    by_cases hl : v.value.length = 4
    · rw [if_neg (not_not.mpr hl)]
      refine ⟨rfl, rfl, rfl, rfl, rfl, rfl, ?_, ?_⟩
      · intro w hw _
        cases hw
        rfl
      · intro hall
        exact absurd hl (hall v rfl)
    · rw [if_pos hl]
      refine ⟨rfl, rfl, rfl, rfl, rfl, rfl, ?_, fun _ => rfl⟩
      intro w hw hwl
      cases hw
      exact absurd hwl hl

theorem decodeIdsList_fields (t : TlvTypes) (els : List Element) (d : Data) :
    (Data.decodeIdsList t els d).m_name = d.m_name
    ∧ (Data.decodeIdsList t els d).m_metaInfo = d.m_metaInfo
    ∧ (Data.decodeIdsList t els d).m_content = d.m_content
    ∧ (Data.decodeIdsList t els d).m_signature = d.m_signature
    ∧ (Data.decodeIdsList t els d).m_residualEnergy = d.m_residualEnergy
    ∧ (Data.decodeIdsList t els d).m_initialHop = d.m_initialHop
    ∧ (findElement els t.IdsList = none → (Data.decodeIdsList t els d).m_idsList = d.m_idsList)
    ∧ (∀ val e, findElement els t.IdsList = some val →
        Data.wireDecodeIdsList val = .error e →
        (Data.decodeIdsList t els d).m_idsList = d.m_idsList)
    ∧ (∀ val v, findElement els t.IdsList = some val → Data.wireDecodeIdsList val = .ok v →
        (Data.decodeIdsList t els d).m_idsList = v) := by
  unfold Data.decodeIdsList
  cases h : findElement els t.IdsList with
  | none => exact ⟨rfl, rfl, rfl, rfl, rfl, rfl, fun _ => rfl,
      fun _ _ hv => Option.noConfusion hv, fun _ _ hv => Option.noConfusion hv⟩
  | some val =>
    dsimp only
    cases hd : Data.wireDecodeIdsList val with
    | error e =>
      refine ⟨rfl, rfl, rfl, rfl, rfl, rfl, fun hv => Option.noConfusion hv, ?_, ?_⟩
      · intro w e2 hw _
        rfl
      · intro w v hw hv
        cases hw
        rw [hd] at hv
        cases hv
    | ok v =>
      refine ⟨rfl, rfl, rfl, rfl, rfl, rfl, fun hv => Option.noConfusion hv, ?_, ?_⟩
      · intro w e2 hw hv
        cases hw
        rw [hd] at hv
        cases hv
      · intro w v2 hw hv
        cases hw
        rw [hd] at hv
        cases hv
        rfl

/-- C14. For every Data `d` and block `w` that parses and whose Name, MetaInfo, Content
and SignatureInfo elements are present and decode, `d.wireDecode(w)` does not fail and
sets name, metaInfo, content and the signature (its info, and its value when `w` has a
SignatureValue element) from `w`. Each of the three auxiliary fields is settled on its
own, whatever happens to the other two: residualEnergy keeps its value when the element
is absent or not 4 bytes long and is read from the element otherwise; the same for
initialHop; idsList keeps its value when the element is absent or its decoding throws,
and is the decoded list otherwise. -/
theorem data_wireDecode_auxiliary_fields (cd : Codecs) (t : TlvTypes) (d : Data)
    (wire : Block) (els : List Element) (nb mb cb ib : Block) (name : Name) (mi : MetaInfo)
    (hp : parseElements wire.value [] = .ok els)
    (hn : findBlock els t.Name = some nb) (hnd : cd.nameDecode nb = .ok name)
    (hm : findBlock els t.MetaInfo = some mb) (hmd : cd.metaInfoDecode mb = .ok mi)
    (hc : findBlock els t.Content = some cb)
    (hi : findBlock els t.SignatureInfo = some ib) (hiok : cd.signatureInfoOk ib = true) :
    (d.wireDecode cd t wire).1 = .ok ()
    ∧ (d.wireDecode cd t wire).2.m_name = name
    ∧ (d.wireDecode cd t wire).2.m_metaInfo = mi
    ∧ (d.wireDecode cd t wire).2.m_content = cb
    ∧ (d.wireDecode cd t wire).2.m_signature.info = ib
    ∧ (∀ v, findBlock els t.SignatureValue = some v →
        (d.wireDecode cd t wire).2.m_signature.value = v)
    ∧ ((∀ v, findBlock els t.ResidualEnergy = some v → v.value.length ≠ 4) →
        (d.wireDecode cd t wire).2.m_residualEnergy = d.m_residualEnergy)
    ∧ (∀ v, findBlock els t.ResidualEnergy = some v → v.value.length = 4 →
        (d.wireDecode cd t wire).2.m_residualEnergy = u32OfBytes v.value)
    ∧ ((∀ v, findBlock els t.InitialHop = some v → v.value.length ≠ 4) →
        (d.wireDecode cd t wire).2.m_initialHop = d.m_initialHop)
    ∧ (∀ v, findBlock els t.InitialHop = some v → v.value.length = 4 →
        (d.wireDecode cd t wire).2.m_initialHop = u32OfBytes v.value)
    ∧ (findElement els t.IdsList = none →
        (d.wireDecode cd t wire).2.m_idsList = d.m_idsList)
    ∧ (∀ val e, findElement els t.IdsList = some val →
        Data.wireDecodeIdsList val = .error e →
        (d.wireDecode cd t wire).2.m_idsList = d.m_idsList)
    ∧ (∀ val v, findElement els t.IdsList = some val →
        Data.wireDecodeIdsList val = .ok v →
        (d.wireDecode cd t wire).2.m_idsList = v) := by
  rw [Data.wireDecode_stages cd t d wire els nb mb cb ib name mi hp hn hnd hm hmd hc hi hiok]
  dsimp only
  refine ⟨rfl, ?_, ?_, ?_, ?_, ?_, ?_, ?_, ?_, ?_, ?_, ?_, ?_⟩
  · rw [(decodeIdsList_fields t els _).1, (decodeInitialHop_fields t els _).1,
      (decodeResidualEnergy_fields t els _).1, (decodeSignatureValue_fields t els _).1]
  · rw [(decodeIdsList_fields t els _).2.1, (decodeInitialHop_fields t els _).2.1,
      (decodeResidualEnergy_fields t els _).2.1, (decodeSignatureValue_fields t els _).2.1]
  · rw [(decodeIdsList_fields t els _).2.2.1, (decodeInitialHop_fields t els _).2.2.1,
      (decodeResidualEnergy_fields t els _).2.2.1,
      (decodeSignatureValue_fields t els _).2.2.1]
  · rw [(decodeIdsList_fields t els _).2.2.2.1, (decodeInitialHop_fields t els _).2.2.2.1,
      (decodeResidualEnergy_fields t els _).2.2.2.1,
      (decodeSignatureValue_fields t els _).2.2.2.1]
  · intro v hv
    rw [(decodeIdsList_fields t els _).2.2.2.1, (decodeInitialHop_fields t els _).2.2.2.1,
      (decodeResidualEnergy_fields t els _).2.2.2.1]
    exact (decodeSignatureValue_fields t els _).2.2.2.2.2.2.2.1 v hv
  · intro hall
    rw [(decodeIdsList_fields t els _).2.2.2.2.1,
      (decodeInitialHop_fields t els _).2.2.2.2.1,
      (decodeResidualEnergy_fields t els _).2.2.2.2.2.2.2 hall,
      (decodeSignatureValue_fields t els _).2.2.2.2.1]
  · intro v hv hl
    rw [(decodeIdsList_fields t els _).2.2.2.2.1,
      (decodeInitialHop_fields t els _).2.2.2.2.1]
    exact (decodeResidualEnergy_fields t els _).2.2.2.2.2.2.1 v hv hl
  · intro hall
    rw [(decodeIdsList_fields t els _).2.2.2.2.2.1,
      (decodeInitialHop_fields t els _).2.2.2.2.2.2.2 hall,
      (decodeResidualEnergy_fields t els _).2.2.2.2.1,
      (decodeSignatureValue_fields t els _).2.2.2.2.2.1]
  · intro v hv hl
    rw [(decodeIdsList_fields t els _).2.2.2.2.2.1]
    exact (decodeInitialHop_fields t els _).2.2.2.2.2.2.1 v hv hl
  · intro hnone
    rw [(decodeIdsList_fields t els _).2.2.2.2.2.2.1 hnone,
      (decodeInitialHop_fields t els _).2.2.2.2.2.1,
      (decodeResidualEnergy_fields t els _).2.2.2.2.2.1,
      (decodeSignatureValue_fields t els _).2.2.2.2.2.2.1]
  · intro val e hv he
    rw [(decodeIdsList_fields t els _).2.2.2.2.2.2.2.1 val e hv he,
      (decodeInitialHop_fields t els _).2.2.2.2.2.1,
      (decodeResidualEnergy_fields t els _).2.2.2.2.2.1,
      (decodeSignatureValue_fields t els _).2.2.2.2.2.2.1]
  · intro val v hv hd
    exact (decodeIdsList_fields t els _).2.2.2.2.2.2.2.2 val v hv hd

/-- C14, on a sample: a block whose ResidualEnergy value is 2 bytes long decodes; the
energy stays 77, the initial hop is read (9), the list of ids is kept, and the required
fields come from the block. -/
theorem data_wireDecode_auxiliary_fields_witness :
    (signedData.wireDecode sampleCodecs sampleTlv shortEnergyWire).1 = .ok ()
    ∧ (signedData.wireDecode sampleCodecs sampleTlv shortEnergyWire).2.m_name = [comp [97]]
    ∧ (signedData.wireDecode sampleCodecs sampleTlv shortEnergyWire).2.m_content = ⟨21, [9]⟩
    ∧ (signedData.wireDecode sampleCodecs sampleTlv shortEnergyWire).2.m_signature
        = ⟨⟨22, [27, 1, 1]⟩, ⟨23, [170]⟩⟩
    ∧ (signedData.wireDecode sampleCodecs sampleTlv shortEnergyWire).2.m_residualEnergy = 77
    ∧ (signedData.wireDecode sampleCodecs sampleTlv shortEnergyWire).2.m_initialHop = 9
    ∧ (signedData.wireDecode sampleCodecs sampleTlv shortEnergyWire).2.m_idsList = [5, 6] := by
  obtain ⟨h1, h2, _, h4, h5, h6, h7, _, _, h10, h11, _, _⟩ :=
    data_wireDecode_auxiliary_fields sampleCodecs sampleTlv signedData shortEnergyWire
      shortEnergyElements ⟨7, [8, 1, 97]⟩ ⟨20, [0]⟩ ⟨21, [9]⟩ ⟨22, [27, 1, 1]⟩ [comp [97]]
      ⟨0, -1, none⟩ (by rfl) (by rfl) (by rfl) (by rfl) (by rfl) (by rfl) (by rfl) (by rfl)
  have hv : findBlock shortEnergyElements sampleTlv.SignatureValue = some ⟨23, [170]⟩ := by
    rfl
  have he : findBlock shortEnergyElements sampleTlv.ResidualEnergy = some ⟨130, [1, 2]⟩ := by
    rfl
  have hh : findBlock shortEnergyElements sampleTlv.InitialHop = some ⟨131, [9, 0, 0, 0]⟩ := by
    rfl
  refine ⟨h1, h2, h4, ?_, ?_, ?_, h11 (by rfl)⟩
  · have h6v := h6 _ hv
    revert h5 h6v
    generalize (signedData.wireDecode sampleCodecs sampleTlv shortEnergyWire).2.m_signature = sg
    intro h5 h6v
    cases sg
    cases h5
    cases h6v
    rfl
  · refine h7 ?_
    intro v hv2
    rw [he] at hv2
    cases hv2
    decide
  · rw [h10 _ hh (by rfl)]
    rfl


theorem Interest.wireDecode_failure_frame (cd : Codecs) (t : TlvTypes) (x : Interest)
    (wire : Block) :
    (x.wireDecode cd t wire).1 = .ok ()
    ∨ ((x.wireDecode cd t wire).2.m_wire = some wire
        ∧ (x.wireDecode cd t wire).2.m_forwardingHint = x.m_forwardingHint) := by
  unfold Interest.wireDecode
  dsimp only
  repeat' split
  all_goals first
    | exact Or.inl rfl
    | exact Or.inr ⟨rfl, rfl⟩

theorem Data.decode_failure_frame (cd : Codecs) (t : TlvTypes) (d : Data)
    (wire : Block) :
    (d.wireDecode cd t wire).1 = .ok ()
    ∨ ((d.wireDecode cd t wire).2.m_wire = some wire
        ∧ (d.wireDecode cd t wire).2.m_fullName = []
        ∧ (d.wireDecode cd t wire).2.m_signature.value = d.m_signature.value
        ∧ (d.wireDecode cd t wire).2.m_residualEnergy = d.m_residualEnergy
        ∧ (d.wireDecode cd t wire).2.m_initialHop = d.m_initialHop
        ∧ (d.wireDecode cd t wire).2.m_forwarderId = d.m_forwarderId
        ∧ (d.wireDecode cd t wire).2.m_idsList = d.m_idsList) := by
  unfold Data.wireDecode
  dsimp only
  repeat' split
  all_goals first
    | exact Or.inl rfl
    | exact Or.inr ⟨rfl, rfl, rfl, rfl, rfl, rfl, rfl⟩


theorem Interest.wireDecode_of_parse_error (cd : Codecs) (t : TlvTypes) (x : Interest)
    (wire : Block) (e : Exn) (hp : parseElements wire.value [] = .error e) :
    x.wireDecode cd t wire = (.error e, { x with m_wire := some wire }) := by
  unfold Interest.wireDecode
  simp only [hp]

theorem Interest.wireDecode_of_wrong_type (cd : Codecs) (t : TlvTypes) (x : Interest)
    (wire : Block) (els : List Element) (hp : parseElements wire.value [] = .ok els)
    (hty : wire.type ≠ t.Interest) :
    x.wireDecode cd t wire = (.error .interestError, { x with m_wire := some wire }) := by
  unfold Interest.wireDecode
  simp only [hp, ne_eq, hty, not_false_eq_true, if_true]

theorem Data.decode_of_parse_error (cd : Codecs) (t : TlvTypes) (d : Data)
    (wire : Block) (e : Exn) (hp : parseElements wire.value [] = .error e) :
    d.wireDecode cd t wire = (.error e, { d with m_fullName := [], m_wire := some wire }) := by
  unfold Data.wireDecode
  simp only [hp]

theorem Data.decode_of_no_name (cd : Codecs) (t : TlvTypes) (d : Data)
    (wire : Block) (els : List Element) (hp : parseElements wire.value [] = .ok els)
    (hn : findBlock els t.Name = none) :
    d.wireDecode cd t wire
      = (.error .tlvError, { d with m_fullName := [], m_wire := some wire }) := by
  unfold Data.wireDecode
  simp only [hp, getBlock, hn]

theorem Data.decode_of_name_error (cd : Codecs) (t : TlvTypes) (d : Data)
    (wire : Block) (els : List Element) (nb : Block) (e : Exn)
    (hp : parseElements wire.value [] = .ok els)
    (hn : findBlock els t.Name = some nb) (hnd : cd.nameDecode nb = .error e) :
    d.wireDecode cd t wire = (.error e, { d with m_fullName := [], m_wire := some wire }) := by
  unfold Data.wireDecode
  simp only [hp, getBlock, hn, hnd]

theorem Data.decode_of_no_metaInfo (cd : Codecs) (t : TlvTypes) (d : Data)
    (wire : Block) (els : List Element) (nb : Block) (name : Name)
    (hp : parseElements wire.value [] = .ok els)
    (hn : findBlock els t.Name = some nb) (hnd : cd.nameDecode nb = .ok name)
    (hm : findBlock els t.MetaInfo = none) :
    d.wireDecode cd t wire
      = (.error .tlvError, { d with m_name := name, m_fullName := [], m_wire := some wire }) := by
  unfold Data.wireDecode
  simp only [hp, getBlock, hn, hnd, hm]

theorem Data.decode_of_metaInfo_error (cd : Codecs) (t : TlvTypes) (d : Data)
    (wire : Block) (els : List Element) (nb mb : Block) (name : Name) (e : Exn)
    (hp : parseElements wire.value [] = .ok els)
    (hn : findBlock els t.Name = some nb) (hnd : cd.nameDecode nb = .ok name)
    (hm : findBlock els t.MetaInfo = some mb) (hmd : cd.metaInfoDecode mb = .error e) :
    d.wireDecode cd t wire
      = (.error e, { d with m_name := name, m_fullName := [], m_wire := some wire }) := by
  unfold Data.wireDecode
  simp only [hp, getBlock, hn, hnd, hm, hmd]

theorem Data.decode_of_no_content (cd : Codecs) (t : TlvTypes) (d : Data)
    (wire : Block) (els : List Element) (nb mb : Block) (name : Name) (mi : MetaInfo)
    (hp : parseElements wire.value [] = .ok els)
    (hn : findBlock els t.Name = some nb) (hnd : cd.nameDecode nb = .ok name)
    (hm : findBlock els t.MetaInfo = some mb) (hmd : cd.metaInfoDecode mb = .ok mi)
    (hc : findBlock els t.Content = none) :
    d.wireDecode cd t wire
      = (.error .tlvError,
          { d with m_name := name, m_metaInfo := mi, m_fullName := [],
                   m_wire := some wire }) := by
  unfold Data.wireDecode
  simp only [hp, getBlock, hn, hnd, hm, hmd, hc]

theorem Data.decode_of_no_signatureInfo (cd : Codecs) (t : TlvTypes) (d : Data)
    (wire : Block) (els : List Element) (nb mb cb : Block) (name : Name) (mi : MetaInfo)
    (hp : parseElements wire.value [] = .ok els)
    (hn : findBlock els t.Name = some nb) (hnd : cd.nameDecode nb = .ok name)
    (hm : findBlock els t.MetaInfo = some mb) (hmd : cd.metaInfoDecode mb = .ok mi)
    (hc : findBlock els t.Content = some cb)
    (hi : findBlock els t.SignatureInfo = none) :
    d.wireDecode cd t wire
      = (.error .tlvError,
          { d with m_name := name, m_metaInfo := mi, m_content := cb, m_fullName := [],
                   m_wire := some wire }) := by
  unfold Data.wireDecode
  simp only [hp, getBlock, hn, hnd, hm, hmd, hc, hi]

theorem Data.decode_of_bad_signatureInfo (cd : Codecs) (t : TlvTypes) (d : Data)
    (wire : Block) (els : List Element) (nb mb cb ib : Block) (name : Name) (mi : MetaInfo)
    (hp : parseElements wire.value [] = .ok els)
    (hn : findBlock els t.Name = some nb) (hnd : cd.nameDecode nb = .ok name)
    (hm : findBlock els t.MetaInfo = some mb) (hmd : cd.metaInfoDecode mb = .ok mi)
    (hc : findBlock els t.Content = some cb)
    (hi : findBlock els t.SignatureInfo = some ib) (hiok : cd.signatureInfoOk ib = false) :
    d.wireDecode cd t wire
      = (.error .tlvError,
          { d with m_name := name, m_metaInfo := mi, m_content := cb,
                   m_signature := { d.m_signature with info := ib }, m_fullName := [],
                   m_wire := some wire }) := by
  unfold Data.wireDecode
  simp only [hp, getBlock, hn, hnd, hm, hmd, hc, hi, hiok, Bool.not_false, if_true]

/-- What a successful `Data::wireDecode` has seen in the block: it parses, and the four
required elements are present and decode. -/
theorem Data.decode_inv (cd : Codecs) (t : TlvTypes) (d : Data) (wire : Block)
    (h : (d.wireDecode cd t wire).1 = .ok ()) :
    ∃ els nb name mb mi cb ib,
      parseElements wire.value [] = .ok els
      ∧ findBlock els t.Name = some nb ∧ cd.nameDecode nb = .ok name
      ∧ findBlock els t.MetaInfo = some mb ∧ cd.metaInfoDecode mb = .ok mi
      ∧ findBlock els t.Content = some cb
      ∧ findBlock els t.SignatureInfo = some ib ∧ cd.signatureInfoOk ib = true := by
  cases hp : parseElements wire.value [] with
  | error e => rw [Data.decode_of_parse_error cd t d wire e hp] at h; cases h
  | ok els =>
  cases hn : findBlock els t.Name with
  | none => rw [Data.decode_of_no_name cd t d wire els hp hn] at h; cases h
  | some nb =>
  cases hnd : cd.nameDecode nb with
  | error e => rw [Data.decode_of_name_error cd t d wire els nb e hp hn hnd] at h; cases h
  | ok name =>
  cases hm : findBlock els t.MetaInfo with
  | none => rw [Data.decode_of_no_metaInfo cd t d wire els nb name hp hn hnd hm] at h; cases h
  | some mb =>
  cases hmd : cd.metaInfoDecode mb with
  | error e =>
    rw [Data.decode_of_metaInfo_error cd t d wire els nb mb name e hp hn hnd hm hmd] at h
    cases h
  | ok mi =>
  cases hc : findBlock els t.Content with
  | none =>
    rw [Data.decode_of_no_content cd t d wire els nb mb name mi hp hn hnd hm hmd hc] at h
    cases h
  | some cb =>
  cases hi : findBlock els t.SignatureInfo with
  | none =>
    rw [Data.decode_of_no_signatureInfo cd t d wire els nb mb cb name mi hp hn hnd hm hmd
      hc hi] at h
    cases h
  | some ib =>
  cases hiok : cd.signatureInfoOk ib with
  | false =>
    rw [Data.decode_of_bad_signatureInfo cd t d wire els nb mb cb ib name mi hp hn hnd hm
      hmd hc hi hiok] at h
    cases h
  | true => exact ⟨els, nb, name, mb, mi, cb, ib, rfl, hn, hnd, hm, hmd, hc, hi, hiok⟩


/-- C15, as the code has it. For a block that parses, `Data::wireDecode` fails whenever
the Name, MetaInfo, Content or SignatureInfo element is missing: the error is the one
`Block::get` raises (a TLV error) when the steps before the missing element went through,
and in every case the decode stops there, leaving the signature value, residualEnergy,
initialHop and idsList of the packet as they were. The SignatureValue element is not
required: when the four required elements are present and decode, the call succeeds, and
without a SignatureValue element the packet keeps the signature value it had. -/
theorem data_wireDecode_required_elements (cd : Codecs) (t : TlvTypes) (d : Data)
    (wire : Block) (els : List Element) (hp : parseElements wire.value [] = .ok els) :
    (findBlock els t.Name = none → (d.wireDecode cd t wire).1 = .error Exn.tlvError)
    ∧ (∀ nb name, findBlock els t.Name = some nb → cd.nameDecode nb = .ok name →
        findBlock els t.MetaInfo = none →
        (d.wireDecode cd t wire).1 = .error Exn.tlvError)
    ∧ (∀ nb name mb mi, findBlock els t.Name = some nb → cd.nameDecode nb = .ok name →
        findBlock els t.MetaInfo = some mb → cd.metaInfoDecode mb = .ok mi →
        findBlock els t.Content = none →
        (d.wireDecode cd t wire).1 = .error Exn.tlvError)
    ∧ (∀ nb name mb mi cb, findBlock els t.Name = some nb → cd.nameDecode nb = .ok name →
        findBlock els t.MetaInfo = some mb → cd.metaInfoDecode mb = .ok mi →
        findBlock els t.Content = some cb → findBlock els t.SignatureInfo = none →
        (d.wireDecode cd t wire).1 = .error Exn.tlvError)
    ∧ ((findBlock els t.Name = none ∨ findBlock els t.MetaInfo = none
          ∨ findBlock els t.Content = none ∨ findBlock els t.SignatureInfo = none) →
        ∃ e, (d.wireDecode cd t wire).1 = .error e
          ∧ (d.wireDecode cd t wire).2.m_signature.value = d.m_signature.value
          ∧ (d.wireDecode cd t wire).2.m_residualEnergy = d.m_residualEnergy
          ∧ (d.wireDecode cd t wire).2.m_initialHop = d.m_initialHop
          ∧ (d.wireDecode cd t wire).2.m_idsList = d.m_idsList)
    ∧ (∀ nb name mb mi cb ib, findBlock els t.Name = some nb → cd.nameDecode nb = .ok name →
        findBlock els t.MetaInfo = some mb → cd.metaInfoDecode mb = .ok mi →
        findBlock els t.Content = some cb → findBlock els t.SignatureInfo = some ib →
        cd.signatureInfoOk ib = true →
        (d.wireDecode cd t wire).1 = .ok ()
        ∧ (findBlock els t.SignatureValue = none →
            (d.wireDecode cd t wire).2.m_signature.value = d.m_signature.value)) := by
  refine ⟨?_, ?_, ?_, ?_, ?_, ?_⟩
  · intro hn
    rw [Data.decode_of_no_name cd t d wire els hp hn]
  · intro nb name hn hnd hm
    rw [Data.decode_of_no_metaInfo cd t d wire els nb name hp hn hnd hm]
  · intro nb name mb mi hn hnd hm hmd hc
    rw [Data.decode_of_no_content cd t d wire els nb mb name mi hp hn hnd hm hmd hc]
  · intro nb name mb mi cb hn hnd hm hmd hc hi
    rw [Data.decode_of_no_signatureInfo cd t d wire els nb mb cb name mi hp hn hnd hm hmd
      hc hi]
  · intro hmiss
    have hnot : (d.wireDecode cd t wire).1 ≠ .ok () := by
      intro hok
      obtain ⟨els2, nb, name, mb, mi, cb, ib, hp2, hn, _, hm, _, hc, hi, _⟩ :=
        Data.decode_inv cd t d wire hok
      rw [hp] at hp2
      cases hp2
      rcases hmiss with h | h | h | h
      · rw [hn] at h
        cases h
      · rw [hm] at h
        cases h
      · rw [hc] at h
        cases h
      · rw [hi] at h
        cases h
    rcases Data.decode_failure_frame cd t d wire with hok | ⟨_, _, h3, h4, h5, _, h7⟩
    · exact absurd hok hnot
    · cases hr : (d.wireDecode cd t wire).1 with
      | ok u => exact absurd hr hnot
      | error e => exact ⟨e, rfl, h3, h4, h5, h7⟩
  · intro nb name mb mi cb ib hn hnd hm hmd hc hi hiok
    rw [Data.wireDecode_stages cd t d wire els nb mb cb ib name mi hp hn hnd hm hmd hc hi hiok]
    dsimp only
    refine ⟨rfl, ?_⟩
    intro hv
    rw [(decodeIdsList_fields t els _).2.2.2.1, (decodeInitialHop_fields t els _).2.2.2.1,
      (decodeResidualEnergy_fields t els _).2.2.2.1,
      (decodeSignatureValue_fields t els _).2.2.2.2.2.2.2.2 hv]


/-- C15, on a sample: a block without a SignatureValue element decodes. -/
theorem data_wireDecode_required_elements_witness :
    parseElements noSignatureValueWire.value [] = .ok noSignatureValueElements
    ∧ ((sampleData [comp [98]] [] none).wireDecode sampleCodecs sampleTlv
        noSignatureValueWire).1 = .ok ()
    ∧ ((sampleData [comp [98]] [] none).wireDecode sampleCodecs sampleTlv
        noSignatureValueWire).2.m_signature.value = ⟨23, []⟩ := by
  obtain ⟨_, _, _, _, _, h⟩ :=
    data_wireDecode_required_elements sampleCodecs sampleTlv (sampleData [comp [98]] [] none)
      noSignatureValueWire noSignatureValueElements (by rfl)
  obtain ⟨h1, h2⟩ := h ⟨7, [8, 1, 97]⟩ [comp [97]] ⟨20, [0]⟩ ⟨0, -1, none⟩ ⟨21, []⟩
    ⟨22, [27, 1, 1]⟩ (by rfl) (by rfl) (by rfl) (by rfl) (by rfl) (by rfl) (by rfl)
  exact ⟨by rfl, h1, h2 (by rfl)⟩

/-- C15, the claim as stated fails: this block has Name, MetaInfo, Content and
SignatureInfo and no SignatureValue, and `Data::wireDecode` accepts it. -/
theorem data_wireDecode_signatureValue_counterexample :
    parseElements noSignatureValueWire.value [] = .ok noSignatureValueElements
    ∧ findBlock noSignatureValueElements sampleTlv.SignatureValue = none
    ∧ ((sampleData [comp [98]] [] none).wireDecode sampleCodecs sampleTlv
        noSignatureValueWire).1 = .ok ()
    ∧ ((sampleData [comp [98]] [] none).wireDecode sampleCodecs sampleTlv
        noSignatureValueWire).2.m_name = [comp [97]] := by
  refine ⟨by rfl, by rfl, by rfl, by rfl⟩

/-- What `Interest::wireDecode` leaves in the fields whose elements it has decoded: each
holds the value of the block as soon as the steps up to it went through, whatever
happens at a later step. -/
theorem Interest.wireDecode_decoded_fields (cd : Codecs) (t : TlvTypes) (x : Interest)
    (wire : Block) (els : List Element) (nb : Block) (name : Name)
    (hp : parseElements wire.value [] = .ok els) (hty : wire.type = t.Interest)
    (hn : findBlock els t.Name = some nb) (hnd : cd.nameDecode nb = .ok name) :
    (x.wireDecode cd t wire).2.m_name = name
    ∧ ∀ sel, (∀ val, findBlock els t.Selectors = some val → cd.selectorsDecode val = .ok sel) →
        (findBlock els t.Selectors = none → sel = Selectors.default) →
      (x.wireDecode cd t wire).2.m_selectors = sel
      ∧ ∀ vn, findBlock els t.Nonce = some vn → vn.value.length = 4 →
        (x.wireDecode cd t wire).2.m_nonce = some (u32OfBytes vn.value)
        ∧ ∀ vf, findBlock els t.ForwarderId = some vf → vf.value.length = 4 →
          (x.wireDecode cd t wire).2.m_forwarderId = u32OfBytes vf.value
          ∧ ∀ vm, findBlock els t.ForwardingMode = some vm → vm.value.length = 4 →
            (x.wireDecode cd t wire).2.m_forwardingMode = u32OfBytes vm.value
            ∧ ∀ life, (∀ val, findBlock els t.InterestLifetime = some val →
                  ∃ v, cd.readNonNegativeInteger val = .ok v ∧ life = toInt64 v) →
                (findBlock els t.InterestLifetime = none →
                  life = DEFAULT_INTEREST_LIFETIME) →
              (x.wireDecode cd t wire).2.m_interestLifetime = life := by
  refine ⟨?_, ?_⟩
  · unfold Interest.wireDecode
    simp only [hp, ne_eq, hty, not_true_eq_false, if_false, getBlock, hn, hnd]
    repeat' split
    all_goals rfl
  intro sel hs1 hs2
  have hs3 : (match findBlock els t.Selectors with
      | some val => cd.selectorsDecode val
      | none => Except.ok Selectors.default) = .ok sel := by
    cases hs : findBlock els t.Selectors with
    | none => rw [hs2 hs]
    | some val => exact hs1 val hs
  refine ⟨?_, ?_⟩
  · unfold Interest.wireDecode
    simp only [hp, ne_eq, hty, not_true_eq_false, if_false, getBlock, hn, hnd, hs3]
    repeat' split
    all_goals rfl
  intro vn hvn hvnl
  refine ⟨?_, ?_⟩
  · unfold Interest.wireDecode
    simp only [hp, ne_eq, hty, not_true_eq_false, if_false, getBlock, hn, hnd, hs3, hvn, hvnl]
    repeat' split
    all_goals rfl
  intro vf hvf hvfl
  refine ⟨?_, ?_⟩
  · unfold Interest.wireDecode
    simp only [hp, ne_eq, hty, not_true_eq_false, if_false, getBlock, hn, hnd, hs3, hvn, hvnl,
      hvf, hvfl]
    repeat' split
    all_goals rfl
  intro vm hvm hvml
  refine ⟨?_, ?_⟩
  · unfold Interest.wireDecode
    simp only [hp, ne_eq, hty, not_true_eq_false, if_false, getBlock, hn, hnd, hs3, hvn, hvnl,
      hvf, hvfl, hvm, hvml]
    repeat' split
    all_goals rfl
  intro life hl1 hl2
  have hl3 : (match findBlock els t.InterestLifetime with
      | some val =>
        match cd.readNonNegativeInteger val with
        | .error e => Except.error e
        | .ok v => .ok (toInt64 v)
      | none => Except.ok DEFAULT_INTEREST_LIFETIME) = .ok life := by
    cases hl : findBlock els t.InterestLifetime with
    | none => rw [hl2 hl]
    | some val =>
      obtain ⟨v, hv, hlv⟩ := hl1 val hl
      simp only [hv, hlv]
  unfold Interest.wireDecode
  simp only [hp, ne_eq, hty, not_true_eq_false, if_false, getBlock, hn, hnd, hs3, hvn, hvnl,
    hvf, hvfl, hvm, hvml, hl3]
  repeat' split
  all_goals rfl

/-- Where a failed `Interest::wireDecode` has failed: at a step before the ForwardingHint
element is decoded (the block does not parse, is not an Interest, has no Name or one the
name decoder rejects, has Selectors the decoder rejects, has no 4-byte Nonce, ForwarderId
or ForwardingMode, or has an InterestLifetime the reader rejects), or else in the
ForwardingHint decoder, whose error is then the error of the call. -/
theorem Interest.wireDecode_failure_point (cd : Codecs) (t : TlvTypes) (x : Interest)
    (wire : Block) (e : Exn) (he : (x.wireDecode cd t wire).1 = .error e) :
    ((∃ e2, parseElements wire.value [] = .error e2)
      ∨ wire.type ≠ t.Interest
      ∨ ∃ els, parseElements wire.value [] = .ok els
        ∧ (findBlock els t.Name = none
          ∨ (∃ nb e2, findBlock els t.Name = some nb ∧ cd.nameDecode nb = .error e2)
          ∨ (∃ val e2, findBlock els t.Selectors = some val
              ∧ cd.selectorsDecode val = .error e2)
          ∨ (∀ v, findBlock els t.Nonce = some v → v.value.length ≠ 4)
          ∨ (∀ v, findBlock els t.ForwarderId = some v → v.value.length ≠ 4)
          ∨ (∀ v, findBlock els t.ForwardingMode = some v → v.value.length ≠ 4)
          ∨ (∃ val e2, findBlock els t.InterestLifetime = some val
              ∧ cd.readNonNegativeInteger val = .error e2)))
    ∨ (∃ els val, parseElements wire.value [] = .ok els
        ∧ findBlock els t.ForwardingHint = some val
        ∧ cd.forwardingHintDecode val = .error e) := by
  cases hp : parseElements wire.value [] with
  | error e2 => exact Or.inl (Or.inl ⟨e2, rfl⟩)
  | ok els =>
  by_cases hty : wire.type = t.Interest
  swap
  · exact Or.inl (Or.inr (Or.inl hty))
  cases hn : findBlock els t.Name with
  | none => exact Or.inl (Or.inr (Or.inr ⟨els, rfl, Or.inl hn⟩))
  | some nb =>
  cases hnd : cd.nameDecode nb with
  | error e2 => exact Or.inl (Or.inr (Or.inr ⟨els, rfl, Or.inr (Or.inl ⟨nb, e2, hn, hnd⟩)⟩))
  | ok name =>
  have hsel : (∃ val e2, findBlock els t.Selectors = some val
        ∧ cd.selectorsDecode val = .error e2)
      ∨ ∃ sel, (match findBlock els t.Selectors with
          | some val => cd.selectorsDecode val
          | none => Except.ok Selectors.default) = .ok sel := by
    cases hs : findBlock els t.Selectors with
    | none => exact Or.inr ⟨_, rfl⟩
    | some val =>
      cases hsd : cd.selectorsDecode val with
      | error e2 => exact Or.inl ⟨val, e2, rfl, hsd⟩
      | ok sel => exact Or.inr ⟨sel, hsd⟩
  rcases hsel with hS | ⟨sel, hs3⟩
  · exact Or.inl (Or.inr (Or.inr ⟨els, rfl, Or.inr (Or.inr (Or.inl hS))⟩))
  have hfour : ∀ ty : Nat, (∀ v, findBlock els ty = some v → v.value.length ≠ 4)
      ∨ ∃ v, findBlock els ty = some v ∧ v.value.length = 4 := by
    intro ty
    cases hv : findBlock els ty with
    | none => exact Or.inl (fun _ h => Option.noConfusion h)
    | some v =>
      by_cases hl : v.value.length = 4
      · exact Or.inr ⟨v, rfl, hl⟩
      · refine Or.inl ?_
        intro v2 h2
        cases h2
        exact hl
  rcases hfour t.Nonce with hN | ⟨vn, hvn, hvnl⟩
  · exact Or.inl (Or.inr (Or.inr ⟨els, rfl, Or.inr (Or.inr (Or.inr (Or.inl hN)))⟩))
  rcases hfour t.ForwarderId with hF | ⟨vf, hvf, hvfl⟩
  · exact Or.inl (Or.inr (Or.inr ⟨els, rfl, Or.inr (Or.inr (Or.inr (Or.inr (Or.inl hF))))⟩))
  rcases hfour t.ForwardingMode with hM | ⟨vm, hvm, hvml⟩
  · exact Or.inl (Or.inr (Or.inr ⟨els, rfl,
      Or.inr (Or.inr (Or.inr (Or.inr (Or.inr (Or.inl hM)))))⟩))
  have hlife : (∃ val e2, findBlock els t.InterestLifetime = some val
        ∧ cd.readNonNegativeInteger val = .error e2)
      ∨ ∃ life, (match findBlock els t.InterestLifetime with
          | some val =>
            match cd.readNonNegativeInteger val with
            | .error e => Except.error e
            | .ok v => .ok (toInt64 v)
          | none => Except.ok DEFAULT_INTEREST_LIFETIME) = .ok life := by
    cases hl : findBlock els t.InterestLifetime with
    | none => exact Or.inr ⟨_, rfl⟩
    | some val =>
      cases hv : cd.readNonNegativeInteger val with
      | error e2 => exact Or.inl ⟨val, e2, rfl, hv⟩
      | ok v => exact Or.inr ⟨toInt64 v, by simp only [hv]⟩
  rcases hlife with hL | ⟨life, hl3⟩
  · exact Or.inl (Or.inr (Or.inr ⟨els, rfl,
      Or.inr (Or.inr (Or.inr (Or.inr (Or.inr (Or.inr hL)))))⟩))
  unfold Interest.wireDecode at he
  simp only [hp, ne_eq, hty, not_true_eq_false, if_false, getBlock, hn, hnd, hs3, hvn, hvnl,
    hvf, hvfl, hvm, hvml, hl3] at he
  cases hh : findBlock els t.ForwardingHint with
  | none =>
    simp only [hh] at he
    cases he
  | some val =>
    cases hhd : cd.forwardingHintDecode val with
    | ok hint =>
      simp only [hh, hhd] at he
      cases he
    | error e2 =>
      simp only [hh, hhd] at he
      cases he
      exact Or.inr ⟨els, val, rfl, hh, hhd⟩

/-- What a failed `Data::wireDecode` leaves in the required fields whose elements it has
decoded before the failing step. -/
theorem Data.decode_decoded_fields (cd : Codecs) (t : TlvTypes) (d : Data) (wire : Block)
    (e : Exn) (he : (d.wireDecode cd t wire).1 = .error e)
    (els : List Element) (nb : Block) (name : Name)
    (hp : parseElements wire.value [] = .ok els)
    (hn : findBlock els t.Name = some nb) (hnd : cd.nameDecode nb = .ok name) :
    (d.wireDecode cd t wire).2.m_name = name
    ∧ ∀ mb mi, findBlock els t.MetaInfo = some mb → cd.metaInfoDecode mb = .ok mi →
      (d.wireDecode cd t wire).2.m_metaInfo = mi
      ∧ ∀ cb, findBlock els t.Content = some cb →
        (d.wireDecode cd t wire).2.m_content = cb := by
  have key : ∀ mb mi, findBlock els t.MetaInfo = some mb → cd.metaInfoDecode mb = .ok mi →
      (d.wireDecode cd t wire).2.m_name = name
      ∧ (d.wireDecode cd t wire).2.m_metaInfo = mi
      ∧ ∀ cb, findBlock els t.Content = some cb →
        (d.wireDecode cd t wire).2.m_content = cb := by
    intro mb mi hm hmd
    cases hc : findBlock els t.Content with
    | none =>
      rw [Data.decode_of_no_content cd t d wire els nb mb name mi hp hn hnd hm hmd hc]
      exact ⟨rfl, rfl, fun _ h => Option.noConfusion h⟩
    | some cb =>
      cases hi : findBlock els t.SignatureInfo with
      | none =>
        rw [Data.decode_of_no_signatureInfo cd t d wire els nb mb cb name mi hp hn hnd hm hmd
          hc hi]
        refine ⟨rfl, rfl, ?_⟩
        intro cb2 h2
        cases h2
        rfl
      | some ib =>
        cases hiok : cd.signatureInfoOk ib with
        | false =>
          rw [Data.decode_of_bad_signatureInfo cd t d wire els nb mb cb ib name mi hp hn hnd hm
            hmd hc hi hiok]
          refine ⟨rfl, rfl, ?_⟩
          intro cb2 h2
          cases h2
          rfl
        | true =>
          rw [Data.wireDecode_stages cd t d wire els nb mb cb ib name mi hp hn hnd hm hmd hc hi
            hiok] at he
          cases he
  cases hm : findBlock els t.MetaInfo with
  | none =>
    rw [Data.decode_of_no_metaInfo cd t d wire els nb name hp hn hnd hm]
    exact ⟨rfl, fun _ _ h => Option.noConfusion h⟩
  | some mb =>
    cases hmd : cd.metaInfoDecode mb with
    | error e2 =>
      rw [Data.decode_of_metaInfo_error cd t d wire els nb mb name e2 hp hn hnd hm hmd]
      refine ⟨rfl, ?_⟩
      intro mb2 mi2 h2 hd2
      cases h2
      rw [hmd] at hd2
      cases hd2
    | ok mi =>
      obtain ⟨k1, k2, k3⟩ := key mb mi hm hmd
      refine ⟨k1, ?_⟩
      intro mb2 mi2 h2 hd2
      cases h2
      rw [hmd] at hd2
      cases hd2
      exact ⟨k2, k3⟩

/-- C16, as the code has it. A failed `wireDecode` has replaced the cached wire by the
block it was given (and, for a Data, cleared the cached full name). Every field whose
element is decoded before the failing step holds the value of the block: for an Interest,
in decoding order, name, selectors, nonce, forwarderId, forwardingMode and lifetime, each
as soon as the steps up to it went through; for a Data name, metaInfo and content. What is
unchanged: for an Interest the forwarding hint whenever the failure comes before the
ForwardingHint element is decoded (any other failure is the error of the ForwardingHint
decoder), and every field but the cached wire when the block does not parse or is not of
type Interest; for a Data the signature value, residualEnergy, initialHop, forwarderId and
idsList, and every field but the cached wire and full name when the block does not parse
or has no Name element. -/
theorem wireDecode_failure_state (cd : Codecs) (t : TlvTypes) :
    (∀ (x : Interest) (wire : Block) (e : Exn), (x.wireDecode cd t wire).1 = .error e →
      (x.wireDecode cd t wire).2.m_wire = some wire
      ∧ (((∃ e2, parseElements wire.value [] = .error e2) ∨ wire.type ≠ t.Interest) →
          (x.wireDecode cd t wire).2 = { x with m_wire := some wire })
      ∧ (∀ els nb name, parseElements wire.value [] = .ok els → wire.type = t.Interest →
          findBlock els t.Name = some nb → cd.nameDecode nb = .ok name →
          (x.wireDecode cd t wire).2.m_name = name
          ∧ ∀ sel,
            (∀ val, findBlock els t.Selectors = some val → cd.selectorsDecode val = .ok sel) →
            (findBlock els t.Selectors = none → sel = Selectors.default) →
            (x.wireDecode cd t wire).2.m_selectors = sel
            ∧ ∀ vn, findBlock els t.Nonce = some vn → vn.value.length = 4 →
              (x.wireDecode cd t wire).2.m_nonce = some (u32OfBytes vn.value)
              ∧ ∀ vf, findBlock els t.ForwarderId = some vf → vf.value.length = 4 →
                (x.wireDecode cd t wire).2.m_forwarderId = u32OfBytes vf.value
                ∧ ∀ vm, findBlock els t.ForwardingMode = some vm → vm.value.length = 4 →
                  (x.wireDecode cd t wire).2.m_forwardingMode = u32OfBytes vm.value
                  ∧ ∀ life, (∀ val, findBlock els t.InterestLifetime = some val →
                        ∃ v, cd.readNonNegativeInteger val = .ok v ∧ life = toInt64 v) →
                      (findBlock els t.InterestLifetime = none →
                        life = DEFAULT_INTEREST_LIFETIME) →
                    (x.wireDecode cd t wire).2.m_interestLifetime = life)
      ∧ ((((∃ e2, parseElements wire.value [] = .error e2)
            ∨ wire.type ≠ t.Interest
            ∨ ∃ els, parseElements wire.value [] = .ok els
              ∧ (findBlock els t.Name = none
                ∨ (∃ nb e2, findBlock els t.Name = some nb ∧ cd.nameDecode nb = .error e2)
                ∨ (∃ val e2, findBlock els t.Selectors = some val
                    ∧ cd.selectorsDecode val = .error e2)
                ∨ (∀ v, findBlock els t.Nonce = some v → v.value.length ≠ 4)
                ∨ (∀ v, findBlock els t.ForwarderId = some v → v.value.length ≠ 4)
                ∨ (∀ v, findBlock els t.ForwardingMode = some v → v.value.length ≠ 4)
                ∨ (∃ val e2, findBlock els t.InterestLifetime = some val
                    ∧ cd.readNonNegativeInteger val = .error e2)))
          ∧ (x.wireDecode cd t wire).2.m_forwardingHint = x.m_forwardingHint)
        ∨ (∃ els val, parseElements wire.value [] = .ok els
            ∧ findBlock els t.ForwardingHint = some val
            ∧ cd.forwardingHintDecode val = .error e)))
    ∧ (∀ (d : Data) (wire : Block) (e : Exn), (d.wireDecode cd t wire).1 = .error e →
      (d.wireDecode cd t wire).2.m_wire = some wire
      ∧ (d.wireDecode cd t wire).2.m_fullName = []
      ∧ (d.wireDecode cd t wire).2.m_signature.value = d.m_signature.value
      ∧ (d.wireDecode cd t wire).2.m_residualEnergy = d.m_residualEnergy
      ∧ (d.wireDecode cd t wire).2.m_initialHop = d.m_initialHop
      ∧ (d.wireDecode cd t wire).2.m_forwarderId = d.m_forwarderId
      ∧ (d.wireDecode cd t wire).2.m_idsList = d.m_idsList
      ∧ (((∃ e2, parseElements wire.value [] = .error e2)
            ∨ (∃ els, parseElements wire.value [] = .ok els ∧ findBlock els t.Name = none)) →
          (d.wireDecode cd t wire).2 = { d with m_fullName := [], m_wire := some wire })
      ∧ (∀ els nb name, parseElements wire.value [] = .ok els →
          findBlock els t.Name = some nb → cd.nameDecode nb = .ok name →
          (d.wireDecode cd t wire).2.m_name = name
          ∧ ∀ mb mi, findBlock els t.MetaInfo = some mb → cd.metaInfoDecode mb = .ok mi →
            (d.wireDecode cd t wire).2.m_metaInfo = mi
            ∧ ∀ cb, findBlock els t.Content = some cb →
              (d.wireDecode cd t wire).2.m_content = cb)) := by
  constructor
  · intro x wire e he
    rcases Interest.wireDecode_failure_frame cd t x wire with hok | ⟨h1, h2⟩
    · rw [he] at hok
      cases hok
    · refine ⟨h1, ?_, ?_, ?_⟩
      · intro hcase
        cases hp : parseElements wire.value [] with
        | error e2 => rw [Interest.wireDecode_of_parse_error cd t x wire e2 hp]
        | ok els =>
          rcases hcase with ⟨e2, he2⟩ | hty
          · rw [hp] at he2
            cases he2
          · rw [Interest.wireDecode_of_wrong_type cd t x wire els hp hty]
      · intro els nb name hp hty hn hnd
        exact Interest.wireDecode_decoded_fields cd t x wire els nb name hp hty hn hnd
      · rcases Interest.wireDecode_failure_point cd t x wire e he with hearly | hhint
        · exact Or.inl ⟨hearly, h2⟩
        · exact Or.inr hhint
  · intro d wire e he
    rcases Data.decode_failure_frame cd t d wire with hok | ⟨h1, h2, h3, h4, h5, h6, h7⟩
    · rw [he] at hok
      cases hok
    · refine ⟨h1, h2, h3, h4, h5, h6, h7, ?_, ?_⟩
      · intro hcase
        rcases hcase with ⟨e2, he2⟩ | ⟨els, hp, hn⟩
        · rw [Data.decode_of_parse_error cd t d wire e2 he2]
        · rw [Data.decode_of_no_name cd t d wire els hp hn]
      · intro els nb name hp hn hnd
        exact Data.decode_decoded_fields cd t d wire e he els nb name hp hn hnd

/-- C16, on a sample: the encoded sample Interest is given a block with Name `/b`,
ForwarderId 3 and Nonce 9 and no ForwardingMode. The call fails; the Interest holds the
block as its wire and, from the block, the name, the empty selectors, the nonce and the
forwarderId; the forwarding hint is the one it had. -/
theorem wireDecode_failure_state_witness :
    (encodedInterest.wireDecode sampleCodecs sampleTlv noForwardingModeWire).1
        = .error Exn.interestError
    ∧ (encodedInterest.wireDecode sampleCodecs sampleTlv noForwardingModeWire).2.m_wire
        = some noForwardingModeWire
    ∧ (encodedInterest.wireDecode sampleCodecs sampleTlv noForwardingModeWire).2.m_name
        = [comp [98]]
    ∧ (encodedInterest.wireDecode sampleCodecs sampleTlv noForwardingModeWire).2.m_selectors
        = Selectors.default
    ∧ (encodedInterest.wireDecode sampleCodecs sampleTlv noForwardingModeWire).2.m_nonce
        = some 9
    ∧ (encodedInterest.wireDecode sampleCodecs sampleTlv noForwardingModeWire).2.m_forwarderId
        = 3
    ∧ (encodedInterest.wireDecode sampleCodecs sampleTlv noForwardingModeWire).2.m_forwardingHint
        = encodedInterest.m_forwardingHint := by
  have hfail : (encodedInterest.wireDecode sampleCodecs sampleTlv noForwardingModeWire).1
      = .error Exn.interestError := by rfl
  have hp : parseElements noForwardingModeWire.value [] = .ok noForwardingModeElements := by
    rfl
  obtain ⟨hw, _, hB, hC⟩ :=
    (wireDecode_failure_state sampleCodecs sampleTlv).1 encodedInterest noForwardingModeWire
      Exn.interestError hfail
  obtain ⟨hname, hrest⟩ := hB noForwardingModeElements ⟨7, [8, 1, 98]⟩ [comp [98]] hp (by rfl)
    (by rfl) (by rfl)
  have hsn : findBlock noForwardingModeElements sampleTlv.Selectors = none := by rfl
  obtain ⟨hsel, hrest⟩ := hrest Selectors.default
    (fun val h => by rw [hsn] at h; cases h) (fun _ => rfl)
  obtain ⟨hnonce, hrest⟩ := hrest ⟨10, [9, 0, 0, 0]⟩ (by rfl) (by rfl)
  obtain ⟨hfid, _⟩ := hrest ⟨128, [3, 0, 0, 0]⟩ (by rfl) (by rfl)
  refine ⟨hfail, hw, hname, hsel, ?_, ?_, ?_⟩
  · rw [hnonce]
    rfl
  · rw [hfid]
    rfl
  · rcases hC with ⟨_, hhint⟩ | ⟨els, val, hp2, hh, _⟩
    · exact hhint
    · rw [hp] at hp2
      cases hp2
      have hnone : findBlock noForwardingModeElements sampleTlv.ForwardingHint = none := by
        rfl
      rw [hnone] at hh
      cases hh

/-- C16, the claim as stated fails. An Interest and a Data that hold their wire (and the
Data its full name) are given a block that has a Name element and nothing else: both
calls fail, and both packets now hold the name of that block and that block as their
wire; the Data has lost its cached full name. -/
theorem wireDecode_failure_mutates_counterexample :
    encodedInterest.m_name = [comp [97], comp [98]]
    ∧ (encodedInterest.wireDecode sampleCodecs sampleTlv nameOnlyInterestWire).1
        = .error Exn.interestError
    ∧ (encodedInterest.wireDecode sampleCodecs sampleTlv nameOnlyInterestWire).2.m_name
        = [comp [98]]
    ∧ encodedInterest.m_wire ≠ some nameOnlyInterestWire
    ∧ (encodedInterest.wireDecode sampleCodecs sampleTlv nameOnlyInterestWire).2.m_wire
        = some nameOnlyInterestWire
    ∧ encodedData.m_name = [comp [97], comp [98]]
    ∧ encodedData.m_wire = some signedDataWire
    ∧ encodedData.m_fullName ≠ []
    ∧ (encodedData.wireDecode sampleCodecs sampleTlv nameOnlyDataWire).1
        = .error Exn.tlvError
    ∧ (encodedData.wireDecode sampleCodecs sampleTlv nameOnlyDataWire).2.m_name
        = [comp [98]]
    ∧ (encodedData.wireDecode sampleCodecs sampleTlv nameOnlyDataWire).2.m_wire
        = some nameOnlyDataWire
    ∧ (encodedData.wireDecode sampleCodecs sampleTlv nameOnlyDataWire).2.m_fullName = [] := by
  refine ⟨by rfl, by rfl, by rfl, by decide, by rfl, by rfl, by rfl, by decide, by rfl, by rfl,
    by rfl, by rfl⟩


/-- The lifetime a successful `Interest::wireDecode` leaves when the block has an
InterestLifetime element: the unsigned value read from it, converted to the signed
64-bit count. -/
theorem Interest.wireDecode_lifetime (cd : Codecs) (t : TlvTypes) (x : Interest)
    (wire : Block) (els : List Element) (val : Block) (v : Nat)
    (hp : parseElements wire.value [] = .ok els)
    (hl : findBlock els t.InterestLifetime = some val)
    (hv : cd.readNonNegativeInteger val = .ok v)
    (h : (x.wireDecode cd t wire).1 = .ok ()) :
    (x.wireDecode cd t wire).2.m_interestLifetime = toInt64 v := by
  obtain ⟨els2, nb, name, sel, vn, vf, vm, life, hint, hp2, _, _, _, _, _, _, _, _, _, _, _,
    hlife, _, _, _, hst⟩ := Interest.wireDecode_inv cd t x wire h
  rw [hp] at hp2
  cases hp2
  obtain ⟨v2, hv2, hlv⟩ := hlife val hl
  rw [hv] at hv2
  cases hv2
  rw [hst]
  exact hlv

/-- C18, the invariant fails at `wireDecode`. Whenever a block decodes and its
InterestLifetime element carries an integer `v` with `2^63 ≤ v < 2^64`, the Interest is
left with the lifetime `v - 2^64`, which is negative; the sample block with the value
`2^64 - 1` decodes and leaves the lifetime -1. The constructor and `setInterestLifetime`
reject the same value. -/
theorem interest_wireDecode_negative_lifetime :
    (∀ (cd : Codecs) (t : TlvTypes) (x : Interest) (wire : Block) (els : List Element)
        (val : Block) (v : Nat),
        parseElements wire.value [] = .ok els →
        findBlock els t.InterestLifetime = some val →
        cd.readNonNegativeInteger val = .ok v → 2 ^ 63 ≤ v → v < 2 ^ 64 →
        (x.wireDecode cd t wire).1 = .ok () →
        (x.wireDecode cd t wire).2.m_interestLifetime = (v : Int) - 2 ^ 64
        ∧ (x.wireDecode cd t wire).2.m_interestLifetime < 0)
    ∧ ((sampleInterest [] Selectors.default).wireDecode sampleCodecs sampleTlv
        hugeLifetimeWire).1 = .ok ()
    ∧ ((sampleInterest [] Selectors.default).wireDecode sampleCodecs sampleTlv
        hugeLifetimeWire).2.m_interestLifetime = -1
    ∧ Interest.new [comp [97]] (-1) = .error Exn.invalidArgument
    ∧ ((sampleInterest [] Selectors.default).setInterestLifetime (-1)).1
        = .error Exn.invalidArgument := by
  refine ⟨?_, by rfl, by rfl, by rfl, by rfl⟩
  intro cd t x wire els val v hp hl hv hlo hhi h
  rw [Interest.wireDecode_lifetime cd t x wire els val v hp hl hv h]
  have hm : v % 2 ^ 64 = v := Nat.mod_eq_of_lt hhi
  have hnot : ¬ (v % 2 ^ 64 < 2 ^ 63) := by
    rw [hm]
    exact Nat.not_lt.mpr hlo
  unfold toInt64
  rw [if_neg hnot, hm]
  refine ⟨rfl, ?_⟩
  have hcast : (v : Int) < 2 ^ 64 := by exact_mod_cast hhi
  omega

/-- C11, the round trip of the list of ids fails. `wireEncode()` on the sample Data with
the ids 5 and 6 gives a block whose IdsList element holds, for each id, the length 4 and
the four bytes of the id with no type number before them, the last id first; decoding
that block into a Data with no ids leaves it with no ids. With the ids 5 and 393480 the
decoded list is the single id 67110401. -/
theorem data_idsList_roundtrip_fails :
    signedData.m_idsList = [5, 6]
    ∧ (signedData.wireEncode sampleCodecs sampleTlv).1 = .ok signedDataWire
    ∧ ((sampleData [] [] none).wireDecode sampleCodecs sampleTlv signedDataWire).1 = .ok ()
    ∧ ((sampleData [] [] none).wireDecode sampleCodecs sampleTlv signedDataWire).2.m_idsList
        = []
    ∧ twoIdData.m_idsList = [5, 393480]
    ∧ (twoIdData.wireEncode sampleCodecs sampleTlv).1 = .ok twoIdWire
    ∧ ((sampleData [] [] none).wireDecode sampleCodecs sampleTlv twoIdWire).1 = .ok ()
    ∧ ((sampleData [] [] none).wireDecode sampleCodecs sampleTlv twoIdWire).2.m_idsList
        = [67110401] := by
  refine ⟨by rfl, by rfl, by rfl, by rfl, by rfl, by rfl, by rfl, by rfl⟩

/-- C12, encoding twice does not give the same bytes. The first `wireEncode()` on the
sample Data with the ids 5 and 393480 returns one block and leaves the packet with the
single id 67110401; the second call returns a different, shorter block. Encoding the
Data decoded from the first block gives that second block too. -/
theorem data_wireEncode_twice_differs :
    twoIdData.m_idsList = [5, 393480]
    ∧ (twoIdData.wireEncode sampleCodecs sampleTlv).1 = .ok twoIdWire
    ∧ (twoIdData.wireEncode sampleCodecs sampleTlv).2.m_idsList = [67110401]
    ∧ ((twoIdData.wireEncode sampleCodecs sampleTlv).2.wireEncode sampleCodecs sampleTlv).1
        = .ok twoIdWireAgain
    ∧ (((sampleData [] [] none).wireDecode sampleCodecs sampleTlv twoIdWire).2.wireEncode
        sampleCodecs sampleTlv).1 = .ok twoIdWireAgain
    ∧ twoIdWireAgain.wire ≠ twoIdWire.wire
    ∧ twoIdWireAgain.wire.length + 5 = twoIdWire.wire.length := by
  refine ⟨by rfl, by rfl, by rfl, by rfl, by rfl, by decide, by rfl⟩

end ndn

/-! # Theorems: Interest against Interest, and the Data algorithm against the name algorithm -/

namespace ndn

/-- C21: `a.matchesInterest(b)` is true exactly when the names are equal and the
selectors are equal. Hence an Interest matches every Interest that differs from it only
in forwarding hint, nonce, lifetime, forwarderId, forwardingMode or cached wire; the
relation is reflexive and symmetric. -/
theorem matchesInterest_iff (a b : Interest) :
    (a.matchesInterest b = true ↔ a.m_name = b.m_name ∧ a.m_selectors = b.m_selectors)
    ∧ (∀ (hint : DelegationList) (nonce : Option Nat) (lifetime : Int)
        (forwarderId forwardingMode : Nat) (wire : Option Block),
        a.matchesInterest
          { a with m_forwardingHint := hint, m_nonce := nonce,
                   m_interestLifetime := lifetime, m_forwarderId := forwarderId,
                   m_forwardingMode := forwardingMode, m_wire := wire } = true)
    ∧ a.matchesInterest a = true
    ∧ a.matchesInterest b = b.matchesInterest a := by
  unfold Interest.matchesInterest Interest.getName Interest.getSelectors
  refine ⟨?_, ?_, ?_, ?_⟩
  · simp only [Bool.and_eq_true, decide_eq_true_eq]
  · intro hint nonce lifetime forwarderId forwardingMode wire
    simp only [decide_True, Bool.and_self]
  · simp only [decide_True, Bool.and_self]
  · by_cases h1 : a.m_name = b.m_name <;> by_cases h2 : a.m_selectors = b.m_selectors <;>
      simp [h1, h2, eq_comm]

/-- On a Data without the one-longer case, the prefix check of `matchesData` is the test
`isPrefixOf` against the Data's name. -/
theorem matchesDataPrefix_of_ne (p : Primitives) (x : Interest) (d : Data)
    (hlen : x.m_name.length ≠ d.m_name.length + 1) :
    x.matchesDataPrefix p d
      = if Name.isPrefixOf x.m_name d.m_name then none else some (.ok false) := by
  unfold Interest.matchesDataPrefix
  have hne : ¬ (x.m_name.size = d.m_name.size + 1) := hlen
  simp only [hne, if_false]
  cases Name.isPrefixOf x.m_name d.m_name <;> rfl

/-- With at most as many components as the Data's name, a name is a prefix of the Data's
name exactly when it is a prefix of the name followed by one more component. -/
theorem isPrefixOf_append_singleton (a b : Name) (c : Component) (hle : a.length ≤ b.length) :
    Name.isPrefixOf a (b ++ [c]) = Name.isPrefixOf a b := by
  have hiff : a <+: b ++ [c] ↔ a <+: b := by
    constructor
    · intro h
      exact List.prefix_of_prefix_length_le h (List.prefix_append b [c]) hle
    · intro h
      exact h.trans (List.prefix_append b [c])
  cases h1 : Name.isPrefixOf a b with
  | true => exact (Name.isPrefixOf_iff _ _).mpr (hiff.mpr ((Name.isPrefixOf_iff _ _).mp h1))
  | false =>
    cases h2 : Name.isPrefixOf a (b ++ [c]) with
    | false => rfl
    | true =>
      have := (Name.isPrefixOf_iff _ _).mpr (hiff.mp ((Name.isPrefixOf_iff _ _).mp h2))
      rw [h1] at this
      cases this

/-- On a wire-encoded Data, the prefix check of `matchesData` passes exactly when the
Interest's name is a prefix of the full name. -/
theorem matchesDataPrefix_eq (p : Primitives) (x : Interest) (d : Data) (w : Block)
    (hw : d.m_wire = some w) (hc : d.CacheOk p)
    (hle : x.m_name.length ≤ d.m_name.length + 1) :
    x.matchesDataPrefix p d
      = if Name.isPrefixOf x.m_name (d.m_name ++ [Component.mk true (p.sha256 w.wire)])
        then none else some (.ok false) := by
  by_cases h1 : x.m_name.length = d.m_name.length + 1
  · unfold Interest.matchesDataPrefix
    dsimp only
    have h1s : x.m_name.size = d.m_name.size + 1 := h1
    rw [if_pos h1s]
    have hpos : 1 ≤ x.m_name.length := by omega
    have hlt : x.m_name.length - 1 < x.m_name.length := by omega
    rw [Name.get_neg_one _ hpos, List.getElem?_eq_getElem hlt, getFullName_of_wire p d w hw hc]
    dsimp only
    by_cases heq : x.m_name = d.m_name ++ [Component.mk true (p.sha256 w.wire)]
    · have hpre : Name.isPrefixOf x.m_name
          (d.m_name ++ [Component.mk true (p.sha256 w.wire)]) = true := by
        rw [Name.isPrefixOf_iff, heq]
      have hlast : (x.m_name[x.m_name.length - 1]).isImplicitSha256Digest = true := by
        have hidx : x.m_name[x.m_name.length - 1]?
            = some (Component.mk true (p.sha256 w.wire)) := by
          rw [h1, heq]
          simp
        rw [List.getElem?_eq_getElem hlt] at hidx
        rw [Option.some.inj hidx]
        rfl
      rw [hlast, if_pos rfl, if_neg (not_not.mpr heq), hpre, if_pos rfl]
    · have hpre : Name.isPrefixOf x.m_name
          (d.m_name ++ [Component.mk true (p.sha256 w.wire)]) = false := by
        cases hh : Name.isPrefixOf x.m_name
            (d.m_name ++ [Component.mk true (p.sha256 w.wire)]) with
        | false => rfl
        | true =>
          exfalso
          apply heq
          apply ((Name.isPrefixOf_iff _ _).mp hh).eq_of_length
          rw [List.length_append, List.length_singleton]
          exact h1
      rw [hpre]
      cases (x.m_name[x.m_name.length - 1]).isImplicitSha256Digest with
      | false => rfl
      | true => rw [if_pos rfl, if_pos heq]; rfl
  · have hle2 : x.m_name.length ≤ d.m_name.length := by omega
    rw [matchesDataPrefix_of_ne p x d h1, isPrefixOf_append_singleton _ _ _ hle2]

/-- On a wire-encoded Data, the exclude check of `matchesData` is the exclude test of
`matchesName` on the full name. -/
theorem matchesDataExclude_eq (p : Primitives) (x : Interest) (d : Data) (w : Block)
    (hw : d.m_wire = some w) (hc : d.CacheOk p) :
    x.matchesDataExclude p d
      = if (!x.getExclude.empty
            && decide ((d.m_name ++ [Component.mk true (p.sha256 w.wire)]).size > x.m_name.size)
            && (match Name.get (d.m_name ++ [Component.mk true (p.sha256 w.wire)])
                  x.m_name.size with
                | some c => p.isExcluded x.getExclude c
                | none => false)) = true
        then some (.ok false) else none := by
  have hsz : (d.m_name ++ [Component.mk true (p.sha256 w.wire)]).size = d.m_name.size + 1 := by
    simp only [Name.size, List.length_append, List.length_singleton]
  rw [hsz]
  unfold Interest.matchesDataExclude
  dsimp only
  by_cases h0 : (!x.getExclude.empty && decide (d.m_name.size + 1 > x.m_name.size)) = true
  · rw [if_pos h0, h0, Bool.true_and]
    have hlt : x.m_name.length < d.m_name.length + 1 := by
      simp only [Bool.and_eq_true, decide_eq_true_eq, Name.size] at h0
      exact h0.2
    have hidx : x.m_name.length
        < (d.m_name ++ [Component.mk true (p.sha256 w.wire)]).length := by
      rw [List.length_append, List.length_singleton]
      exact hlt
    have hg : Name.get (d.m_name ++ [Component.mk true (p.sha256 w.wire)])
        (x.m_name.length : Int)
        = some ((d.m_name ++ [Component.mk true (p.sha256 w.wire)])[x.m_name.length]) := by
      rw [Name.get_ofNat]
      exact List.getElem?_eq_getElem hidx
    by_cases h1 : x.m_name.size = d.m_name.size + 1 - 1
    · rw [if_pos h1, getFullName_of_wire p d w hw hc]
      dsimp only
      simp only [Name.size, hg]
    · rw [if_neg h1]
      have hidx2 : x.m_name.length < d.m_name.length := by
        simp only [Name.size, Nat.add_sub_cancel] at h1
        omega
      have hg2 : Name.get d.m_name (x.m_name.length : Int)
          = some ((d.m_name ++ [Component.mk true (p.sha256 w.wire)])[x.m_name.length]) := by
        rw [Name.get_ofNat, ← List.getElem?_append_left hidx2]
        exact List.getElem?_eq_getElem hidx
      simp only [Name.size, hg, hg2]
  · rw [if_neg h0]
    have h0f : (!x.getExclude.empty && decide (d.m_name.size + 1 > x.m_name.size)) = false := by
      cases hb : (!x.getExclude.empty && decide (d.m_name.size + 1 > x.m_name.size)) with
      | false => rfl
      | true => exact absurd hb h0
    rw [h0f, Bool.false_and, if_neg Bool.false_ne_true]

/-- C25: for an Interest with an empty publisher key locator and a Data that carries a
wire encoding, `getFullName()` returns the name followed by the implicit digest of the
wire, and `matchesData` returns what `matchesName` returns on that full name. -/
theorem matchesData_eq_matchesName_fullName (p : Primitives) (t : TlvTypes) (x : Interest)
    (d : Data) (w : Block) (hkl : x.getPublisherPublicKeyLocator = none)
    (hw : d.m_wire = some w) (hc : d.CacheOk p) :
    (d.getFullName p).1 = .ok (d.m_name ++ [Component.mk true (p.sha256 w.wire)])
    ∧ x.matchesData p t d
        = .ok (x.matchesName p (d.m_name ++ [Component.mk true (p.sha256 w.wire)])) := by
  refine ⟨getFullName_of_wire p d w hw hc, ?_⟩
  have hsz : (d.m_name ++ [Component.mk true (p.sha256 w.wire)]).size = d.m_name.size + 1 := by
    simp only [Name.size, List.length_append, List.length_singleton]
  by_cases hle : x.m_name.length ≤ d.m_name.length + 1
  · unfold Interest.matchesData Interest.matchesName
    dsimp only
    rw [matchesDataPrefix_eq p x d w hw hc hle, matchesDataExclude_eq p x d w hw hc,
      matchesKeyLocator_of_none t x d hkl, hsz]
    have h1 : ¬ (d.m_name.size + 1 < x.m_name.size) := by
      simp only [Name.size]
      omega
    have e1 : decide (d.m_name.size + 1 - x.m_name.size ≥ x.getMinSuffixComponents.toNat)
        = decide (x.m_name.size + x.getMinSuffixComponents.toNat ≤ d.m_name.size + 1) := by
      apply decide_eq_decide.mpr
      simp only [Name.size]
      omega
    have e2 : decide (d.m_name.size + 1 - x.m_name.size ≤ x.getMaxSuffixComponents.toNat)
        = decide (x.m_name.size + x.getMaxSuffixComponents.toNat ≥ d.m_name.size + 1) := by
      apply decide_eq_decide.mpr
      simp only [Name.size]
      omega
    rw [if_neg h1, e1, e2]
    generalize Name.isPrefixOf x.m_name
      (d.m_name ++ [Component.mk true (p.sha256 w.wire)]) = A
    generalize (!x.getExclude.empty && decide (d.m_name.size + 1 > x.m_name.size)
      && (match Name.get (d.m_name ++ [Component.mk true (p.sha256 w.wire)])
            x.m_name.size with
          | some c => p.isExcluded x.getExclude c
          | none => false)) = E
    generalize decide (x.m_name.size + x.getMaxSuffixComponents.toNat ≥ d.m_name.size + 1) = R
    generalize decide (x.getMaxSuffixComponents ≥ 0) = Q
    by_cases ha : x.getMinSuffixComponents ≥ 0
    · simp only [ha, decide_True, if_true, Bool.true_and]
      generalize decide (x.m_name.size + x.getMinSuffixComponents.toNat ≤ d.m_name.size + 1) = P
      cases A <;> cases E <;> cases P <;> cases Q <;> cases R <;> rfl
    · have h0 : x.m_name.size + 0 ≤ d.m_name.size + 1 := by
        simp only [Name.size]
        omega
      simp only [ha, decide_False, if_false, Bool.false_and, h0, decide_True, Bool.not_true,
        Bool.false_eq_true]
      cases A <;> cases E <;> cases Q <;> cases R <;> rfl
  · have h1 : d.m_name.size + 1 < x.m_name.size := by
      simp only [Name.size]
      omega
    have h2 : ¬ (x.m_name.size + (if decide (x.getMinSuffixComponents ≥ 0) = true then
        x.getMinSuffixComponents.toNat else 0) ≤ d.m_name.size + 1) := by
      simp only [Name.size] at h1 ⊢
      omega
    unfold Interest.matchesData Interest.matchesName
    dsimp only
    rw [hsz, if_pos h1]
    simp only [h2, decide_False, Bool.not_false, if_true]

/-- C25, on a sample: Interest `/a` with the exclude filter `b` against the encoded sample
Data `/a/b`: both algorithms answer false. -/
theorem matchesData_eq_matchesName_fullName_witness :
    encodedData.m_wire = some signedDataWire
    ∧ (sampleInterest [comp [97]]
        { Selectors.default with exclude := [ExcludeEntry.component (comp [98])] }).matchesData
        samplePrimitives sampleTlv encodedData
      = .ok ((sampleInterest [comp [97]]
          { Selectors.default with
            exclude := [ExcludeEntry.component (comp [98])] }).matchesName samplePrimitives
          (encodedData.m_name ++ [Component.mk true (samplePrimitives.sha256 signedDataWire.wire)]))
    ∧ (sampleInterest [comp [97]]
        { Selectors.default with exclude := [ExcludeEntry.component (comp [98])] }).matchesData
        samplePrimitives sampleTlv encodedData = .ok false :=
  ⟨by rfl,
   (matchesData_eq_matchesName_fullName samplePrimitives sampleTlv
      (sampleInterest [comp [97]]
        { Selectors.default with exclude := [ExcludeEntry.component (comp [98])] })
      encodedData signedDataWire (by rfl) (by rfl) (Or.inr ⟨signedDataWire, by rfl, by rfl⟩)).2,
   by rfl⟩

/-- C24, as the code has it: when the Interest's name is not one component longer than
the Data's name and `matchesData` is true, the Interest's name is a prefix of the Data's
name, which it may equal; it is then a prefix of the Data's name followed by any further
component and differs from that longer name. -/
theorem matchesData_prefix_of_data_name (p : Primitives) (t : TlvTypes) (x : Interest)
    (d : Data) (hlen : x.m_name.length ≠ d.m_name.length + 1)
    (h : x.matchesData p t d = .ok true) :
    x.m_name <+: d.m_name
    ∧ x.m_name.length ≤ d.m_name.length
    ∧ (∀ c : Component, x.m_name <+: d.m_name ++ [c] ∧ x.m_name ≠ d.m_name ++ [c]) := by
  have hp := matchesDataPrefix_of_true p t x d h
  rw [matchesDataPrefix_of_ne p x d hlen] at hp
  have hpre : x.m_name <+: d.m_name := by
    cases hb : Name.isPrefixOf x.m_name d.m_name with
    | true => exact (Name.isPrefixOf_iff _ _).mp hb
    | false =>
      rw [hb] at hp
      cases hp
  refine ⟨hpre, hpre.length_le, ?_⟩
  intro c
  refine ⟨hpre.trans (List.prefix_append _ _), ?_⟩
  intro heq
  have hl := congrArg List.length heq
  rw [List.length_append, List.length_singleton] at hl
  exact hlen hl

/-- C24, on a sample: Interest `/a` matches the encoded sample Data `/a/b`, and `/a` is a
prefix of `/a/b`. -/
theorem matchesData_prefix_of_data_name_witness :
    (sampleInterest [comp [97]] Selectors.default).matchesData samplePrimitives sampleTlv
        encodedData = .ok true
    ∧ (sampleInterest [comp [97]] Selectors.default).m_name <+: encodedData.m_name :=
  ⟨by rfl,
   (matchesData_prefix_of_data_name samplePrimitives sampleTlv
      (sampleInterest [comp [97]] Selectors.default) encodedData (by decide) (by rfl)).1⟩

/-- C24, the claim as stated fails: Interest `/a/b` without selectors matches the encoded
sample Data `/a/b`; the lengths are 2 and 2, and the Interest's name is equal to the
Data's name, so it is not a strict prefix of it. -/
theorem matchesData_strict_prefix_counterexample :
    (sampleInterest [comp [97], comp [98]] Selectors.default).matchesData samplePrimitives
        sampleTlv encodedData = .ok true
    ∧ (sampleInterest [comp [97], comp [98]] Selectors.default).m_name.length
        ≠ encodedData.m_name.length + 1
    ∧ (sampleInterest [comp [97], comp [98]] Selectors.default).m_name = encodedData.m_name := by
  refine ⟨by rfl, by decide, by rfl⟩

end ndn

/-! # Theorems: the layout of an encoded Data -/

namespace ndn

theorem idsListValue_length (l : List Int) : (idsListValue l).length = 5 * l.length := by
  induction l with
  | nil => rfl
  | cons id l ih =>
    simp only [idsListValue, List.length_append, List.length_cons, u32Bytes_length, ih]
    omega

theorem idsListValue_append (l : List Int) (id : Int) :
    idsListValue (l ++ [id]) = (4 :: u32Bytes (toUint32 id)) ++ idsListValue l := by
  induction l with
  | nil => simp [idsListValue]
  | cons a l ih =>
    rw [List.cons_append]
    simp only [idsListValue]
    rw [ih, List.append_assoc]

/-- An element with a 4-byte value takes six bytes or more: type number, length, value. -/
theorem wire_length_of_four (b : Block) (h : b.value.length = 4) : 6 ≤ b.wire.length := by
  have hne := encodeVarNumber_ne_nil b.type
  have hpos : 1 ≤ (encodeVarNumber b.type).length := by
    cases hh : encodeVarNumber b.type with
    | nil => exact absurd hh hne
    | cons a l => simp
  unfold Block.wire
  rw [List.length_append, List.length_append, h, encodeVarNumber_four, List.length_singleton]
  omega

theorem wireOfBlocks_length_of_four (subs : List Block) (h : ∀ b ∈ subs, b.value.length = 4) :
    6 * subs.length ≤ (wireOfBlocks subs).length := by
  induction subs with
  | nil => simp [wireOfBlocks]
  | cons b l ih =>
    have hb := wire_length_of_four b (h b (List.mem_cons_self _ _))
    have hl := ih (fun c hc => h c (List.mem_cons_of_mem _ hc))
    simp only [wireOfBlocks, List.length_append, List.length_cons]
    omega

/-- C22, as the code has it: `wireEncode(encoder, false)` on a signed Data fills the
buffer with the Data type number, the length of the value, and the value, which is the
concatenation of the elements in this order: IdsList, InitialHop, ResidualEnergy, Name,
MetaInfo, Content, SignatureInfo, SignatureValue. The returned `totalLength` is the
number of bytes written. -/
theorem data_wire_element_order (cd : Codecs) (t : TlvTypes) (d : Data)
    (hs : d.m_signature.isSet = true) :
    ∃ value total,
      value = Block.wire ⟨t.IdsList, idsListValue d.m_idsList⟩
          ++ Block.wire ⟨t.InitialHop, u32Bytes d.m_initialHop⟩
          ++ Block.wire ⟨t.ResidualEnergy, u32Bytes d.m_residualEnergy⟩
          ++ Block.wire ⟨t.Name, cd.nameValue d.m_name⟩
          ++ Block.wire ⟨t.MetaInfo, cd.metaInfoValue d.m_metaInfo⟩
          ++ d.m_content.wire ++ d.m_signature.info.wire ++ d.m_signature.value.wire
      ∧ d.wireEncodeImpl cd t [] false
          = .ok (encodeVarNumber t.Data ++ encodeVarNumber value.length ++ value, total)
      ∧ total = (encodeVarNumber t.Data ++ encodeVarNumber value.length ++ value).length := by
  refine ⟨wireOfBlocks (d.wireElements cd t), _, ?_, Data.wireEncodeImpl_dataBytes cd t d hs, rfl⟩
  unfold Data.wireElements
  simp only [wireOfBlocks, List.append_assoc, List.append_nil]

/-- C22, on a sample: the bytes of the encoded sample Data. -/
theorem data_wire_element_order_witness :
    signedData.wireEncodeImpl sampleCodecs sampleTlv [] false
      = .ok ([6, 49] ++ ([132, 10, 4, 6, 0, 0, 0, 4, 5, 0, 0, 0] ++ [131, 4, 2, 0, 0, 0]
          ++ [130, 4, 77, 0, 0, 0] ++ [7, 6, 8, 1, 97, 8, 1, 98] ++ [20, 1, 0]
          ++ [21, 3, 1, 2, 3] ++ [22, 3, 27, 1, 1] ++ [23, 2, 170, 187]), 51) := by
  obtain ⟨value, total, hv, henc, ht⟩ :=
    data_wire_element_order sampleCodecs sampleTlv signedData (by rfl)
  rw [henc]
  subst hv
  subst ht
  rfl

/-- C22, the claim as stated fails: the value of the encoded sample Data starts with the
IdsList element, then InitialHop and ResidualEnergy, and only then Name; it is not the
concatenation of the same elements in the order Name, MetaInfo, Content, ResidualEnergy,
InitialHop, IdsList, SignatureInfo, SignatureValue. -/
theorem data_wire_element_order_counterexample :
    (signedData.wireEncode sampleCodecs sampleTlv).1 = .ok signedDataWire
    ∧ (parseElements signedDataWire.value []).map (fun els => els.map (fun e => e.block.type))
        = .ok [sampleTlv.IdsList, sampleTlv.InitialHop, sampleTlv.ResidualEnergy,
            sampleTlv.Name, sampleTlv.MetaInfo, sampleTlv.Content, sampleTlv.SignatureInfo,
            sampleTlv.SignatureValue]
    ∧ signedDataWire.value
        ≠ wireOfBlocks [⟨sampleTlv.Name, sampleCodecs.nameValue signedData.m_name⟩,
            ⟨sampleTlv.MetaInfo, sampleCodecs.metaInfoValue signedData.m_metaInfo⟩,
            signedData.m_content,
            ⟨sampleTlv.ResidualEnergy, u32Bytes signedData.m_residualEnergy⟩,
            ⟨sampleTlv.InitialHop, u32Bytes signedData.m_initialHop⟩,
            ⟨sampleTlv.IdsList, idsListValue signedData.m_idsList⟩,
            signedData.m_signature.info, signedData.m_signature.value] := by
  refine ⟨by rfl, by rfl, by decide⟩

/-- C23, the sub-elements of IdsList have no type number. `wireEncodeIdsList` writes the
IdsList type number, the length `5 * n` and, for each id, the length byte 4 and the four
bytes of the id, the last id first. A sequence of `n` complete elements with 4-byte
values takes `6 * n` bytes or more, so for a list with one id or more the value is not
such a sequence. For the ids 5 and 6 the value is 04 06 00 00 00 04 05 00 00 00. -/
theorem data_idsList_elements_lack_type :
    (∀ (t : TlvTypes) (d : Data) (enc : Encoder),
        (d.wireEncodeIdsList t enc).1
          = encodeVarNumber t.IdsList ++ encodeVarNumber (5 * d.m_idsList.length)
              ++ idsListValue d.m_idsList ++ enc)
    ∧ (∀ l : List Int, (idsListValue l).length = 5 * l.length)
    ∧ idsListValue [] = []
    ∧ (∀ (l : List Int) (id : Int),
        idsListValue (l ++ [id]) = (4 :: u32Bytes (toUint32 id)) ++ idsListValue l)
    ∧ (∀ (l : List Int) (subs : List Block), l ≠ [] → subs.length = l.length →
        (∀ b ∈ subs, b.value.length = 4) → wireOfBlocks subs ≠ idsListValue l)
    ∧ idsListValue [5, 6] = [4, 6, 0, 0, 0, 4, 5, 0, 0, 0]
    ∧ (signedData.wireEncodeIdsList sampleTlv []).1
        = [132, 10, 4, 6, 0, 0, 0, 4, 5, 0, 0, 0] := by
  refine ⟨?_, idsListValue_length, rfl, idsListValue_append, ?_, by rfl, by rfl⟩
  · intro t d enc
    rw [Data.wireEncodeIdsList_bytes]
    simp only [Block.wire, idsListValue_length, List.append_assoc]
  · intro l subs hne hlen hfour heq
    have h6 := wireOfBlocks_length_of_four subs hfour
    have h5 := idsListValue_length l
    rw [← heq] at h5
    have hpos : 0 < l.length := List.length_pos.mpr hne
    omega

end ndn
